import Mathlib

/-!
# BusTub `LRUReplacer` (src/buffer/lru_replacer.cpp) and `RowMatrix` (src/include/primer/p0_starter.h)

A shallow embedding of the replacer: the reference-counted doubly linked list
is kept as an explicit heap of `Node`s addressed by natural numbers, the
`std::unordered_map` as an association list, and every member function as a
function on that state.  A null or dangling dereference and an exhausted loop
budget are explicit faults.

The matrices of the primer are embedded with their two arrays, `int` entries
and array sizes with 32-bit arithmetic, and an access outside an array or an
allocation of negative length as a fault.
-/

namespace bustub

/-- The type `frame_id_t` of common/config.h (a signed integer; the replacer
only compares and copies frame ids). -/
abbrev frame_id_t := Int

/-- A `std::shared_ptr<Node>`: `none` is `nullptr`, `some a` the node at address `a`. -/
abbrev Ptr := Option Nat

/-- The class `Node` of lru_replacer.h. -/
structure Node where
  frame_id_ : frame_id_t
  left_ : Ptr
  right_ : Ptr
deriving DecidableEq, Repr

/-- What can go wrong while running a member function. -/
inductive Fault where
  | nullDeref
  | outOfFuel
deriving DecidableEq, Repr

/-- The nodes allocated so far; the address of a node is its index. -/
abbrev Heap := List Node

/-- Reads the node `p` points to (`*p`). -/
def Heap.load (H : Heap) (p : Ptr) : Except Fault Node :=
  match p with
  | none => .error .nullDeref
  | some a =>
    match H[a]? with
    | none => .error .nullDeref
    | some n => .ok n

/-- Stores `p->left_ = v`. -/
def Heap.setLeft (H : Heap) (p : Ptr) (v : Ptr) : Except Fault Heap :=
  match p with
  | none => .error .nullDeref
  | some a =>
    match H[a]? with
    | none => .error .nullDeref
    | some n => .ok (H.set a { n with left_ := v })

/-- Stores `p->right_ = v`. -/
def Heap.setRight (H : Heap) (p : Ptr) (v : Ptr) : Except Fault Heap :=
  match p with
  | none => .error .nullDeref
  | some a =>
    match H[a]? with
    | none => .error .nullDeref
    | some n => .ok (H.set a { n with right_ := v })

/-- Allocates `std::make_shared<Node>(frame_id)`: a new node with null links. -/
def make_shared (H : Heap) (frame_id : frame_id_t) : Heap × Ptr :=
  (H ++ [{ frame_id_ := frame_id, left_ := none, right_ := none }], some H.length)

/-- The `std::unordered_map<frame_id_t, std::shared_ptr<Node>>`, as an association list
with at most one entry per key. -/
abbrev PageTable := List (frame_id_t × Ptr)

/-- The lookup `page_table_.find(k)`: `none` stands for `end()`. -/
def PageTable.find (m : PageTable) (k : frame_id_t) : Option Ptr :=
  match m with
  | [] => none
  | (k', v) :: rest => if k' = k then some v else PageTable.find rest k

/-- The removal `page_table_.erase(k)`. -/
def PageTable.erase (m : PageTable) (k : frame_id_t) : PageTable :=
  m.filter (fun e => decide (e.1 ≠ k))

/-- The assignment `page_table_[k] = v`: overwrites an entry, or adds one. -/
def PageTable.assign (m : PageTable) (k : frame_id_t) (v : Ptr) : PageTable :=
  match PageTable.find m k with
  | some _ => m.map (fun e => if e.1 = k then (k, v) else e)
  | none => m ++ [(k, v)]

/-- The private state of `LRUReplacer` (the mutex apart), with the heap its nodes live in. -/
structure LRUReplacer where
  heap : Heap
  head_ : Ptr
  tail_ : Ptr
  page_table_ : PageTable
  capacity_ : Nat
deriving DecidableEq, Repr

/-- The constructor `LRUReplacer::LRUReplacer(num_pages)`. -/
def LRUReplacer.construct (num_pages : Nat) : Except Fault LRUReplacer := do
  let (H1, head) := make_shared [] (-1)
  let (H2, tail) := make_shared H1 (-1)
  let H3 ← Heap.setRight H2 head tail
  let H4 ← Heap.setLeft H3 tail head
  pure { heap := H4, head_ := head, tail_ := tail, page_table_ := [], capacity_ := num_pages }

/-- The private `LRUReplacer::insert(node)`. -/
def LRUReplacer.insert (s : LRUReplacer) (node : Ptr) : Except Fault LRUReplacer := do
  if node = none then
    return s
  -- node->right_ = head_->right_;
  let h ← Heap.load s.heap s.head_
  let H1 ← Heap.setRight s.heap node h.right_
  -- node->left_ = head_;
  let H2 ← Heap.setLeft H1 node s.head_
  -- head_->right_->left_ = node;
  let h ← Heap.load H2 s.head_
  let H3 ← Heap.setLeft H2 h.right_ node
  -- head_->right_ = node;
  let H4 ← Heap.setRight H3 s.head_ node
  -- page_table_[node->frame_id_] = node;
  let n ← Heap.load H4 node
  pure { s with heap := H4, page_table_ := PageTable.assign s.page_table_ n.frame_id_ node }

/-- The private `LRUReplacer::remove(frame_id)`, with its boolean result. -/
def LRUReplacer.remove (s : LRUReplacer) (frame_id : frame_id_t) :
    Except Fault (Bool × LRUReplacer) := do
  match PageTable.find s.page_table_ frame_id with
  | none => return (false, s)
  | some node =>
    -- node->right_->left_ = node->left_;
    let n ← Heap.load s.heap node
    let H1 ← Heap.setLeft s.heap n.right_ n.left_
    -- node->left_->right_ = node->right_;
    let n ← Heap.load H1 node
    let H2 ← Heap.setRight H1 n.left_ n.right_
    -- page_table_.erase(frame_id);
    pure (true, { s with heap := H2, page_table_ := PageTable.erase s.page_table_ frame_id })

/-- The result of `Victim`: the returned flag, and the value stored through the
`frame_id` pointer (`none` when nothing is stored). -/
structure VictimResult where
  ret : Bool
  frame_id : Option frame_id_t
deriving DecidableEq, Repr

/-- The member `LRUReplacer::Victim(frame_id)`. -/
def LRUReplacer.Victim (s : LRUReplacer) : Except Fault (VictimResult × LRUReplacer) := do
  if s.page_table_.isEmpty then
    return ({ ret := false, frame_id := none }, s)
  let t ← Heap.load s.heap s.tail_
  let last_node := t.left_
  let l ← Heap.load s.heap last_node
  let (_, s1) ← LRUReplacer.remove s l.frame_id_
  let l ← Heap.load s1.heap last_node
  pure ({ ret := true, frame_id := some l.frame_id_ }, s1)

/-- The member `LRUReplacer::Pin(frame_id)`. -/
def LRUReplacer.Pin (s : LRUReplacer) (frame_id : frame_id_t) : Except Fault LRUReplacer := do
  match PageTable.find s.page_table_ frame_id with
  | some _ =>
    let (_, s1) ← LRUReplacer.remove s frame_id
    pure s1
  | none => pure s

/-- The loop `while (page_table_.size() >= capacity_) { p = tail_->left_; remove(p->frame_id_); }`
of `Unpin`, run for at most `fuel` iterations. -/
def LRUReplacer.evictLoop : Nat → LRUReplacer → Except Fault LRUReplacer
  | fuel, s =>
    if s.page_table_.length ≥ s.capacity_ then
      match fuel with
      | 0 => .error .outOfFuel
      | fuel + 1 => do
        let t ← Heap.load s.heap s.tail_
        let p := t.left_
        let pn ← Heap.load s.heap p
        let (_, s1) ← LRUReplacer.remove s pn.frame_id_
        LRUReplacer.evictLoop fuel s1
    else
      pure s

/-- The member `LRUReplacer::Unpin(frame_id)`; `fuel` bounds the iterations of its loop. -/
def LRUReplacer.Unpin (fuel : Nat) (s : LRUReplacer) (frame_id : frame_id_t) :
    Except Fault LRUReplacer := do
  match PageTable.find s.page_table_ frame_id with
  | none =>
    let s1 ← if s.page_table_.length ≥ s.capacity_ then LRUReplacer.evictLoop fuel s else pure s
    let (H, newNode) := make_shared s1.heap frame_id
    LRUReplacer.insert { s1 with heap := H } newNode
  | some _ => pure s

/-- The member `LRUReplacer::Size()`. -/
def LRUReplacer.Size (s : LRUReplacer) : Nat :=
  s.page_table_.length

/-- Follows `left_` links from `p` until the head sentinel is met, collecting the frame ids
on the way; `fuel` bounds the number of nodes visited. -/
def walkLeft (H : Heap) (head : Ptr) : Nat → Ptr → List frame_id_t
  | 0, _ => []
  | fuel + 1, p =>
    if p = head then []
    else
      match Heap.load H p with
      | .error _ => []
      | .ok n => n.frame_id_ :: walkLeft H head fuel n.left_

/-- The frame ids of the list nodes strictly between the sentinels, read from the node
next to the tail sentinel (`tail_->left_`, the next victim) towards the head sentinel
(the most recently unpinned frame comes last). -/
def LRUReplacer.evictionOrder (s : LRUReplacer) : List frame_id_t :=
  match Heap.load s.heap s.tail_ with
  | .error _ => []
  | .ok t => walkLeft s.heap s.head_ s.heap.length t.left_

/-- Frame `f` is tracked: `page_table_.find(f) != page_table_.end()`. -/
def LRUReplacer.tracked (s : LRUReplacer) (f : frame_id_t) : Bool :=
  (PageTable.find s.page_table_ f).isSome

/-- A call of one of the four public member functions. -/
inductive Call where
  | Unpin (frame_id : frame_id_t)
  | Pin (frame_id : frame_id_t)
  | Victim
  | Size
deriving DecidableEq, Repr

/-- A completed call together with what it returned. -/
inductive Event where
  | Unpin (frame_id : frame_id_t)
  | Pin (frame_id : frame_id_t)
  | Victim (r : VictimResult)
  | Size (n : Nat)
deriving DecidableEq, Repr

/-- Runs one call on the replacer. -/
def LRUReplacer.call (fuel : Nat) (s : LRUReplacer) : Call → Except Fault (Event × LRUReplacer)
  | .Unpin f => do
    let s1 ← LRUReplacer.Unpin fuel s f
    pure (.Unpin f, s1)
  | .Pin f => do
    let s1 ← LRUReplacer.Pin s f
    pure (.Pin f, s1)
  | .Victim => do
    let (r, s1) ← LRUReplacer.Victim s
    pure (.Victim r, s1)
  | .Size => pure (.Size (LRUReplacer.Size s), s)

/-- Runs a sequence of calls, one after the other, and records the history. -/
def LRUReplacer.run (fuel : Nat) : LRUReplacer → List Call → Except Fault (List Event × LRUReplacer)
  | s, [] => pure ([], s)
  | s, c :: cs => do
    let (e, s1) ← LRUReplacer.call fuel s c
    let (es, s2) ← LRUReplacer.run fuel s1 cs
    pure (e :: es, s2)

/-- Runs the calls on a freshly constructed `LRUReplacer(num_pages)`. -/
def LRUReplacer.runFresh (fuel : Nat) (num_pages : Nat) (cs : List Call) :
    Except Fault (List Event × LRUReplacer) := do
  let s ← LRUReplacer.construct num_pages
  LRUReplacer.run fuel s cs

/-- Calls `Victim` `n` times in a row and collects the results. -/
def LRUReplacer.victims : Nat → LRUReplacer → Except Fault (List VictimResult × LRUReplacer)
  | 0, s => pure ([], s)
  | n + 1, s => do
    let (r, s1) ← LRUReplacer.Victim s
    let (rs, s2) ← LRUReplacer.victims n s1
    pure (r :: rs, s2)

/-- The states a replacer can be in: those obtained from the constructor by completed
calls of `Unpin`, `Pin` and `Victim` (`Size` does not change the state). -/
inductive Reachable : LRUReplacer → Prop where
  | construct (num_pages : Nat) (s : LRUReplacer) :
      LRUReplacer.construct num_pages = .ok s → Reachable s
  | Unpin (fuel : Nat) (s s1 : LRUReplacer) (f : frame_id_t) :
      Reachable s → LRUReplacer.Unpin fuel s f = .ok s1 → Reachable s1
  | Pin (s s1 : LRUReplacer) (f : frame_id_t) :
      Reachable s → LRUReplacer.Pin s f = .ok s1 → Reachable s1
  | Victim (s s1 : LRUReplacer) (r : VictimResult) :
      Reachable s → LRUReplacer.Victim s = .ok (r, s1) → Reachable s1

/-- The distinct elements of a list, each at the place of its first occurrence. -/
def firstOccurrences : List frame_id_t → List frame_id_t
  | [] => []
  | f :: fs => f :: (firstOccurrences fs).filter (fun g => decide (g ≠ f))

/-! ## Well-formed states -/

/-- The `right_` field of the node at address `a`, when there is such a node. -/
def rightOf (H : Heap) (a : Nat) : Option Ptr := (H[a]?).map Node.right_

/-- The `left_` field of the node at address `a`, when there is such a node. -/
def leftOf (H : Heap) (a : Nat) : Option Ptr := (H[a]?).map Node.left_

/-- The `frame_id_` field of the node at address `a` (0 when there is no such node). -/
def frameAt (H : Heap) (a : Nat) : frame_id_t :=
  match H[a]? with
  | some n => n.frame_id_
  | none => 0

/-- Nodes `x` and `y` are neighbours: `x->right_ == y` and `y->left_ == x`. -/
def Link (H : Heap) (x y : Nat) : Prop :=
  rightOf H x = some (some y) ∧ leftOf H y = some (some x)

/-- The representation invariant: the nodes from the head sentinel `h` to the tail sentinel
`t` are `h`, then the addresses `as`, then `t`, all different and doubly linked, and the page
table holds exactly one entry per node of `as`, from its frame id to its address. -/
structure Rep (s : LRUReplacer) (h t : Nat) (as : List Nat) : Prop where
  head_eq : s.head_ = some h
  tail_eq : s.tail_ = some t
  nodup : (h :: as ++ [t]).Nodup
  bound : ∀ a ∈ h :: as ++ [t], a < s.heap.length
  chain : List.Chain' (Link s.heap) (h :: as ++ [t])
  table : s.page_table_.Perm (as.map (fun a => (frameAt s.heap a, some a)))
  frames_nodup : (as.map (frameAt s.heap)).Nodup

/-- The state `s` is well formed and tracks exactly the frames of `l`, in eviction order
(the least recently unpinned frame first). -/
def Abs (s : LRUReplacer) (l : List frame_id_t) : Prop :=
  ∃ h t as, Rep s h t as ∧ l = (as.map (frameAt s.heap)).reverse

/-- What `Unpin(f)` does to the eviction order of a replacer of capacity `cap`. -/
def unpinOrder (cap : Nat) (l : List frame_id_t) (f : frame_id_t) : List frame_id_t :=
  if f ∈ l then l else (if l.length = cap then l.tail else l) ++ [f]

/-- A fresh replacer of capacity 2. -/
def fresh2 : LRUReplacer :=
  { heap := [{ frame_id_ := -1, left_ := none, right_ := some 1 },
             { frame_id_ := -1, left_ := some 0, right_ := none }],
    head_ := some 0, tail_ := some 1, page_table_ := [], capacity_ := 2 }

/-- The replacer of capacity 2 after `Unpin(1)`. -/
def one2 : LRUReplacer :=
  { heap := [{ frame_id_ := -1, left_ := none, right_ := some 2 },
             { frame_id_ := -1, left_ := some 2, right_ := none },
             { frame_id_ := 1, left_ := some 0, right_ := some 1 }],
    head_ := some 0, tail_ := some 1, page_table_ := [(1, some 2)], capacity_ := 2 }

/-- The replacer of capacity 2 after `Unpin(1)` and `Unpin(2)`. -/
def full2 : LRUReplacer :=
  { heap := [{ frame_id_ := -1, left_ := none, right_ := some 3 },
             { frame_id_ := -1, left_ := some 2, right_ := none },
             { frame_id_ := 1, left_ := some 3, right_ := some 1 },
             { frame_id_ := 2, left_ := some 0, right_ := some 2 }],
    head_ := some 0, tail_ := some 1, page_table_ := [(1, some 2), (2, some 3)],
    capacity_ := 2 }

/-- What a call returns and does to the eviction order `l` of a replacer of capacity `cap`. -/
def orderCall (cap : Nat) (l : List frame_id_t) : Call → Event × List frame_id_t
  | .Unpin f => (.Unpin f, unpinOrder cap l f)
  | .Pin f => (.Pin f, l.erase f)
  | .Victim =>
    match l with
    | [] => (.Victim { ret := false, frame_id := none }, [])
    | f :: rest => (.Victim { ret := true, frame_id := some f }, rest)
  | .Size => (.Size l.length, l)

/-- In the history `evs`, frame `f` is unpinned: there is an `Unpin(f)` after which there is
no `Pin(f)` and no `Victim` call that returned `f`. -/
def Unpinned (evs : List Event) (f : frame_id_t) : Prop :=
  ∃ pre post, evs = pre ++ Event.Unpin f :: post ∧ Event.Pin f ∉ post ∧
    ∀ r, Event.Victim r ∈ post → r.frame_id ≠ some f

/-- A fresh replacer of capacity 1. -/
def fresh1 : LRUReplacer :=
  { heap := [{ frame_id_ := -1, left_ := none, right_ := some 1 },
             { frame_id_ := -1, left_ := some 0, right_ := none }],
    head_ := some 0, tail_ := some 1, page_table_ := [], capacity_ := 1 }

/-- The replacer of capacity 1 after `Unpin(1)`. -/
def one1 : LRUReplacer :=
  { heap := [{ frame_id_ := -1, left_ := none, right_ := some 2 },
             { frame_id_ := -1, left_ := some 2, right_ := none },
             { frame_id_ := 1, left_ := some 0, right_ := some 1 }],
    head_ := some 0, tail_ := some 1, page_table_ := [(1, some 2)], capacity_ := 1 }

/-- The replacer of capacity 1 after `Unpin(1)` and `Unpin(2)`. -/
def evicted1 : LRUReplacer :=
  { heap := [{ frame_id_ := -1, left_ := none, right_ := some 3 },
             { frame_id_ := -1, left_ := some 3, right_ := none },
             { frame_id_ := 1, left_ := some 0, right_ := some 1 },
             { frame_id_ := 2, left_ := some 0, right_ := some 1 }],
    head_ := some 0, tail_ := some 1, page_table_ := [(2, some 3)], capacity_ := 1 }

/-- Follows `right_` links from `p` until the tail sentinel is met, collecting the addresses
of the nodes on the way; `fuel` bounds the number of nodes visited. -/
def walkRight (H : Heap) (tail : Ptr) : Nat → Ptr → List Nat
  | 0, _ => []
  | fuel + 1, p =>
    if p = tail then []
    else
      match p with
      | none => []
      | some a =>
        match Heap.load H p with
        | .error _ => []
        | .ok n => a :: walkRight H tail fuel n.right_

/-- The addresses of the list nodes strictly between the sentinels, read from the node next
to the head sentinel (`head_->right_`) towards the tail sentinel. -/
def LRUReplacer.listNodes (s : LRUReplacer) : List Nat :=
  match Heap.load s.heap s.head_ with
  | .error _ => []
  | .ok h => walkRight s.heap s.tail_ s.heap.length h.right_

/-- The replacer of capacity 0 as constructed. -/
def fresh0 : LRUReplacer :=
  { heap := [{ frame_id_ := -1, left_ := none, right_ := some 1 },
             { frame_id_ := -1, left_ := some 0, right_ := none }],
    head_ := some 0, tail_ := some 1, page_table_ := [], capacity_ := 0 }

/-- Reference model, `Unpin(f)` on the list `l` of tracked frames (least recently unpinned
first): `l` if `f` is in `l`, else `l` with its first element dropped when its length is the
capacity, followed by `f`. -/
def ListModel.Unpin (cap : Nat) (l : List frame_id_t) (f : frame_id_t) : List frame_id_t :=
  if f ∈ l then l else (if l.length = cap then l.drop 1 else l) ++ [f]

/-- Reference model, `Pin(f)`: `l` with `f` erased. -/
def ListModel.Pin (l : List frame_id_t) (f : frame_id_t) : List frame_id_t :=
  l.erase f

/-- Reference model, `Victim()`: returns and drops the first element of `l`, or returns no
victim when `l` is empty. -/
def ListModel.Victim (l : List frame_id_t) : Option frame_id_t × List frame_id_t :=
  match l with
  | [] => (none, [])
  | f :: rest => (some f, rest)

/-- Reference model, `Size()`: the length of `l`. -/
def ListModel.Size (l : List frame_id_t) : Nat :=
  l.length

/-- Reference model, one call: what it returns and the next list. -/
def ListModel.call (cap : Nat) (l : List frame_id_t) : Call → Event × List frame_id_t
  | .Unpin f => (.Unpin f, ListModel.Unpin cap l f)
  | .Pin f => (.Pin f, ListModel.Pin l f)
  | .Victim =>
    (.Victim { ret := (ListModel.Victim l).1.isSome, frame_id := (ListModel.Victim l).1 },
      (ListModel.Victim l).2)
  | .Size => (.Size (ListModel.Size l), l)

/-- Reference model, a sequence of calls: the history and the final list. -/
def ListModel.run (cap : Nat) : List frame_id_t → List Call → List Event × List frame_id_t
  | l, [] => ([], l)
  | l, c :: cs =>
    ((ListModel.call cap l c).1 :: (ListModel.run cap (ListModel.call cap l c).2 cs).1,
      (ListModel.run cap (ListModel.call cap l c).2 cs).2)

/-! ## `RowMatrix` and `RowMatrixOperations` (src/include/primer/p0_starter.h) -/

/-- The value of an `int` computation whose exact result is `x`: 32 bits, two's complement. -/
def wrapInt (x : Int) : Int :=
  (x + 2147483648) % 4294967296 - 2147483648

/-- What can go wrong in the matrix code: an access outside an allocated array, and the
`std::bad_array_new_length` that `new T[n]` throws for a negative `n`. -/
inductive MatrixFault where
  | outOfBounds
  | badArrayLength
deriving DecidableEq, Repr

/-- Reads `xs[i]`. -/
def arrayRead {α : Type} (xs : List α) (i : Int) : Except MatrixFault α :=
  if i < 0 then .error .outOfBounds
  else
    match xs[i.toNat]? with
    | none => .error .outOfBounds
    | some x => .ok x

/-- Stores `xs[i] = v`. -/
def arrayWrite {α : Type} (xs : List α) (i : Int) (v : α) : Except MatrixFault (List α) :=
  if i < 0 then .error .outOfBounds
  else if i.toNat < xs.length then .ok (xs.set i.toNat v)
  else .error .outOfBounds

/-- The class `RowMatrix<T>` with its base `Matrix<T>`, for `T = int` (the element type the
`int **` array `data_` is written for): `rows`, `cols` and `linear` of the base class, and
`data_`, the array of rows. -/
structure RowMatrix where
  rows : Int
  cols : Int
  linear : List Int
  data_ : List (List Int)
deriving DecidableEq, Repr

/-- The loop `for (int i = 0; i < n; i++) body(i)` on a state, for a bound `n` that the body
does not change. -/
def forLoop {σ : Type} (n : Int) (body : Int → σ → Except MatrixFault σ) (init : σ) :
    Except MatrixFault σ :=
  List.foldlM (fun (s : σ) (i : Nat) => body (i : Int) s) init (List.range n.toNat)

/-- The allocation `new T[n]` followed by the loop that stores `v` in each of its cells:
`std::bad_array_new_length` for a negative `n`, else an array of `n` cells (the memory is
taken to be there). -/
def newArray {α : Type} (n : Int) (v : α) : Except MatrixFault (List α) :=
  if n < 0 then .error .badArrayLength else .ok (List.replicate n.toNat v)

/-- The constructor `RowMatrix(r, c)` with the one of its base `Matrix(r, c)`: `linear` is
`new T[r * c]` filled with zeros, the product being an `int`; `data_` is `new int *[r]`, and
for every `i < r` its cell `i` gets `new int[c]` filled with zeros. -/
def RowMatrix.construct (r c : Int) : Except MatrixFault RowMatrix := do
  let linear ← newArray (wrapInt (r * c)) (0 : Int)
  let data0 ← newArray r ([] : List Int)
  let data ← forLoop r (fun i d => do
    let row ← newArray c (0 : Int)
    arrayWrite d i row) data0
  pure { rows := r, cols := c, linear := linear, data_ := data }

/-- The member `GetRows()`. -/
def RowMatrix.GetRows (m : RowMatrix) : Int := m.rows

/-- The member `GetColumns()`. -/
def RowMatrix.GetColumns (m : RowMatrix) : Int := m.cols

/-- The member `GetElem(i, j)`: -1 (after logging) for an index out of range, else
`data_[i][j]`. -/
def RowMatrix.GetElem (m : RowMatrix) (i j : Int) : Except MatrixFault Int :=
  if i < 0 ∨ i ≥ m.GetRows ∨ j < 0 ∨ j ≥ m.GetColumns then
    .ok (-1)
  else do
    let row ← arrayRead m.data_ i
    arrayRead row j

/-- The member `SetElem(i, j, val)`: nothing (after logging) for an index out of range, else
`data_[i][j] = val` and `linear[i * GetColumns() + j] = val`. -/
def RowMatrix.SetElem (m : RowMatrix) (i j : Int) (val : Int) : Except MatrixFault RowMatrix :=
  if i < 0 ∨ i ≥ m.GetRows ∨ j < 0 ∨ j ≥ m.GetColumns then
    .ok m
  else do
    let row ← arrayRead m.data_ i
    let row1 ← arrayWrite row j val
    let data1 ← arrayWrite m.data_ i row1
    let linear1 ← arrayWrite m.linear (i * m.GetColumns + j) val
    pure { m with data_ := data1, linear := linear1 }

/-- The function `RowMatrixOperations::AddMatrices(mat1, mat2)`; `none` is `nullptr`. -/
def RowMatrixOperations.AddMatrices (mat1 mat2 : RowMatrix) :
    Except MatrixFault (Option RowMatrix) :=
  if mat1.GetRows ≠ mat2.GetRows ∨ mat1.GetColumns ≠ mat2.GetColumns then
    .ok none
  else do
    let mat ← RowMatrix.construct mat1.GetRows mat1.GetColumns
    let mat ← forLoop mat.GetRows (fun i mat =>
      forLoop mat.GetColumns (fun j mat => do
        let a ← mat1.GetElem i j
        let b ← mat2.GetElem i j
        mat.SetElem i j (wrapInt (a + b))) mat) mat
    pure (some mat)

/-- The function `RowMatrixOperations::MultiplyMatrices(mat1, mat2)`; `none` is `nullptr`. -/
def RowMatrixOperations.MultiplyMatrices (mat1 mat2 : RowMatrix) :
    Except MatrixFault (Option RowMatrix) :=
  if mat1.GetColumns ≠ mat2.GetRows then
    .ok none
  else do
    let mat ← RowMatrix.construct mat1.GetRows mat2.GetColumns
    let mat ← forLoop mat1.GetRows (fun i mat =>
      forLoop mat2.GetColumns (fun j mat =>
        forLoop mat1.GetColumns (fun k mat => do
          let x ← mat.GetElem i j
          let a ← mat1.GetElem i k
          let b ← mat2.GetElem k j
          mat.SetElem i j (wrapInt (x + wrapInt (a * b)))) mat) mat) mat
    pure (some mat)

/-- The function `RowMatrixOperations::GemmMatrices(matA, matB, matC)`; `none` is `nullptr`. -/
def RowMatrixOperations.GemmMatrices (matA matB matC : RowMatrix) :
    Except MatrixFault (Option RowMatrix) := do
  let multi_res ← RowMatrixOperations.MultiplyMatrices matA matB
  match multi_res with
  | none => pure none
  | some multi =>
    let add_res ← RowMatrixOperations.AddMatrices multi matC
    match add_res with
    | none => pure none
    | some res => pure (some res)

/-- The matrix of `r` rows and `c` columns of zeros, with its two arrays. -/
def RowMatrix.zeros (r c : Int) : RowMatrix :=
  { rows := r, cols := c,
    linear := List.replicate (r * c).toNat 0,
    data_ := List.replicate r.toNat (List.replicate c.toNat 0) }

/-- The object is one that the constructor makes without overflow, whatever was stored in it
later: the row count is not negative, the column count is not negative unless there is no
row, `rows * cols` fits an `int`, `data_` has `rows` rows of `cols` entries and `linear` has
`rows * cols` entries. -/
structure RowMatrix.WF (m : RowMatrix) : Prop where
  rows_nonneg : 0 ≤ m.rows
  cols_nonneg : m.rows = 0 ∨ 0 ≤ m.cols
  size_fits : m.rows * m.cols < 2147483648
  data_length : m.data_.length = m.rows.toNat
  row_length : ∀ row ∈ m.data_, row.length = m.cols.toNat
  linear_length : m.linear.length = (m.rows * m.cols).toNat

/-- The stored entry `data_[i][j]` (0 when there is none). -/
def RowMatrix.entry (m : RowMatrix) (i j : Nat) : Int :=
  match m.data_[i]? with
  | none => 0
  | some row => row.getD j 0

/-- The 2 by 2 matrix with rows `(1, 2)` and `(3, 4)`. -/
def matP : RowMatrix :=
  { rows := 2, cols := 2, linear := [1, 2, 3, 4], data_ := [[1, 2], [3, 4]] }

/-- The 2 by 2 matrix with rows `(2147483647, 0)` and `(5, -6)`. -/
def matQ : RowMatrix :=
  { rows := 2, cols := 2, linear := [2147483647, 0, 5, -6], data_ := [[2147483647, 0], [5, -6]] }

/-- The sum of `matP` and `matQ` as `AddMatrices` returns it. -/
def matPplusQ : RowMatrix :=
  { rows := 2, cols := 2, linear := [-2147483648, 2, 8, -2],
    data_ := [[-2147483648, 2], [8, -2]] }

/-- The product of `matP` and `matQ` as `MultiplyMatrices` returns it. -/
def matPtimesQ : RowMatrix :=
  { rows := 2, cols := 2, linear := [-2147483639, -12, -2147483631, -24],
    data_ := [[-2147483639, -12], [-2147483631, -24]] }

/-- The result of `GemmMatrices` on `matP`, `matQ` and `matP`. -/
def matPQplusP : RowMatrix :=
  { rows := 2, cols := 2, linear := [-2147483638, -10, -2147483628, -20],
    data_ := [[-2147483638, -10], [-2147483628, -20]] }

/-- The column of 46341 zeros, as `RowMatrix(46341, 1)` constructs it. -/
def colVec : RowMatrix :=
  { rows := 46341, cols := 1, linear := List.replicate 46341 0,
    data_ := List.replicate 46341 [0] }

/-- The row of 46341 zeros, as `RowMatrix(1, 46341)` constructs it. -/
def rowVec : RowMatrix :=
  { rows := 1, cols := 46341, linear := List.replicate 46341 0,
    data_ := [List.replicate 46341 0] }

/-- The matrix with 3 rows and no column, as `RowMatrix(3, 0)` constructs it. -/
def mat3x0 : RowMatrix :=
  { rows := 3, cols := 0, linear := [], data_ := [[], [], []] }

/-- The object with no row and the column count -5, as `RowMatrix(0, -5)` constructs it. -/
def mat0xNeg : RowMatrix :=
  { rows := 0, cols := -5, linear := [], data_ := [] }

/-! ## The heap primitives -/

theorem load_some {H : Heap} {a : Nat} {n : Node} (h : H[a]? = some n) :
    Heap.load H (some a) = .ok n := by
  simp [Heap.load, h]

theorem setLeft_some {H : Heap} {a : Nat} {n : Node} (h : H[a]? = some n) (v : Ptr) :
    Heap.setLeft H (some a) v = .ok (H.set a { n with left_ := v }) := by
  simp [Heap.setLeft, h]

theorem setRight_some {H : Heap} {a : Nat} {n : Node} (h : H[a]? = some n) (v : Ptr) :
    Heap.setRight H (some a) v = .ok (H.set a { n with right_ := v }) := by
  simp [Heap.setRight, h]

theorem lt_of_getElem? {H : Heap} {a : Nat} {n : Node} (h : H[a]? = some n) : a < H.length := by
  by_contra hc
  rw [List.getElem?_eq_none (by omega)] at h
  cases h

theorem rightOf_setLeft {H : Heap} {a : Nat} {n : Node} (v : Ptr) (h : H[a]? = some n) (b : Nat) :
    rightOf (H.set a { n with left_ := v }) b = rightOf H b := by
  have hl := lt_of_getElem? h
  by_cases hab : a = b
  · subst hab; simp [rightOf, List.getElem?_set, hl, h]
  · simp [rightOf, List.getElem?_set, hab]

theorem leftOf_setLeft {H : Heap} {a : Nat} {n : Node} (v : Ptr) (h : H[a]? = some n) (b : Nat) :
    leftOf (H.set a { n with left_ := v }) b = if b = a then some v else leftOf H b := by
  have hl := lt_of_getElem? h
  by_cases hab : a = b
  · subst hab; simp [leftOf, List.getElem?_set, hl]
  · have hba : ¬ b = a := fun e => hab e.symm
    simp [leftOf, List.getElem?_set, hab, hba]

theorem frameAt_setLeft {H : Heap} {a : Nat} {n : Node} (v : Ptr) (h : H[a]? = some n) (b : Nat) :
    frameAt (H.set a { n with left_ := v }) b = frameAt H b := by
  have hl := lt_of_getElem? h
  by_cases hab : a = b
  · subst hab; simp [frameAt, List.getElem?_set, hl, h]
  · simp [frameAt, List.getElem?_set, hab]

theorem leftOf_setRight {H : Heap} {a : Nat} {n : Node} (v : Ptr) (h : H[a]? = some n) (b : Nat) :
    leftOf (H.set a { n with right_ := v }) b = leftOf H b := by
  have hl := lt_of_getElem? h
  by_cases hab : a = b
  · subst hab; simp [leftOf, List.getElem?_set, hl, h]
  · simp [leftOf, List.getElem?_set, hab]

theorem rightOf_setRight {H : Heap} {a : Nat} {n : Node} (v : Ptr) (h : H[a]? = some n) (b : Nat) :
    rightOf (H.set a { n with right_ := v }) b = if b = a then some v else rightOf H b := by
  have hl := lt_of_getElem? h
  by_cases hab : a = b
  · subst hab; simp [rightOf, List.getElem?_set, hl]
  · have hba : ¬ b = a := fun e => hab e.symm
    simp [rightOf, List.getElem?_set, hab, hba]

theorem frameAt_setRight {H : Heap} {a : Nat} {n : Node} (v : Ptr) (h : H[a]? = some n) (b : Nat) :
    frameAt (H.set a { n with right_ := v }) b = frameAt H b := by
  have hl := lt_of_getElem? h
  by_cases hab : a = b
  · subst hab; simp [frameAt, List.getElem?_set, hl, h]
  · simp [frameAt, List.getElem?_set, hab]

theorem rightOf_some {H : Heap} {a : Nat} {p : Ptr} (h : rightOf H a = some p) :
    ∃ n, H[a]? = some n ∧ n.right_ = p := by
  unfold rightOf at h
  cases hn : H[a]? with
  | none => simp [hn] at h
  | some n => exact ⟨n, rfl, by simpa [hn] using h⟩

theorem leftOf_some {H : Heap} {a : Nat} {p : Ptr} (h : leftOf H a = some p) :
    ∃ n, H[a]? = some n ∧ n.left_ = p := by
  unfold leftOf at h
  cases hn : H[a]? with
  | none => simp [hn] at h
  | some n => exact ⟨n, rfl, by simpa [hn] using h⟩

theorem frameAt_of_getElem? {H : Heap} {a : Nat} {n : Node} (h : H[a]? = some n) :
    frameAt H a = n.frame_id_ := by
  simp [frameAt, h]

/-! ## Chains of linked nodes -/

theorem chain_frame {H H1 : Heap} : ∀ (c : List Nat), List.Chain' (Link H) c →
    (∀ x ∈ c.dropLast, rightOf H1 x = rightOf H x) →
    (∀ y ∈ c.tail, leftOf H1 y = leftOf H y) → List.Chain' (Link H1) c
  | [], _, _, _ => List.chain'_nil
  | [_], _, _, _ => List.chain'_singleton _
  | a :: b :: rest, hc, hr, hl => by
    rw [List.chain'_cons] at hc ⊢
    refine ⟨?_, chain_frame (b :: rest) hc.2 ?_ ?_⟩
    · unfold Link at *
      rw [hr a (by simp), hl b (by simp)]
      exact hc.1
    · intro x hx
      exact hr x (by simp [List.dropLast, hx])
    · intro y hy
      exact hl y (by simp at hy ⊢; exact Or.inr hy)

theorem length_le_of_nodup_bound {c : List Nat} {n : Nat} (hn : c.Nodup) (hb : ∀ a ∈ c, a < n) :
    c.length ≤ n := by
  have hsub : c ⊆ List.range n := fun a ha => List.mem_range.2 (hb a ha)
  simpa using (List.subperm_of_subset hn hsub).length_le

/-! ## The page table -/

theorem find_eq_none_iff (m : PageTable) (k : frame_id_t) :
    PageTable.find m k = none ↔ k ∉ m.map Prod.fst := by
  induction m with
  | nil => simp [PageTable.find]
  | cons e m ih =>
    obtain ⟨k1, v⟩ := e
    by_cases hk : k1 = k
    · simp [PageTable.find, hk]
    · have hk2 : ¬ k = k1 := fun e => hk e.symm
      simp [PageTable.find, hk, hk2, ih]

theorem find_eq_some_iff (m : PageTable) (hm : (m.map Prod.fst).Nodup) (k : frame_id_t) (v : Ptr) :
    PageTable.find m k = some v ↔ (k, v) ∈ m := by
  induction m with
  | nil => simp [PageTable.find]
  | cons e m ih =>
    obtain ⟨k1, v1⟩ := e
    rw [List.map_cons, List.nodup_cons] at hm
    by_cases hk : k1 = k
    · subst hk
      have hno : (k1, v) ∉ m := fun hmem => hm.1 (List.mem_map.2 ⟨(k1, v), hmem, rfl⟩)
      simp [PageTable.find, hno, eq_comm]
    · have hk2 : ¬ k = k1 := fun e => hk e.symm
      simp [PageTable.find, hk, hk2, ih hm.2]

theorem Rep.keys {s : LRUReplacer} {h t : Nat} {as : List Nat} (r : Rep s h t as) :
    (s.page_table_.map Prod.fst).Perm (as.map (frameAt s.heap)) := by
  have := r.table.map Prod.fst
  simpa [List.map_map, Function.comp_def] using this

theorem Rep.size {s : LRUReplacer} {h t : Nat} {as : List Nat} (r : Rep s h t as) :
    s.Size = as.length := by
  simpa [LRUReplacer.Size] using r.table.length_eq

theorem Rep.find_none {s : LRUReplacer} {h t : Nat} {as : List Nat} (r : Rep s h t as)
    (f : frame_id_t) : PageTable.find s.page_table_ f = none ↔ f ∉ as.map (frameAt s.heap) := by
  rw [find_eq_none_iff, r.keys.mem_iff]

theorem Rep.find_some {s : LRUReplacer} {h t : Nat} {as : List Nat} (r : Rep s h t as)
    (a : Nat) (ha : a ∈ as) : PageTable.find s.page_table_ (frameAt s.heap a) = some (some a) := by
  rw [find_eq_some_iff _ (r.keys.nodup_iff.2 r.frames_nodup), r.table.mem_iff]
  exact List.mem_map.2 ⟨a, ha, rfl⟩

theorem Rep.tracked_iff {s : LRUReplacer} {h t : Nat} {as : List Nat} (r : Rep s h t as)
    (f : frame_id_t) : s.tracked f = true ↔ f ∈ as.map (frameAt s.heap) := by
  unfold LRUReplacer.tracked
  rw [← not_iff_not, ← r.find_none f]
  cases PageTable.find s.page_table_ f <;> simp

/-! ## Reading the list back -/

theorem walkLeft_chain (H : Heap) (h : Nat) : ∀ (as : List Nat) (y : Nat) (fuel : Nat),
    List.Chain' (Link H) (h :: as ++ [y]) → h ∉ as → as.length < fuel →
    ∀ ny, H[y]? = some ny →
      walkLeft H (some h) fuel ny.left_ = (as.map (frameAt H)).reverse := by
  intro as
  induction as using List.reverseRecOn with
  | nil =>
    intro y fuel hc _ hf ny hy
    obtain ⟨fuel, rfl⟩ : ∃ k, fuel = k + 1 := ⟨fuel - 1, by simp at hf; omega⟩
    simp only [List.cons_append, List.nil_append, List.chain'_cons] at hc
    obtain ⟨ny1, hy1, hl⟩ := leftOf_some hc.1.2
    rw [hy] at hy1
    cases hy1
    simp [walkLeft, hl]
  | append_singleton as a ih =>
    intro y fuel hc hh hf ny hy
    obtain ⟨fuel, rfl⟩ : ∃ k, fuel = k + 1 := ⟨fuel - 1, by simp at hf; omega⟩
    have hc1 : List.Chain' (Link H) ((h :: as ++ [a]) ++ [y]) := by simpa using hc
    rw [List.chain'_append] at hc1
    obtain ⟨hca, -, hlast⟩ := hc1
    have hay : Link H a y := by
      apply hlast a _ y (by simp)
      rw [List.getLast?_append]
      simp
    obtain ⟨ny1, hy1, hl⟩ := leftOf_some hay.2
    rw [hy] at hy1
    cases hy1
    obtain ⟨na, hna, -⟩ := rightOf_some hay.1
    have hne : a ≠ h := by
      intro e
      apply hh
      simp [e]
    have hne2 : ¬ (some a : Ptr) = some h := by simpa using hne
    have hrec := ih a fuel hca (fun hm => hh (by simp [hm])) (by simp at hf; omega) na hna
    simp [walkLeft, hl, hne, load_some hna, hrec, frameAt_of_getElem? hna]

theorem Rep.evictionOrder {s : LRUReplacer} {h t : Nat} {as : List Nat} (r : Rep s h t as) :
    s.evictionOrder = (as.map (frameAt s.heap)).reverse := by
  have hlen := length_le_of_nodup_bound r.nodup r.bound
  have hc := r.chain
  have hct : List.Chain' (Link s.heap) ((h :: as) ++ [t]) := by simpa using hc
  rw [List.chain'_append] at hct
  have hlt : Link s.heap ((h :: as).getLast (by simp)) t := by
    apply hct.2.2 _ _ t (by simp)
    simp [List.getLast?_eq_getLast]
  obtain ⟨nt, hnt, -⟩ := leftOf_some hlt.2
  have hnd := r.nodup
  simp only [List.cons_append, List.nodup_cons, List.mem_append] at hnd
  unfold LRUReplacer.evictionOrder
  rw [r.tail_eq, load_some hnt, r.head_eq]
  exact walkLeft_chain s.heap h as t s.heap.length hc (fun hm => hnd.1 (Or.inl hm))
    (by simp at hlen; omega) nt hnt

/-! ## Unlinking a node -/

theorem split_around (h t x : Nat) (pre post : List Nat) :
    ∃ A l r B, (h :: (pre ++ x :: post) ++ [t]) = A ++ l :: x :: r :: B ∧
      (h :: (pre ++ post) ++ [t]) = A ++ l :: r :: B := by
  have hpost : ∃ r B, post ++ [t] = r :: B := by
    cases post with
    | nil => exact ⟨t, [], rfl⟩
    | cons r post => exact ⟨r, post ++ [t], rfl⟩
  obtain ⟨r, B, hB⟩ := hpost
  have hpre : ∃ A l, h :: pre = A ++ [l] := by
    rcases List.eq_nil_or_concat pre with rfl | ⟨L, b, rfl⟩
    · exact ⟨[], h, rfl⟩
    · exact ⟨h :: L, b, by simp⟩
  obtain ⟨A, l, hA⟩ := hpre
  refine ⟨A, l, r, B, ?_, ?_⟩
  · calc (h :: (pre ++ x :: post) ++ [t]) = (h :: pre) ++ x :: (post ++ [t]) := by simp
      _ = A ++ l :: x :: r :: B := by rw [hA, hB]; simp
  · calc (h :: (pre ++ post) ++ [t]) = (h :: pre) ++ (post ++ [t]) := by simp
      _ = A ++ l :: r :: B := by rw [hA, hB]; simp

theorem unlink_chain {H H2 : Heap} {A B : List Nat} {l x r : Nat}
    (hn : (A ++ l :: x :: r :: B).Nodup) (hc : List.Chain' (Link H) (A ++ l :: x :: r :: B))
    (hr : ∀ b, rightOf H2 b = if b = l then some (some r) else rightOf H b)
    (hl : ∀ b, leftOf H2 b = if b = r then some (some l) else leftOf H b) :
    List.Chain' (Link H2) (A ++ l :: r :: B) := by
  rw [List.chain'_split, List.chain'_cons, List.chain'_cons] at hc
  obtain ⟨hcA, -, -, hcB⟩ := hc
  rw [List.nodup_append] at hn
  obtain ⟨hnA, hnR, hdis⟩ := hn
  simp only [List.nodup_cons, List.mem_cons, not_or] at hnR
  obtain ⟨⟨hlx, hlr, hlB⟩, ⟨hxr, hxB⟩, hrB, hnB⟩ := hnR
  have hlA : l ∉ A := fun hm => hdis hm (by simp)
  have hrA : r ∉ A := fun hm => hdis hm (by simp)
  rw [List.chain'_split, List.chain'_cons]
  refine ⟨chain_frame _ hcA ?_ ?_, ?_, chain_frame _ hcB ?_ ?_⟩
  · intro y hy
    rw [List.dropLast_concat] at hy
    have hyl : y ≠ l := fun e => hlA (e ▸ hy)
    rw [hr, if_neg hyl]
  · intro y hy
    have hy1 : y ∈ A ++ [l] := List.mem_of_mem_tail hy
    have hyr : y ≠ r := by
      intro e
      subst e
      rcases List.mem_append.1 hy1 with h1 | h1
      · exact hrA h1
      · simp at h1; exact hlr h1.symm
    rw [hl, if_neg hyr]
  · unfold Link
    rw [hr, hl]
    simp
  · intro y hy
    have hy1 : y ∈ r :: B := List.mem_of_mem_dropLast hy
    have hyl : y ≠ l := by
      intro e
      subst e
      rcases List.mem_cons.1 hy1 with h1 | h1
      · exact hlr h1
      · exact hlB h1
    rw [hr, if_neg hyl]
  · intro y hy
    have hy1 : y ∈ B := by simpa using hy
    have hyr : y ≠ r := fun e => hrB (e ▸ hy1)
    rw [hl, if_neg hyr]

theorem erase_table {H : Heap} {pt : PageTable} {pre post : List Nat} {x : Nat}
    (hp : pt.Perm ((pre ++ x :: post).map (fun a => (frameAt H a, some a))))
    (hf : ((pre ++ x :: post).map (frameAt H)).Nodup) :
    (PageTable.erase pt (frameAt H x)).Perm ((pre ++ post).map (fun a => (frameAt H a, some a))) := by
  unfold PageTable.erase
  refine (hp.filter _).trans ?_
  rw [List.filter_map]
  have hkeep : ∀ a ∈ pre ++ post, frameAt H a ≠ frameAt H x := by
    intro a ha e
    rw [List.map_append, List.map_cons, List.nodup_append] at hf
    obtain ⟨-, hxp, hdis⟩ := hf
    rw [List.nodup_cons] at hxp
    rcases List.mem_append.1 ha with h1 | h1
    · exact hdis (List.mem_map.2 ⟨a, h1, rfl⟩) (by simp [e])
    · exact hxp.1 (List.mem_map.2 ⟨a, h1, e⟩)
  have hfilt : (pre ++ x :: post).filter ((fun e => decide (e.1 ≠ frameAt H x)) ∘
      (fun a => ((frameAt H a, some a) : frame_id_t × Ptr))) = pre ++ post := by
    rw [List.filter_append, List.filter_cons]
    simp only [Function.comp_apply, ne_eq, not_true_eq_false, decide_False, Bool.false_eq_true,
      if_false]
    rw [← List.filter_append]
    apply List.filter_eq_self.2
    intro a ha
    simpa using hkeep a ha
  rw [hfilt]

theorem remove_spec {s : LRUReplacer} {h t : Nat} (pre post : List Nat) (x : Nat)
    (r : Rep s h t (pre ++ x :: post)) :
    ∃ s1, LRUReplacer.remove s (frameAt s.heap x) = .ok (true, s1) ∧ Rep s1 h t (pre ++ post) ∧
      s1.capacity_ = s.capacity_ ∧ s1.heap.length = s.heap.length ∧
      (∀ a, frameAt s1.heap a = frameAt s.heap a) := by
  obtain ⟨A, l, rr, B, hc1, hc2⟩ := split_around h t x pre post
  have hnd := r.nodup
  have hch := r.chain
  rw [hc1] at hnd hch
  have hch0 := hch
  rw [List.chain'_split, List.chain'_cons, List.chain'_cons] at hch
  obtain ⟨-, hlx, hxr, -⟩ := hch
  have hnd0 := hnd
  rw [List.nodup_append] at hnd
  obtain ⟨-, hnR, -⟩ := hnd
  simp only [List.nodup_cons, List.mem_cons, not_or] at hnR
  obtain ⟨⟨hnlx, hnlr, -⟩, ⟨hnxr, -⟩, -, -⟩ := hnR
  obtain ⟨nx, hnx, hnxR⟩ := rightOf_some hxr.1
  obtain ⟨nx1, hnx1, hnxL⟩ := leftOf_some hlx.2
  rw [hnx] at hnx1
  cases hnx1
  obtain ⟨nr, hnr, -⟩ := leftOf_some hxr.2
  obtain ⟨nl, hnl, -⟩ := rightOf_some hlx.1
  -- the heap after the two stores
  have hx1 : (s.heap.set rr { nr with left_ := some l })[x]? = some nx := by
    rw [List.getElem?_set_ne (Ne.symm hnxr)]; exact hnx
  have hl1 : (s.heap.set rr { nr with left_ := some l })[l]? = some nl := by
    rw [List.getElem?_set_ne (Ne.symm hnlr)]; exact hnl
  have hfind := r.find_some x (by simp)
  have hrun : LRUReplacer.remove s (frameAt s.heap x) = .ok (true,
      { s with heap := (s.heap.set rr { nr with left_ := some l }).set l { nl with right_ := some rr },
               page_table_ := PageTable.erase s.page_table_ (frameAt s.heap x) }) := by
    unfold LRUReplacer.remove
    simp only [hfind, load_some hnx, hnxR, hnxL, setLeft_some hnr, load_some hx1,
      setRight_some hl1, bind, Except.bind, pure, Except.pure]
  have hfr : ∀ a, frameAt ((s.heap.set rr { nr with left_ := some l }).set l
      { nl with right_ := some rr }) a = frameAt s.heap a := by
    intro a
    rw [frameAt_setRight _ hl1, frameAt_setLeft _ hnr]
  refine ⟨_, hrun, ?_, rfl, by simp, hfr⟩
  have hsub : (pre ++ post).Sublist (pre ++ x :: post) :=
    List.Sublist.append_left (List.sublist_cons_self x post) pre
  refine ⟨r.head_eq, r.tail_eq, ?_, ?_, ?_, ?_, ?_⟩
  · rw [hc2]
    refine hnd0.sublist ?_
    exact List.Sublist.append_left (List.Sublist.cons₂ l (List.sublist_cons_self x _)) A
  · intro a ha
    have : a ∈ h :: (pre ++ x :: post) ++ [t] := by
      simp only [List.cons_append, List.mem_cons, List.mem_append, List.mem_singleton] at ha ⊢
      tauto
    simpa using r.bound a this
  · rw [hc2]
    refine unlink_chain hnd0 hch0 ?_ ?_
    · intro b
      rw [rightOf_setRight _ hl1, rightOf_setLeft _ hnr]
    · intro b
      rw [leftOf_setRight _ hl1, leftOf_setLeft _ hnr]
  · have := erase_table r.table r.frames_nodup
    simpa [hfr] using this
  · have hfe := funext hfr
    simp only [hfe]
    exact r.frames_nodup.sublist (hsub.map _)

/-! ## Linking a new node behind the head sentinel -/

theorem rightOf_append {H : Heap} (nd : Node) {b : Nat} (hb : b < H.length) :
    rightOf (H ++ [nd]) b = rightOf H b := by
  simp [rightOf, List.getElem?_append_left hb]

theorem leftOf_append {H : Heap} (nd : Node) {b : Nat} (hb : b < H.length) :
    leftOf (H ++ [nd]) b = leftOf H b := by
  simp [leftOf, List.getElem?_append_left hb]

theorem frameAt_append {H : Heap} (nd : Node) {b : Nat} (hb : b < H.length) :
    frameAt (H ++ [nd]) b = frameAt H b := by
  simp [frameAt, List.getElem?_append_left hb]

theorem insert_spec {s : LRUReplacer} {h t : Nat} {as : List Nat} (r : Rep s h t as)
    (f : frame_id_t) (hf : f ∉ as.map (frameAt s.heap)) :
    ∃ s1, LRUReplacer.insert { s with heap := (make_shared s.heap f).1 } (make_shared s.heap f).2
        = .ok s1 ∧ Rep s1 h t (s.heap.length :: as) ∧ s1.capacity_ = s.capacity_ ∧
      frameAt s1.heap s.heap.length = f ∧ (∀ a < s.heap.length, frameAt s1.heap a = frameAt s.heap a) := by
  obtain ⟨first, rest, hfr⟩ : ∃ first rest, as ++ [t] = first :: rest := by
    cases as with
    | nil => exact ⟨t, [], rfl⟩
    | cons a as => exact ⟨a, as ++ [t], rfl⟩
  have hcs : h :: as ++ [t] = h :: first :: rest := by simp [hfr]
  have hnd := r.nodup
  have hch := r.chain
  have hbd := r.bound
  rw [hcs] at hnd hch hbd
  rw [List.chain'_cons] at hch
  obtain ⟨hhf, hcr⟩ := hch
  simp only [List.nodup_cons, List.mem_cons, not_or] at hnd
  obtain ⟨⟨hnhf, hnhr⟩, hnfr, -⟩ := hnd
  have hbh : h < s.heap.length := hbd h (by simp)
  have hbf : first < s.heap.length := hbd first (by simp)
  obtain ⟨nh, hnh, hnhR⟩ := rightOf_some hhf.1
  obtain ⟨nf, hnf, -⟩ := leftOf_some hhf.2
  generalize hn : s.heap.length = n at *
  set Ha : Heap := s.heap ++ [{ frame_id_ := f, left_ := none, right_ := none }] with hHa
  have hah : Ha[h]? = some nh := by rw [hHa, List.getElem?_append_left (by omega)]; exact hnh
  have haf : Ha[first]? = some nf := by rw [hHa, List.getElem?_append_left (by omega)]; exact hnf
  have han : Ha[n]? = some { frame_id_ := f, left_ := none, right_ := none } := by
    rw [hHa, List.getElem?_append_right (by omega)]; simp [hn]
  have hlen : n < Ha.length := by simp [hHa, hn]
  set H1 : Heap := Ha.set n { frame_id_ := f, left_ := none, right_ := some first } with hH1
  have h1n : H1[n]? = some { frame_id_ := f, left_ := none, right_ := some first } := by
    rw [hH1, List.getElem?_set_self hlen]
  set H2 : Heap := H1.set n { frame_id_ := f, left_ := some h, right_ := some first } with hH2
  have h2n : H2[n]? = some { frame_id_ := f, left_ := some h, right_ := some first } := by
    rw [hH2, List.getElem?_set_self (by simpa [hH1] using hlen)]
  have h2h : H2[h]? = some nh := by
    rw [hH2, List.getElem?_set_ne (by omega), hH1, List.getElem?_set_ne (by omega)]; exact hah
  have h2f : H2[first]? = some nf := by
    rw [hH2, List.getElem?_set_ne (by omega), hH1, List.getElem?_set_ne (by omega)]; exact haf
  set H3 : Heap := H2.set first { nf with left_ := some n } with hH3
  have h3h : H3[h]? = some nh := by
    rw [hH3, List.getElem?_set_ne (Ne.symm hnhf)]; exact h2h
  set H4 : Heap := H3.set h { nh with right_ := some n } with hH4
  have h4n : H4[n]? = some { frame_id_ := f, left_ := some h, right_ := some first } := by
    rw [hH4, List.getElem?_set_ne (by omega), hH3, List.getElem?_set_ne (by omega)]; exact h2n
  have hfind : PageTable.find s.page_table_ f = none := (r.find_none f).2 hf
  have hrun : LRUReplacer.insert { s with heap := (make_shared s.heap f).1 }
      (make_shared s.heap f).2 =
        .ok { s with heap := H4, page_table_ := s.page_table_ ++ [(f, some n)] } := by
    unfold LRUReplacer.insert make_shared
    simp only [r.head_eq, hn, ← hHa, load_some hah, hnhR, setRight_some han, ← hH1,
      setLeft_some h1n, ← hH2, load_some h2h, setLeft_some h2f, ← hH3, setRight_some h3h, ← hH4,
      load_some h4n, PageTable.assign, hfind, bind, Except.bind, pure, Except.pure]
    simp
  have vr : ∀ b, rightOf H4 b = if b = h then some (some n) else
      if b = n then some (some first) else rightOf Ha b := by
    intro b
    rw [hH4, rightOf_setRight _ h3h, hH3, rightOf_setLeft _ h2f, hH2, rightOf_setLeft _ h1n, hH1,
      rightOf_setRight _ han]
  have vl : ∀ b, leftOf H4 b = if b = first then some (some n) else
      if b = n then some (some h) else leftOf Ha b := by
    intro b
    rw [hH4, leftOf_setRight _ h3h, hH3, leftOf_setLeft _ h2f, hH2, leftOf_setLeft _ h1n, hH1,
      leftOf_setRight _ han]
  have vf : ∀ b, frameAt H4 b = frameAt Ha b := by
    intro b
    rw [hH4, frameAt_setRight _ h3h, hH3, frameAt_setLeft _ h2f, hH2, frameAt_setLeft _ h1n, hH1,
      frameAt_setRight _ han]
  have vfn : frameAt H4 n = f := by rw [vf, frameAt_of_getElem? han]
  have vfo : ∀ a < n, frameAt H4 a = frameAt s.heap a := by
    intro a ha
    rw [vf, hHa, frameAt_append _ (by omega)]
  have hlen4 : H4.length = n + 1 := by simp [hH4, hH3, hH2, hH1, hHa, hn]
  have hasb : ∀ a ∈ as, a < n := by
    intro a ha
    have := r.bound a (by simp [ha])
    omega
  have hmapf : as.map (frameAt H4) = as.map (frameAt s.heap) :=
    List.map_congr_left (fun a ha => vfo a (hasb a ha))
  refine ⟨_, hrun, ?_, rfl, vfn, vfo⟩
  refine ⟨r.head_eq, r.tail_eq, ?_, ?_, ?_, ?_, ?_⟩
  · have hnot : n ∉ h :: as ++ [t] := fun hm => by
      have := r.bound n hm
      omega
    have := r.nodup
    simp only [List.cons_append, List.nodup_cons, List.mem_cons, not_or] at this hnot ⊢
    exact ⟨⟨by omega, this.1⟩, hnot.2, this.2⟩
  · intro a ha
    show a < H4.length
    rw [hlen4]
    simp only [List.cons_append, List.mem_cons] at ha
    rcases ha with rfl | rfl | ha
    · omega
    · omega
    · have := r.bound a (by simp only [List.cons_append, List.mem_cons]; exact Or.inr ha)
      omega
  · show List.Chain' (Link H4) (h :: n :: as ++ [t])
    have : h :: n :: as ++ [t] = h :: n :: first :: rest := by simp [hfr]
    rw [this, List.chain'_cons, List.chain'_cons]
    refine ⟨?_, ?_, chain_frame _ hcr ?_ ?_⟩
    · unfold Link
      rw [vr, vl, if_pos rfl, if_neg (by omega), if_pos rfl]
      exact ⟨rfl, rfl⟩
    · unfold Link
      rw [vr, vl, if_neg (by omega), if_pos rfl, if_pos rfl]
      exact ⟨rfl, rfl⟩
    · intro y hy
      have hy1 : y ∈ first :: rest := List.mem_of_mem_dropLast hy
      have hyb : y < n := hbd y (List.mem_cons_of_mem _ hy1)
      have hyh : y ≠ h := by
        intro e
        subst e
        rcases List.mem_cons.1 hy1 with h1 | h1
        · exact hnhf h1
        · exact hnhr h1
      rw [vr, if_neg hyh, if_neg (by omega), hHa, rightOf_append _ (by omega)]
    · intro y hy
      have hy1 : y ∈ rest := by simpa using hy
      have hyb : y < n := hbd y (by simp [hy1])
      have hyf : y ≠ first := fun e => hnfr (e ▸ hy1)
      rw [vl, if_neg hyf, if_neg (by omega), hHa, leftOf_append _ (by omega)]
  · show (s.page_table_ ++ [(f, some n)]).Perm
      ((n :: as).map (fun a => (frameAt H4 a, some a)))
    have hmap2 : as.map (fun a => ((frameAt H4 a, some a) : frame_id_t × Ptr)) =
        as.map (fun a => (frameAt s.heap a, some a)) :=
      List.map_congr_left (fun a ha => by rw [vfo a (hasb a ha)])
    rw [List.map_cons, hmap2, vfn]
    exact (List.perm_append_singleton _ _).trans (r.table.cons _)
  · show ((n :: as).map (frameAt H4)).Nodup
    rw [List.map_cons, hmapf, vfn, List.nodup_cons]
    exact ⟨hf, r.frames_nodup⟩

/-! ## The member functions on a well-formed state -/

theorem construct_spec (num_pages : Nat) :
    ∃ s, LRUReplacer.construct num_pages = .ok s ∧ Rep s 0 1 [] ∧ s.capacity_ = num_pages := by
  refine ⟨_, rfl, ?_, rfl⟩
  refine ⟨rfl, rfl, by decide, ?_, ?_, ?_, ?_⟩
  · intro a ha
    simp at ha
    rcases ha with rfl | rfl <;> simp
  · simp only [List.cons_append, List.nil_append, List.chain'_cons, List.chain'_singleton,
      and_true]
    exact ⟨rfl, rfl⟩
  · simp
  · simp

theorem Rep.isEmpty_iff {s : LRUReplacer} {h t : Nat} {as : List Nat} (r : Rep s h t as) :
    s.page_table_.isEmpty = true ↔ as = [] := by
  have := r.table.length_eq
  rw [List.isEmpty_iff]
  constructor
  · intro e
    rw [e] at this
    simpa using this.symm
  · intro e
    rw [e] at this
    simpa using this

/-- The node next to the tail sentinel is the last node of the list. -/
theorem Rep.last {s : LRUReplacer} {h t : Nat} {pre : List Nat} {x : Nat}
    (r : Rep s h t (pre ++ [x])) :
    ∃ nt nx, s.heap[t]? = some nt ∧ nt.left_ = some x ∧ s.heap[x]? = some nx := by
  have hc := r.chain
  have : h :: (pre ++ [x]) ++ [t] = (h :: pre) ++ x :: [t] := by simp
  rw [this, List.chain'_split] at hc
  have hxt : Link s.heap x t := by
    have := hc.2
    simpa [List.chain'_cons] using this
  obtain ⟨nt, hnt, hl⟩ := leftOf_some hxt.2
  obtain ⟨nx, hnx, -⟩ := rightOf_some hxt.1
  exact ⟨nt, nx, hnt, hl, hnx⟩

/-- With no node between the sentinels, the node next to the tail sentinel is the head. -/
theorem Rep.last_nil {s : LRUReplacer} {h t : Nat} (r : Rep s h t []) :
    ∃ nt nh, s.heap[t]? = some nt ∧ nt.left_ = some h ∧ s.heap[h]? = some nh := by
  have hc := r.chain
  have hht : Link s.heap h t := by simpa [List.chain'_cons] using hc
  obtain ⟨nt, hnt, hl⟩ := leftOf_some hht.2
  obtain ⟨nh, hnh, -⟩ := rightOf_some hht.1
  exact ⟨nt, nh, hnt, hl, hnh⟩

theorem Victim_nil {s : LRUReplacer} {h t : Nat} (r : Rep s h t []) :
    LRUReplacer.Victim s = .ok ({ ret := false, frame_id := none }, s) := by
  have he := r.isEmpty_iff.2 rfl
  unfold LRUReplacer.Victim
  simp [he, pure, Except.pure]

theorem Victim_last {s : LRUReplacer} {h t : Nat} {pre : List Nat} {x : Nat}
    (r : Rep s h t (pre ++ [x])) :
    ∃ s1, LRUReplacer.Victim s =
        .ok ({ ret := true, frame_id := some (frameAt s.heap x) }, s1) ∧
      Rep s1 h t pre ∧ s1.capacity_ = s.capacity_ ∧ s1.heap.length = s.heap.length ∧
      (∀ a, frameAt s1.heap a = frameAt s.heap a) := by
  obtain ⟨nt, nx, hnt, hl, hnx⟩ := r.last
  obtain ⟨s1, hrem, r1, hcap, hlen, hfr⟩ := remove_spec pre [] x r
  rw [List.append_nil] at r1
  have hne : s.page_table_.isEmpty = false := by
    cases he : s.page_table_.isEmpty
    · rfl
    · have := r.isEmpty_iff.1 he
      simp at this
  have hx1 : ∃ n1, s1.heap[x]? = some n1 := by
    have hlt := lt_of_getElem? hnx
    rw [← hlen] at hlt
    exact ⟨s1.heap[x], List.getElem?_eq_getElem hlt⟩
  obtain ⟨n1, hn1⟩ := hx1
  have hf1 : n1.frame_id_ = frameAt s.heap x := by
    rw [← hfr x, frameAt_of_getElem? hn1]
  rw [frameAt_of_getElem? hnx] at hrem
  refine ⟨s1, ?_, r1, hcap, hlen, hfr⟩
  unfold LRUReplacer.Victim
  simp only [hne, r.tail_eq, load_some hnt, hl, load_some hnx, hrem, load_some hn1, hf1,
    bind, Except.bind, pure, Except.pure]
  simp

theorem Pin_untracked (s : LRUReplacer) (f : frame_id_t)
    (hf : PageTable.find s.page_table_ f = none) : LRUReplacer.Pin s f = .ok s := by
  unfold LRUReplacer.Pin
  simp [hf, pure, Except.pure]

theorem Pin_tracked {s : LRUReplacer} {h t : Nat} (pre post : List Nat) (x : Nat)
    (r : Rep s h t (pre ++ x :: post)) :
    ∃ s1, LRUReplacer.Pin s (frameAt s.heap x) = .ok s1 ∧ Rep s1 h t (pre ++ post) ∧
      s1.capacity_ = s.capacity_ ∧ (∀ a, frameAt s1.heap a = frameAt s.heap a) := by
  obtain ⟨s1, hrem, r1, hcap, -, hfr⟩ := remove_spec pre post x r
  have hfind := r.find_some x (by simp)
  refine ⟨s1, ?_, r1, hcap, hfr⟩
  unfold LRUReplacer.Pin
  simp [hfind, hrem, bind, Except.bind, pure, Except.pure]

theorem Unpin_tracked (fuel : Nat) (s : LRUReplacer) (f : frame_id_t)
    (hf : s.tracked f = true) : LRUReplacer.Unpin fuel s f = .ok s := by
  unfold LRUReplacer.tracked at hf
  unfold LRUReplacer.Unpin
  cases hp : PageTable.find s.page_table_ f with
  | none => simp [hp] at hf
  | some p => simp [pure, Except.pure]

theorem Unpin_room {s : LRUReplacer} {h t : Nat} {as : List Nat} (r : Rep s h t as)
    (fuel : Nat) (f : frame_id_t) (hf : f ∉ as.map (frameAt s.heap))
    (hroom : as.length < s.capacity_) :
    ∃ s1, LRUReplacer.Unpin fuel s f = .ok s1 ∧ Rep s1 h t (s.heap.length :: as) ∧
      s1.capacity_ = s.capacity_ ∧ frameAt s1.heap s.heap.length = f ∧
      (∀ a < s.heap.length, frameAt s1.heap a = frameAt s.heap a) := by
  obtain ⟨s1, hins, r1, hcap, hfn, hfo⟩ := insert_spec r f hf
  have hfind := (r.find_none f).2 hf
  have hsz : ¬ s.page_table_.length ≥ s.capacity_ := by
    have := r.size
    unfold LRUReplacer.Size at this
    omega
  refine ⟨s1, ?_, r1, hcap, hfn, hfo⟩
  unfold LRUReplacer.Unpin
  simp only [hfind, hsz, if_false, bind, Except.bind, pure, Except.pure]
  exact hins

theorem evictLoop_full {s : LRUReplacer} {h t : Nat} {pre : List Nat} {x : Nat}
    (r : Rep s h t (pre ++ [x])) (hfull : pre.length + 1 = s.capacity_) (fuel : Nat) :
    ∃ s1, LRUReplacer.evictLoop (fuel + 1) s = .ok s1 ∧ Rep s1 h t pre ∧
      s1.capacity_ = s.capacity_ ∧ s1.heap.length = s.heap.length ∧
      (∀ a, frameAt s1.heap a = frameAt s.heap a) := by
  obtain ⟨nt, nx, hnt, hl, hnx⟩ := r.last
  obtain ⟨s1, hrem, r1, hcap, hlen, hfr⟩ := remove_spec pre [] x r
  rw [List.append_nil] at r1
  rw [frameAt_of_getElem? hnx] at hrem
  have hsz : s.page_table_.length ≥ s.capacity_ := by
    have := r.size
    unfold LRUReplacer.Size at this
    simp at this
    omega
  have hsz1 : ¬ s1.page_table_.length ≥ s1.capacity_ := by
    have := r1.size
    unfold LRUReplacer.Size at this
    omega
  refine ⟨s1, ?_, r1, hcap, hlen, hfr⟩
  have hnext : LRUReplacer.evictLoop fuel s1 = .ok s1 := by
    unfold LRUReplacer.evictLoop
    simp [hsz1, pure, Except.pure]
  unfold LRUReplacer.evictLoop
  simp only [hsz, if_true, r.tail_eq, load_some hnt, hl, load_some hnx, hrem, hnext,
    bind, Except.bind]

theorem evictLoop_stuck {s : LRUReplacer} {h t : Nat} (r : Rep s h t [])
    (hcap : s.capacity_ = 0) : ∀ fuel, LRUReplacer.evictLoop fuel s = .error .outOfFuel := by
  obtain ⟨nt, nh, hnt, hl, hnh⟩ := r.last_nil
  have hfind : PageTable.find s.page_table_ nh.frame_id_ = none := by
    rw [r.find_none]
    simp
  have hrem : LRUReplacer.remove s nh.frame_id_ = .ok (false, s) := by
    unfold LRUReplacer.remove
    simp [hfind, pure, Except.pure]
  intro fuel
  induction fuel with
  | zero =>
    unfold LRUReplacer.evictLoop
    simp [hcap]
  | succ fuel ih =>
    unfold LRUReplacer.evictLoop
    simp only [hcap, ge_iff_le, Nat.zero_le, if_true, r.tail_eq, load_some hnt, hl,
      load_some hnh, hrem, ih, bind, Except.bind]

theorem Unpin_full {s : LRUReplacer} {h t : Nat} {pre : List Nat} {x : Nat}
    (r : Rep s h t (pre ++ [x])) (fuel : Nat) (f : frame_id_t)
    (hf : f ∉ (pre ++ [x]).map (frameAt s.heap)) (hfull : pre.length + 1 = s.capacity_) :
    ∃ s1, LRUReplacer.Unpin (fuel + 1) s f = .ok s1 ∧ Rep s1 h t (s.heap.length :: pre) ∧
      s1.capacity_ = s.capacity_ ∧ frameAt s1.heap s.heap.length = f ∧
      (∀ a < s.heap.length, frameAt s1.heap a = frameAt s.heap a) := by
  obtain ⟨s0, hloop, r0, hcap0, hlen0, hfr0⟩ := evictLoop_full r hfull fuel
  have hf0 : f ∉ pre.map (frameAt s0.heap) := by
    rw [funext hfr0]
    intro hm
    apply hf
    rw [List.map_append]
    exact List.mem_append_left _ hm
  obtain ⟨s1, hins, r1, hcap, hfn, hfo⟩ := insert_spec r0 f hf0
  have hfind := (r.find_none f).2 hf
  have hsz : s.page_table_.length ≥ s.capacity_ := by
    have := r.size
    unfold LRUReplacer.Size at this
    simp at this
    omega
  rw [hlen0] at r1 hfn hfo
  refine ⟨s1, ?_, r1, hcap.trans hcap0, hfn, fun a ha => (hfo a ha).trans (hfr0 a)⟩
  unfold LRUReplacer.Unpin
  simp only [hfind, hsz, if_true, hloop, bind, Except.bind]
  exact hins

theorem Unpin_stuck {s : LRUReplacer} {h t : Nat} (r : Rep s h t []) (hcap : s.capacity_ = 0)
    (fuel : Nat) (f : frame_id_t) : LRUReplacer.Unpin fuel s f = .error .outOfFuel := by
  have hfind : PageTable.find s.page_table_ f = none := by
    rw [r.find_none]
    simp
  unfold LRUReplacer.Unpin
  simp only [hfind, hcap, ge_iff_le, Nat.zero_le, if_true, evictLoop_stuck r hcap fuel,
    bind, Except.bind]

theorem Unpin_nofuel {s : LRUReplacer} {h t : Nat} {as : List Nat} (r : Rep s h t as)
    (f : frame_id_t) (hf : f ∉ as.map (frameAt s.heap)) (hfull : s.capacity_ ≤ as.length) :
    LRUReplacer.Unpin 0 s f = .error .outOfFuel := by
  have hfind := (r.find_none f).2 hf
  have hsz : s.page_table_.length ≥ s.capacity_ := by
    have := r.size
    unfold LRUReplacer.Size at this
    omega
  unfold LRUReplacer.Unpin LRUReplacer.evictLoop
  simp only [hfind, hsz, if_true, bind, Except.bind]

/-! ## The eviction order kept by the member functions -/

theorem Abs.order_eq {s : LRUReplacer} {l : List frame_id_t} (a : Abs s l) :
    s.evictionOrder = l := by
  obtain ⟨h, t, as, r, rfl⟩ := a
  exact r.evictionOrder

theorem Abs.size_eq {s : LRUReplacer} {l : List frame_id_t} (a : Abs s l) : s.Size = l.length := by
  obtain ⟨h, t, as, r, rfl⟩ := a
  simpa using r.size

theorem Abs.nodup {s : LRUReplacer} {l : List frame_id_t} (a : Abs s l) : l.Nodup := by
  obtain ⟨h, t, as, r, rfl⟩ := a
  exact List.nodup_reverse.2 r.frames_nodup

theorem Abs.tracked_mem {s : LRUReplacer} {l : List frame_id_t} (a : Abs s l) (f : frame_id_t) :
    s.tracked f = true ↔ f ∈ l := by
  obtain ⟨h, t, as, r, rfl⟩ := a
  rw [r.tracked_iff, List.mem_reverse]

theorem Abs.untracked_iff {s : LRUReplacer} {l : List frame_id_t} (a : Abs s l) (f : frame_id_t) :
    s.tracked f = false ↔ f ∉ l := by
  rw [← a.tracked_mem f]
  cases s.tracked f <;> simp

theorem Abs_construct (num_pages : Nat) :
    ∃ s, LRUReplacer.construct num_pages = .ok s ∧ Abs s [] ∧ s.capacity_ = num_pages := by
  obtain ⟨s, hs, r, hc⟩ := construct_spec num_pages
  exact ⟨s, hs, ⟨0, 1, [], r, rfl⟩, hc⟩

theorem Abs_Victim_nil {s : LRUReplacer} (a : Abs s []) :
    LRUReplacer.Victim s = .ok ({ ret := false, frame_id := none }, s) := by
  obtain ⟨h, t, as, r, hl⟩ := a
  have : as = [] := by simpa using hl.symm
  subst this
  exact Victim_nil r

theorem Abs_Victim_cons {s : LRUReplacer} {f : frame_id_t} {l : List frame_id_t}
    (a : Abs s (f :: l)) :
    ∃ s1, LRUReplacer.Victim s = .ok ({ ret := true, frame_id := some f }, s1) ∧ Abs s1 l ∧
      s1.capacity_ = s.capacity_ := by
  obtain ⟨h, t, as, r, hl⟩ := a
  rcases List.eq_nil_or_concat as with rfl | ⟨pre, x, rfl⟩
  · simp at hl
  · rw [List.concat_eq_append] at r hl
    rw [List.map_append, List.reverse_append] at hl
    simp only [List.map_cons, List.map_nil, List.reverse_cons, List.reverse_nil, List.nil_append,
      List.singleton_append, List.cons.injEq] at hl
    obtain ⟨hf, hl⟩ := hl
    obtain ⟨s1, hv, r1, hcap, -, hfr⟩ := Victim_last r
    refine ⟨s1, by rw [hv, hf], ⟨h, t, pre, r1, ?_⟩, hcap⟩
    rw [funext hfr, hl]

theorem Abs_Pin {s : LRUReplacer} {l : List frame_id_t} (a : Abs s l) (f : frame_id_t) :
    ∃ s1, LRUReplacer.Pin s f = .ok s1 ∧ Abs s1 (l.erase f) ∧ s1.capacity_ = s.capacity_ ∧
      (f ∉ l → s1 = s) := by
  by_cases hm : f ∈ l
  · obtain ⟨h, t, as, r, hl⟩ := a
    subst hl
    rw [List.mem_reverse, List.mem_map] at hm
    obtain ⟨x, hx, rfl⟩ := hm
    obtain ⟨pre, post, rfl⟩ := List.append_of_mem hx
    obtain ⟨s1, hp, r1, hcap, hfr⟩ := Pin_tracked pre post x r
    refine ⟨s1, hp, ⟨h, t, pre ++ post, r1, ?_⟩, hcap, fun hn => absurd ?_ hn⟩
    · have hnd := r.frames_nodup
      rw [List.map_append, List.map_cons, List.nodup_append] at hnd
      obtain ⟨-, hxp, -⟩ := hnd
      rw [List.nodup_cons] at hxp
      have hnot : frameAt s.heap x ∉ (post.map (frameAt s.heap)).reverse := by
        rw [List.mem_reverse]; exact hxp.1
      rw [funext hfr]
      simp only [List.map_append, List.map_cons, List.reverse_append, List.reverse_cons,
        List.append_assoc, List.singleton_append]
      rw [List.erase_append_right _ hnot, List.erase_cons_head]
    · rw [List.mem_reverse, List.mem_map]
      exact ⟨x, hx, rfl⟩
  · have hf := (a.untracked_iff f).2 hm
    have hfind : PageTable.find s.page_table_ f = none := by
      unfold LRUReplacer.tracked at hf
      cases hp : PageTable.find s.page_table_ f with
      | none => rfl
      | some p => simp [hp] at hf
    refine ⟨s, Pin_untracked s f hfind, ?_, rfl, fun _ => rfl⟩
    rw [List.erase_of_not_mem hm]
    exact a

theorem Abs_Unpin {s : LRUReplacer} {l : List frame_id_t} (a : Abs s l)
    (hsize : l.length ≤ s.capacity_) (fuel : Nat) (f : frame_id_t)
    (hok : f ∈ l ∨ l.length < s.capacity_ ∨ (1 ≤ s.capacity_ ∧ 1 ≤ fuel)) :
    ∃ s1, LRUReplacer.Unpin fuel s f = .ok s1 ∧ Abs s1 (unpinOrder s.capacity_ l f) ∧
      s1.capacity_ = s.capacity_ ∧ (f ∈ l → s1 = s) := by
  by_cases hm : f ∈ l
  · refine ⟨s, Unpin_tracked fuel s f ((a.tracked_mem f).2 hm), ?_, rfl, fun _ => rfl⟩
    simpa [unpinOrder, hm] using a
  · obtain ⟨h, t, as, r, hl⟩ := a
    have hf : f ∉ as.map (frameAt s.heap) := by
      rw [hl, List.mem_reverse] at hm; exact hm
    have hlen : l.length = as.length := by simp [hl]
    have hbd : ∀ a ∈ as, a < s.heap.length := fun a ha => r.bound a (by simp [ha])
    by_cases hroom : l.length < s.capacity_
    · obtain ⟨s1, hu, r1, hcap, hfn, hfo⟩ := Unpin_room r fuel f hf (by omega)
      refine ⟨s1, hu, ⟨h, t, _, r1, ?_⟩, hcap, fun hn => absurd hn hm⟩
      have hmap : as.map (frameAt s1.heap) = as.map (frameAt s.heap) :=
        List.map_congr_left (fun a ha => hfo a (hbd a ha))
      have hne : l.length ≠ s.capacity_ := by omega
      have hu1 : unpinOrder s.capacity_ l f = l ++ [f] := by
        unfold unpinOrder
        rw [if_neg hm, if_neg hne]
      rw [hu1, hl]
      simp [hfn, hmap]
    · have hfull : l.length = s.capacity_ := by omega
      rcases hok with hin | hlt | ⟨hcap1, hfuel⟩
      · exact absurd hin hm
      · exact absurd hlt hroom
      · obtain ⟨fuel, rfl⟩ : ∃ k, fuel = k + 1 := ⟨fuel - 1, by omega⟩
        rcases List.eq_nil_or_concat as with rfl | ⟨pre, x, rfl⟩
        · rw [List.length_nil] at hlen; omega
        · rw [List.concat_eq_append] at r hl hf hlen hbd
          obtain ⟨s1, hu, r1, hcap, hfn, hfo⟩ :=
            Unpin_full r fuel f hf (by simp at hlen; omega)
          refine ⟨s1, hu, ⟨h, t, _, r1, ?_⟩, hcap, fun hn => absurd hn hm⟩
          have hmap : pre.map (frameAt s1.heap) = pre.map (frameAt s.heap) :=
            List.map_congr_left (fun a ha => hfo a (hbd a (by simp [ha])))
          have hu1 : unpinOrder s.capacity_ l f = l.tail ++ [f] := by
            unfold unpinOrder
            rw [if_neg hm, if_pos hfull]
          rw [hu1, hl]
          simp [hfn, hmap]

theorem unpinOrder_length_le (cap : Nat) (l : List frame_id_t) (f : frame_id_t)
    (h : l.length ≤ cap) (hcap : f ∈ l ∨ 1 ≤ cap) : (unpinOrder cap l f).length ≤ cap := by
  unfold unpinOrder
  split
  · exact h
  · rename_i hm
    split
    · rename_i he
      have : 1 ≤ cap := by
        rcases hcap with h1 | h1
        · exact absurd h1 hm
        · exact h1
      simp
      omega
    · simp
      omega

/-- Every completed `Unpin` follows the eviction-order model, whatever the capacity and the
fuel. -/
theorem Abs_Unpin_ok {s s1 : LRUReplacer} {l : List frame_id_t} (a : Abs s l)
    (hsize : l.length ≤ s.capacity_) (fuel : Nat) (f : frame_id_t)
    (hrun : LRUReplacer.Unpin fuel s f = .ok s1) :
    Abs s1 (unpinOrder s.capacity_ l f) ∧ s1.capacity_ = s.capacity_ ∧
      (unpinOrder s.capacity_ l f).length ≤ s.capacity_ := by
  by_cases hok : f ∈ l ∨ l.length < s.capacity_ ∨ (1 ≤ s.capacity_ ∧ 1 ≤ fuel)
  · obtain ⟨s2, hu, a2, hcap, -⟩ := Abs_Unpin a hsize fuel f hok
    rw [hu] at hrun
    cases hrun
    refine ⟨a2, hcap, unpinOrder_length_le _ _ _ hsize ?_⟩
    rcases hok with h1 | h1 | h1
    · exact Or.inl h1
    · exact Or.inr (by omega)
    · exact Or.inr h1.1
  · exfalso
    simp only [not_or, not_and, not_lt, not_le] at hok
    obtain ⟨hm, hfull, hz⟩ := hok
    obtain ⟨h, t, as, r, hl⟩ := a
    have hf : f ∉ as.map (frameAt s.heap) := by
      rw [hl, List.mem_reverse] at hm; exact hm
    have hlen : l.length = as.length := by simp [hl]
    by_cases hc : 1 ≤ s.capacity_
    · have h0 : fuel = 0 := by have := hz hc; omega
      subst h0
      rw [Unpin_nofuel r f hf (by omega)] at hrun
      cases hrun
    · have hc0 : s.capacity_ = 0 := by omega
      have has : as = [] := by
        apply List.eq_nil_of_length_eq_zero
        omega
      subst has
      rw [Unpin_stuck r hc0 fuel f] at hrun
      cases hrun

theorem Reachable.inv {s : LRUReplacer} (hr : Reachable s) :
    ∃ l, Abs s l ∧ l.length ≤ s.capacity_ := by
  induction hr with
  | construct n s hs =>
    obtain ⟨s0, hs0, a, -⟩ := Abs_construct n
    rw [hs0] at hs
    cases hs
    exact ⟨[], a, Nat.zero_le _⟩
  | Unpin fuel s s1 f _ hu ih =>
    obtain ⟨l, a, hsz⟩ := ih
    obtain ⟨a1, hcap, hle⟩ := Abs_Unpin_ok a hsz fuel f hu
    exact ⟨_, a1, by rw [hcap]; exact hle⟩
  | Pin s s1 f _ hp ih =>
    obtain ⟨l, a, hsz⟩ := ih
    obtain ⟨s2, hp2, a2, hcap, -⟩ := Abs_Pin a f
    rw [hp2] at hp
    cases hp
    refine ⟨_, a2, ?_⟩
    rw [hcap]
    exact (List.length_erase_le _ _).trans hsz
  | Victim s s1 r _ hv ih =>
    obtain ⟨l, a, hsz⟩ := ih
    cases l with
    | nil =>
      rw [Abs_Victim_nil a] at hv
      cases hv
      exact ⟨[], a, hsz⟩
    | cons f l =>
      obtain ⟨s2, hv2, a2, hcap⟩ := Abs_Victim_cons a
      rw [hv2] at hv
      cases hv
      refine ⟨l, a2, ?_⟩
      rw [hcap]
      simp at hsz
      omega

theorem fresh2_reachable : Reachable fresh2 :=
  Reachable.construct 2 fresh2 rfl

theorem one2_reachable : Reachable one2 :=
  Reachable.Unpin 1 fresh2 one2 1 fresh2_reachable rfl

theorem full2_reachable : Reachable full2 :=
  Reachable.Unpin 1 one2 full2 2 one2_reachable rfl

theorem victims_front : ∀ (l1 l2 : List frame_id_t) (s : LRUReplacer), Abs s (l1 ++ l2) →
    ∃ s1, LRUReplacer.victims l1.length s =
        .ok (l1.map (fun f => ({ ret := true, frame_id := some f } : VictimResult)), s1) ∧
      Abs s1 l2 ∧ s1.capacity_ = s.capacity_
  | [], l2, s, a => ⟨s, rfl, a, rfl⟩
  | f :: l1, l2, s, a => by
    obtain ⟨s1, hv, a1, hc1⟩ := Abs_Victim_cons (show Abs s (f :: (l1 ++ l2)) from a)
    obtain ⟨s2, hvs, a2, hc2⟩ := victims_front l1 l2 s1 a1
    refine ⟨s2, ?_, a2, hc2.trans hc1⟩
    simp only [List.length_cons, LRUReplacer.victims, hv, hvs, List.map_cons, bind, Except.bind,
      pure, Except.pure]

/-- C1: on a reachable state that tracks at least one frame, `Victim` returns true and stores
the frame of the node next to the tail sentinel, the head of the eviction order; afterwards
that frame is untracked, `Size()` is one smaller, every other frame is tracked as before and
the remaining frames keep their order. -/
theorem C1_victim_takes_least_recent (s : LRUReplacer) (hr : Reachable s) (hpos : 0 < s.Size) :
    ∃ f s1, s.evictionOrder.head? = some f ∧
      LRUReplacer.Victim s = .ok ({ ret := true, frame_id := some f }, s1) ∧
      s1.tracked f = false ∧ s1.Size + 1 = s.Size ∧
      s1.evictionOrder = s.evictionOrder.tail ∧ (∀ g, g ≠ f → s1.tracked g = s.tracked g) := by
  obtain ⟨l, a, -⟩ := hr.inv
  cases l with
  | nil =>
    rw [a.size_eq] at hpos
    simp at hpos
  | cons f l =>
    obtain ⟨s1, hv, a1, -⟩ := Abs_Victim_cons a
    have hnd := a.nodup
    rw [List.nodup_cons] at hnd
    refine ⟨f, s1, by rw [a.order_eq]; rfl, hv, (a1.untracked_iff f).2 hnd.1, ?_, ?_, ?_⟩
    · rw [a1.size_eq, a.size_eq]; rfl
    · rw [a1.order_eq, a.order_eq]; rfl
    · intro g hg
      rw [Bool.eq_iff_iff, a1.tracked_mem, a.tracked_mem, List.mem_cons]
      constructor
      · exact Or.inr
      · rintro (h1 | h1)
        · exact absurd h1 hg
        · exact h1

theorem C1_victim_takes_least_recent_witness :
    Reachable full2 ∧ 0 < full2.Size ∧
      ∃ f s1, full2.evictionOrder.head? = some f ∧
        LRUReplacer.Victim full2 = .ok ({ ret := true, frame_id := some f }, s1) ∧
        s1.tracked f = false ∧ s1.Size + 1 = full2.Size ∧
        s1.evictionOrder = full2.evictionOrder.tail ∧
        (∀ g, g ≠ f → s1.tracked g = full2.tracked g) :=
  ⟨full2_reachable, by decide,
    C1_victim_takes_least_recent full2 full2_reachable (by decide)⟩

/-- C2: on a reachable state `Victim` completes, and it returns false exactly when `Size()` is
0; in that case the state is left as it was and nothing is stored through `frame_id`. -/
theorem C2_victim_false_iff_empty (s : LRUReplacer) (hr : Reachable s) :
    ∃ r s1, LRUReplacer.Victim s = .ok (r, s1) ∧ (r.ret = false ↔ s.Size = 0) ∧
      (s.Size = 0 → s1 = s ∧ r.frame_id = none) := by
  obtain ⟨l, a, -⟩ := hr.inv
  cases l with
  | nil =>
    refine ⟨_, s, Abs_Victim_nil a, ?_, fun _ => ⟨rfl, rfl⟩⟩
    simp [a.size_eq]
  | cons f l =>
    obtain ⟨s1, hv, -, -⟩ := Abs_Victim_cons a
    refine ⟨_, s1, hv, ?_, ?_⟩
    · simp [a.size_eq]
    · intro h0
      rw [a.size_eq] at h0
      simp at h0

theorem C2_victim_false_iff_empty_witness :
    Reachable fresh2 ∧
      ∃ r s1, LRUReplacer.Victim fresh2 = .ok (r, s1) ∧ (r.ret = false ↔ fresh2.Size = 0) ∧
        (fresh2.Size = 0 → s1 = fresh2 ∧ r.frame_id = none) :=
  ⟨fresh2_reachable, C2_victim_false_iff_empty fresh2 fresh2_reachable⟩

/-- C4: on a reachable state of capacity at least 1, `Unpin(f)` completes and a second
`Unpin(f)` leaves the state it produced as it is; and `Unpin(f)` of a tracked frame `f`
returns the state unchanged, so neither `Size()` nor the eviction order moves. -/
theorem C4_unpin_idempotent (s : LRUReplacer) (hr : Reachable s) (hcap : 1 ≤ s.capacity_)
    (fuel : Nat) (hfuel : 1 ≤ fuel) (f : frame_id_t) :
    (∃ s1, LRUReplacer.Unpin fuel s f = .ok s1 ∧ LRUReplacer.Unpin fuel s1 f = .ok s1) ∧
      (s.tracked f = true → ∃ s1, LRUReplacer.Unpin fuel s f = .ok s1 ∧ s1 = s ∧
        s1.Size = s.Size ∧ s1.evictionOrder = s.evictionOrder) := by
  obtain ⟨l, a, hsz⟩ := hr.inv
  constructor
  · obtain ⟨s1, hu, a1, -, -⟩ := Abs_Unpin a hsz fuel f (Or.inr (Or.inr ⟨hcap, hfuel⟩))
    refine ⟨s1, hu, Unpin_tracked fuel s1 f ((a1.tracked_mem f).2 ?_)⟩
    unfold unpinOrder
    split
    · assumption
    · simp
  · intro ht
    exact ⟨s, Unpin_tracked fuel s f ht, rfl, rfl, rfl⟩

theorem C4_unpin_idempotent_witness :
    Reachable one2 ∧ 1 ≤ one2.capacity_ ∧ 1 ≤ 1 ∧
      ((∃ s1, LRUReplacer.Unpin 1 one2 1 = .ok s1 ∧ LRUReplacer.Unpin 1 s1 1 = .ok s1) ∧
        (one2.tracked 1 = true → ∃ s1, LRUReplacer.Unpin 1 one2 1 = .ok s1 ∧ s1 = one2 ∧
          s1.Size = one2.Size ∧ s1.evictionOrder = one2.evictionOrder)) :=
  ⟨one2_reachable, by decide, by decide,
    C4_unpin_idempotent one2 one2_reachable (by decide) 1 (by decide) 1⟩

/-- C5: on a reachable state with `Size()` below the capacity, `Unpin(f)` of an untracked
frame `f` completes (the loop is not entered, so with any fuel), makes `f` tracked, grows
`Size()` by one, keeps every tracked frame tracked, and appends `f` to the eviction order:
the following `Victim` calls return the old frames in their old order, and `f` last. -/
theorem C5_unpin_inserts_most_recent (s : LRUReplacer) (hr : Reachable s)
    (hroom : s.Size < s.capacity_) (f : frame_id_t) (hf : s.tracked f = false) (fuel : Nat) :
    ∃ s1 s2, LRUReplacer.Unpin fuel s f = .ok s1 ∧ s1.tracked f = true ∧
      s1.Size = s.Size + 1 ∧ (∀ g, s.tracked g = true → s1.tracked g = true) ∧
      s1.evictionOrder = s.evictionOrder ++ [f] ∧
      LRUReplacer.victims s1.Size s1 = .ok ((s.evictionOrder ++ [f]).map
        (fun g => ({ ret := true, frame_id := some g } : VictimResult)), s2) := by
  obtain ⟨l, a, hsz⟩ := hr.inv
  have hm : f ∉ l := (a.untracked_iff f).1 hf
  have hlt : l.length < s.capacity_ := by rw [← a.size_eq]; exact hroom
  obtain ⟨s1, hu, a1, -, -⟩ := Abs_Unpin a hsz fuel f (Or.inr (Or.inl hlt))
  have hu1 : unpinOrder s.capacity_ l f = l ++ [f] := by
    unfold unpinOrder
    rw [if_neg hm, if_neg (by omega)]
  rw [hu1] at a1
  obtain ⟨s2, hv, -, -⟩ := victims_front (l ++ [f]) [] s1 (by simpa using a1)
  refine ⟨s1, s2, hu, (a1.tracked_mem f).2 (by simp), ?_, ?_, ?_, ?_⟩
  · rw [a1.size_eq, a.size_eq]; simp
  · intro g hg
    rw [a1.tracked_mem]
    exact List.mem_append_left _ ((a.tracked_mem g).1 hg)
  · rw [a1.order_eq, a.order_eq]
  · rw [a1.size_eq, a.order_eq]
    exact hv

theorem C5_unpin_inserts_most_recent_witness :
    Reachable one2 ∧ one2.Size < one2.capacity_ ∧ one2.tracked 7 = false ∧
      ∃ s1 s2, LRUReplacer.Unpin 0 one2 7 = .ok s1 ∧ s1.tracked 7 = true ∧
        s1.Size = one2.Size + 1 ∧ (∀ g, one2.tracked g = true → s1.tracked g = true) ∧
        s1.evictionOrder = one2.evictionOrder ++ [7] ∧
        LRUReplacer.victims s1.Size s1 = .ok ((one2.evictionOrder ++ [7]).map
          (fun g => ({ ret := true, frame_id := some g } : VictimResult)), s2) :=
  ⟨one2_reachable, by decide, by decide,
    C5_unpin_inserts_most_recent one2 one2_reachable (by decide) 7 (by decide) 0⟩

/-- C6: on a reachable state of capacity at least 1 with `Size()` equal to the capacity,
`Unpin(f)` of an untracked frame `f` completes after one iteration of its loop, drops the
head `g` of the eviction order and nothing else from tracking, and appends `f`; `Size()`
stays equal to the capacity and the other frames keep their order. -/
theorem C6_unpin_at_capacity (s : LRUReplacer) (hr : Reachable s) (hcap : 1 ≤ s.capacity_)
    (hfull : s.Size = s.capacity_) (f : frame_id_t) (hf : s.tracked f = false)
    (fuel : Nat) (hfuel : 1 ≤ fuel) :
    ∃ g rest s1, s.evictionOrder = g :: rest ∧ LRUReplacer.Unpin fuel s f = .ok s1 ∧
      s1.evictionOrder = rest ++ [f] ∧ s1.Size = s.capacity_ ∧ s1.capacity_ = s.capacity_ ∧
      s1.tracked g = false ∧
      (∀ k, s1.tracked k = true ↔ (k = f ∨ (k ≠ g ∧ s.tracked k = true))) := by
  obtain ⟨l, a, hsz⟩ := hr.inv
  have hm : f ∉ l := (a.untracked_iff f).1 hf
  have hlen : l.length = s.capacity_ := by rw [← a.size_eq]; exact hfull
  obtain ⟨s1, hu, a1, hc1, -⟩ := Abs_Unpin a hsz fuel f (Or.inr (Or.inr ⟨hcap, hfuel⟩))
  have hu1 : unpinOrder s.capacity_ l f = l.tail ++ [f] := by
    unfold unpinOrder
    rw [if_neg hm, if_pos hlen]
  rw [hu1] at a1
  cases l with
  | nil => simp at hlen; omega
  | cons g rest =>
    have hnd := a.nodup
    rw [List.nodup_cons] at hnd
    have hgf : g ≠ f := fun e => hm (by simp [e])
    simp only [List.tail_cons] at a1
    refine ⟨g, rest, s1, a.order_eq, hu, a1.order_eq, ?_, hc1, ?_, ?_⟩
    · rw [a1.size_eq, ← hlen]; simp
    · rw [a1.untracked_iff]
      simp [hnd.1, hgf]
    · intro k
      rw [a1.tracked_mem, a.tracked_mem]
      simp only [List.mem_append, List.mem_cons, List.mem_singleton, List.not_mem_nil, or_false]
      constructor
      · rintro (h1 | h1)
        · exact Or.inr ⟨fun e => hnd.1 (e ▸ h1), Or.inr h1⟩
        · exact Or.inl h1
      · rintro (h1 | ⟨h1, h2 | h2⟩)
        · exact Or.inr h1
        · exact absurd h2 h1
        · exact Or.inl h2

theorem C6_unpin_at_capacity_witness :
    Reachable full2 ∧ 1 ≤ full2.capacity_ ∧ full2.Size = full2.capacity_ ∧
      full2.tracked 3 = false ∧ 1 ≤ 1 ∧
      ∃ g rest s1, full2.evictionOrder = g :: rest ∧ LRUReplacer.Unpin 1 full2 3 = .ok s1 ∧
        s1.evictionOrder = rest ++ [3] ∧ s1.Size = full2.capacity_ ∧
        s1.capacity_ = full2.capacity_ ∧ s1.tracked g = false ∧
        (∀ k, s1.tracked k = true ↔ (k = 3 ∨ (k ≠ g ∧ full2.tracked k = true))) :=
  ⟨full2_reachable, by decide, by decide, by decide, by decide,
    C6_unpin_at_capacity full2 full2_reachable (by decide) (by decide) 3 (by decide) 1
      (by decide)⟩

/-- C7: on a reachable state `Pin(f)` completes; when `f` is tracked it becomes untracked,
`Size()` is one smaller, every other frame is tracked as before and the eviction order is the
old one without `f`; when `f` is not tracked the state is unchanged. -/
theorem C7_pin_erases_only_f (s : LRUReplacer) (hr : Reachable s) (f : frame_id_t) :
    ∃ s1, LRUReplacer.Pin s f = .ok s1 ∧
      (s.tracked f = true → s1.tracked f = false ∧ s1.Size + 1 = s.Size ∧
        s1.evictionOrder = s.evictionOrder.filter (fun g => decide (g ≠ f)) ∧
        (∀ g, g ≠ f → s1.tracked g = s.tracked g)) ∧
      (s.tracked f = false → s1 = s) := by
  obtain ⟨l, a, -⟩ := hr.inv
  obtain ⟨s1, hp, a1, -, hsame⟩ := Abs_Pin a f
  have hnd := a.nodup
  refine ⟨s1, hp, ?_, fun hf => hsame ((a.untracked_iff f).1 hf)⟩
  intro ht
  have hm : f ∈ l := (a.tracked_mem f).1 ht
  refine ⟨?_, ?_, ?_, ?_⟩
  · rw [a1.untracked_iff, hnd.mem_erase_iff]
    simp
  · rw [a1.size_eq, a.size_eq, List.length_erase_of_mem hm]
    have : 0 < l.length := List.length_pos_of_mem hm
    omega
  · rw [a1.order_eq, a.order_eq, hnd.erase_eq_filter]
    apply List.filter_congr
    intro g _
    by_cases hgf : g = f <;> simp [hgf]
  · intro g hg
    rw [Bool.eq_iff_iff, a1.tracked_mem, a.tracked_mem, hnd.mem_erase_iff]
    exact ⟨fun h1 => h1.2, fun h1 => ⟨hg, h1⟩⟩

theorem C7_pin_erases_only_f_witness :
    Reachable full2 ∧
      ∃ s1, LRUReplacer.Pin full2 1 = .ok s1 ∧
        (full2.tracked 1 = true → s1.tracked 1 = false ∧ s1.Size + 1 = full2.Size ∧
          s1.evictionOrder = full2.evictionOrder.filter (fun g => decide (g ≠ 1)) ∧
          (∀ g, g ≠ 1 → s1.tracked g = full2.tracked g)) ∧
        (full2.tracked 1 = false → s1 = full2) :=
  ⟨full2_reachable, C7_pin_erases_only_f full2 full2_reachable 1⟩

/-- C10: on a reachable state of capacity at least 1, `Unpin(f)`, `Pin(f)` and `Victim()` in
a row all complete, and that `Victim` does not return `f`: it stores a tracked frame other
than `f`, or returns false and stores nothing. -/
theorem C10_pin_after_unpin_not_victim (s : LRUReplacer) (hr : Reachable s)
    (hcap : 1 ≤ s.capacity_) (fuel : Nat) (hfuel : 1 ≤ fuel) (f : frame_id_t) :
    ∃ s1 s2 r s3, LRUReplacer.Unpin fuel s f = .ok s1 ∧ LRUReplacer.Pin s1 f = .ok s2 ∧
      LRUReplacer.Victim s2 = .ok (r, s3) ∧ r.frame_id ≠ some f ∧
      ((r.ret = false ∧ r.frame_id = none) ∨
        (∃ g, r.ret = true ∧ r.frame_id = some g ∧ g ≠ f ∧ s2.tracked g = true)) := by
  obtain ⟨l, a, hsz⟩ := hr.inv
  obtain ⟨s1, hu, a1, -, -⟩ := Abs_Unpin a hsz fuel f (Or.inr (Or.inr ⟨hcap, hfuel⟩))
  obtain ⟨s2, hp, a2, -, -⟩ := Abs_Pin a1 f
  have hnd1 := a1.nodup
  generalize hl2 : (unpinOrder s.capacity_ l f).erase f = l2 at a2
  have hnot : f ∉ l2 := by
    rw [← hl2, hnd1.mem_erase_iff]
    simp
  cases l2 with
  | nil =>
    exact ⟨s1, s2, _, s2, hu, hp, Abs_Victim_nil a2, by simp, Or.inl ⟨rfl, rfl⟩⟩
  | cons g rest =>
    obtain ⟨s3, hv, -, -⟩ := Abs_Victim_cons a2
    have hgf : g ≠ f := fun e => hnot (by simp [e])
    refine ⟨s1, s2, _, s3, hu, hp, hv, ?_, Or.inr ⟨g, rfl, rfl, hgf, ?_⟩⟩
    · simpa using hgf
    · rw [a2.tracked_mem]
      simp

theorem C10_pin_after_unpin_not_victim_witness :
    Reachable one2 ∧ 1 ≤ one2.capacity_ ∧ 1 ≤ 1 ∧
      ∃ s1 s2 r s3, LRUReplacer.Unpin 1 one2 5 = .ok s1 ∧ LRUReplacer.Pin s1 5 = .ok s2 ∧
        LRUReplacer.Victim s2 = .ok (r, s3) ∧ r.frame_id ≠ some 5 ∧
        ((r.ret = false ∧ r.frame_id = none) ∨
          (∃ g, r.ret = true ∧ r.frame_id = some g ∧ g ≠ 5 ∧ s2.tracked g = true)) :=
  ⟨one2_reachable, by decide, by decide,
    C10_pin_after_unpin_not_victim one2 one2_reachable (by decide) 1 (by decide) 5⟩

/-! ## Runs of calls -/

theorem call_order {s : LRUReplacer} {l : List frame_id_t} (a : Abs s l)
    (hsize : l.length ≤ s.capacity_) (hcap : 1 ≤ s.capacity_) (fuel : Nat) (hfuel : 1 ≤ fuel)
    (c : Call) :
    ∃ s1, LRUReplacer.call fuel s c = .ok ((orderCall s.capacity_ l c).1, s1) ∧
      Abs s1 (orderCall s.capacity_ l c).2 ∧ s1.capacity_ = s.capacity_ ∧
      (orderCall s.capacity_ l c).2.length ≤ s.capacity_ := by
  cases c with
  | Unpin f =>
    obtain ⟨s1, hu, a1, hc, -⟩ := Abs_Unpin a hsize fuel f (Or.inr (Or.inr ⟨hcap, hfuel⟩))
    refine ⟨s1, ?_, a1, hc, unpinOrder_length_le _ _ _ hsize (Or.inr hcap)⟩
    simp [LRUReplacer.call, hu, orderCall, bind, Except.bind, pure, Except.pure]
  | Pin f =>
    obtain ⟨s1, hp, a1, hc, -⟩ := Abs_Pin a f
    refine ⟨s1, ?_, a1, hc, (List.length_erase_le _ _).trans hsize⟩
    simp [LRUReplacer.call, hp, orderCall, bind, Except.bind, pure, Except.pure]
  | Victim =>
    cases l with
    | nil =>
      refine ⟨s, ?_, a, rfl, Nat.zero_le _⟩
      simp [LRUReplacer.call, Abs_Victim_nil a, orderCall, bind, Except.bind, pure, Except.pure]
    | cons f rest =>
      obtain ⟨s1, hv, a1, hc⟩ := Abs_Victim_cons a
      refine ⟨s1, ?_, a1, hc, ?_⟩
      · simp [LRUReplacer.call, hv, orderCall, bind, Except.bind, pure, Except.pure]
      · simp only [orderCall]
        simp at hsize
        omega
  | Size =>
    refine ⟨s, ?_, a, rfl, hsize⟩
    simp [LRUReplacer.call, a.size_eq, orderCall, pure, Except.pure]

theorem run_cons_ok {fuel : Nat} {s s1 s2 : LRUReplacer} {c : Call} {cs : List Call} {e : Event}
    {es : List Event} (h1 : LRUReplacer.call fuel s c = .ok (e, s1))
    (h2 : LRUReplacer.run fuel s1 cs = .ok (es, s2)) :
    LRUReplacer.run fuel s (c :: cs) = .ok (e :: es, s2) := by
  simp [LRUReplacer.run, h1, h2, bind, Except.bind, pure, Except.pure]

theorem runFresh_ok {fuel num_pages : Nat} {s0 s1 : LRUReplacer} {cs : List Call}
    {es : List Event} (h1 : LRUReplacer.construct num_pages = .ok s0)
    (h2 : LRUReplacer.run fuel s0 cs = .ok (es, s1)) :
    LRUReplacer.runFresh fuel num_pages cs = .ok (es, s1) := by
  simp [LRUReplacer.runFresh, h1, h2, bind, Except.bind]

theorem run_bounded (fuel : Nat) (hfuel : 1 ≤ fuel) : ∀ (cs : List Call) (s : LRUReplacer)
    (l : List frame_id_t), Abs s l → l.length ≤ s.capacity_ → 1 ≤ s.capacity_ →
    ∃ evs s1, LRUReplacer.run fuel s cs = .ok (evs, s1) ∧ s1.Size ≤ s.capacity_ ∧
      s1.capacity_ = s.capacity_ ∧ ∀ n, Event.Size n ∈ evs → n ≤ s.capacity_
  | [], s, l, a, hsz, _ => ⟨[], s, rfl, by rw [a.size_eq]; exact hsz, rfl, by simp⟩
  | c :: cs, s, l, a, hsz, hcap => by
    obtain ⟨s1, hc, a1, hcap1, hsz1⟩ := call_order a hsz hcap fuel hfuel c
    obtain ⟨evs, s2, hrun, hb, hcap2, hall⟩ :=
      run_bounded fuel hfuel cs s1 _ a1 (by rw [hcap1]; exact hsz1) (by rw [hcap1]; exact hcap)
    refine ⟨_, s2, run_cons_ok hc hrun, by rw [← hcap1]; exact hb, hcap2.trans hcap1, ?_⟩
    intro n hn
    rcases List.mem_cons.1 hn with h1 | h1
    · cases c with
      | Size =>
        simp only [orderCall, Event.Size.injEq] at h1
        rw [h1]; exact hsz
      | Unpin f => simp [orderCall] at h1
      | Pin f => simp [orderCall] at h1
      | Victim => cases l <;> simp [orderCall] at h1
    · rw [← hcap1]; exact hall n h1

/-- C8: for every capacity at least 1 and every sequence `cs` of `Unpin`, `Pin`, `Victim` and
`Size` calls on a fresh replacer, the first `k` calls of `cs` run to completion and leave a
state with `Size()` at most the capacity, for every `k`: the bound holds after every call.
Every `Size()` call on the way returned at most the capacity. -/
theorem C8_size_le_capacity (num_pages : Nat) (hcap : 1 ≤ num_pages) (fuel : Nat)
    (hfuel : 1 ≤ fuel) (cs : List Call) (k : Nat) :
    ∃ evs s, LRUReplacer.runFresh fuel num_pages (cs.take k) = .ok (evs, s) ∧
      s.Size ≤ num_pages ∧ s.capacity_ = num_pages ∧
      ∀ n, Event.Size n ∈ evs → n ≤ num_pages := by
  obtain ⟨s0, h0, a0, hc0⟩ := Abs_construct num_pages
  obtain ⟨evs, s1, hrun, hb, hc1, hall⟩ :=
    run_bounded fuel hfuel (cs.take k) s0 [] a0 (Nat.zero_le _) (by rw [hc0]; exact hcap)
  rw [hc0] at hb hc1 hall
  exact ⟨evs, s1, runFresh_ok h0 hrun, hb, hc1, hall⟩

theorem C8_size_le_capacity_witness :
    1 ≤ 2 ∧ 1 ≤ 1 ∧
      ∃ evs s, LRUReplacer.runFresh 1 2
          (List.take 5 [.Unpin 1, .Unpin 2, .Size, .Unpin 3, .Size, .Victim]) = .ok (evs, s) ∧
        s.Size ≤ 2 ∧ s.capacity_ = 2 ∧ ∀ n, Event.Size n ∈ evs → n ≤ 2 :=
  ⟨by decide, by decide, C8_size_le_capacity 2 (by decide) 1 (by decide) _ 5⟩

/-! ## Histories -/

theorem Unpinned.snoc {evs : List Event} {f : frame_id_t} (h : Unpinned evs f) (e : Event)
    (hp : e ≠ Event.Pin f) (hv : ∀ r, e = Event.Victim r → r.frame_id ≠ some f) :
    Unpinned (evs ++ [e]) f := by
  obtain ⟨pre, post, rfl, h1, h2⟩ := h
  refine ⟨pre, post ++ [e], by simp, ?_, ?_⟩
  · intro hm
    rcases List.mem_append.1 hm with h3 | h3
    · exact h1 h3
    · exact hp (List.mem_singleton.1 h3).symm
  · intro r hm
    rcases List.mem_append.1 hm with h3 | h3
    · exact h2 r h3
    · exact hv r (List.mem_singleton.1 h3).symm

theorem Unpinned.fresh (evs : List Event) (f : frame_id_t) :
    Unpinned (evs ++ [Event.Unpin f]) f :=
  ⟨evs, [], rfl, by simp, by simp⟩

theorem mem_unpinOrder {cap : Nat} {l : List frame_id_t} {f g : frame_id_t}
    (h : g ∈ unpinOrder cap l f) : g = f ∨ g ∈ l := by
  unfold unpinOrder at h
  split at h
  · exact Or.inr h
  · rcases List.mem_append.1 h with h1 | h1
    · right
      split at h1
      · exact List.mem_of_mem_tail h1
      · exact h1
    · exact Or.inl (List.mem_singleton.1 h1)

/-- Every tracked frame stays unpinned in the history when a call is added to it. -/
theorem orderCall_unpinned (cap : Nat) {l : List frame_id_t} (hnd : l.Nodup) {evs : List Event}
    (hj : ∀ f ∈ l, Unpinned evs f) (c : Call) :
    ∀ f ∈ (orderCall cap l c).2, Unpinned (evs ++ [(orderCall cap l c).1]) f := by
  intro f hf
  cases c with
  | Unpin g =>
    simp only [orderCall] at hf ⊢
    by_cases hfg : f = g
    · subst hfg
      exact Unpinned.fresh evs f
    · rcases mem_unpinOrder hf with h1 | h1
      · exact absurd h1 hfg
      · exact (hj f h1).snoc _ (by simp) (by simp)
  | Pin g =>
    simp only [orderCall] at hf ⊢
    rw [hnd.mem_erase_iff] at hf
    refine (hj f hf.2).snoc _ ?_ (by simp)
    intro e
    cases e
    exact hf.1 rfl
  | Victim =>
    cases l with
    | nil => simp [orderCall] at hf
    | cons g rest =>
      simp only [orderCall] at hf ⊢
      rw [List.nodup_cons] at hnd
      refine (hj f (List.mem_cons_of_mem _ hf)).snoc _ (by simp) ?_
      intro r hr e
      cases hr
      simp only [Option.some.injEq] at e
      exact hnd.1 (e ▸ hf)
  | Size =>
    simp only [orderCall] at hf ⊢
    exact (hj f hf).snoc _ (by simp) (by simp)

theorem run_unpinned (fuel : Nat) (hfuel : 1 ≤ fuel) : ∀ (cs : List Call) (s : LRUReplacer)
    (l : List frame_id_t) (evs0 : List Event), Abs s l → l.length ≤ s.capacity_ →
    1 ≤ s.capacity_ → (∀ f ∈ l, Unpinned evs0 f) →
    ∃ evs s1, LRUReplacer.run fuel s cs = .ok (evs, s1) ∧
      ∀ b r a f, evs = b ++ Event.Victim r :: a → r.frame_id = some f → Unpinned (evs0 ++ b) f
  | [], s, l, evs0, _, _, _, _ => ⟨[], s, rfl, by simp⟩
  | c :: cs, s, l, evs0, a, hsz, hcap, hj => by
    obtain ⟨s1, hc, a1, hcap1, hsz1⟩ := call_order a hsz hcap fuel hfuel c
    obtain ⟨evs, s2, hrun, hprop⟩ :=
      run_unpinned fuel hfuel cs s1 _ (evs0 ++ [(orderCall s.capacity_ l c).1]) a1
        (by rw [hcap1]; exact hsz1) (by rw [hcap1]; exact hcap)
        (orderCall_unpinned s.capacity_ a.nodup hj c)
    refine ⟨_, s2, run_cons_ok hc hrun, ?_⟩
    intro b r a2 f hsplit hr
    cases b with
    | nil =>
      simp only [List.nil_append, List.cons.injEq] at hsplit
      rw [List.append_nil]
      apply hj
      cases c with
      | Victim =>
        cases l with
        | nil =>
          simp only [orderCall, Event.Victim.injEq] at hsplit
          rw [← hsplit.1] at hr
          cases hr
        | cons g rest =>
          simp only [orderCall, Event.Victim.injEq] at hsplit
          rw [← hsplit.1] at hr
          simp only [Option.some.injEq] at hr
          simp [hr]
      | Unpin g => simp [orderCall] at hsplit
      | Pin g => simp [orderCall] at hsplit
      | Size => simp [orderCall] at hsplit
    | cons e b =>
      simp only [List.cons_append, List.cons.injEq] at hsplit
      have := hprop b r a2 f hsplit.2 hr
      rw [hsplit.1] at this
      simpa using this

/-- C9: for every capacity at least 1, every sequence of calls on a fresh replacer runs to
completion, and whenever a `Victim` call in it returns frame `f`, the history before that
call holds an `Unpin(f)` followed by no `Pin(f)` and by no `Victim` call that returned `f`. -/
theorem C9_victim_was_unpinned (num_pages : Nat) (hcap : 1 ≤ num_pages) (fuel : Nat)
    (hfuel : 1 ≤ fuel) (cs : List Call) :
    ∃ evs s, LRUReplacer.runFresh fuel num_pages cs = .ok (evs, s) ∧
      ∀ b r a f, evs = b ++ Event.Victim r :: a → r.frame_id = some f → Unpinned b f := by
  obtain ⟨s0, h0, a0, hc0⟩ := Abs_construct num_pages
  obtain ⟨evs, s1, hrun, hprop⟩ :=
    run_unpinned fuel hfuel cs s0 [] [] a0 (Nat.zero_le _) (by rw [hc0]; exact hcap) (by simp)
  refine ⟨evs, s1, runFresh_ok h0 hrun, ?_⟩
  intro b r a f hs hr
  simpa using hprop b r a f hs hr

theorem C9_victim_was_unpinned_witness :
    1 ≤ 2 ∧ 1 ≤ 1 ∧
      ∃ evs s, LRUReplacer.runFresh 1 2 [.Unpin 1, .Unpin 2, .Pin 1, .Victim, .Victim]
          = .ok (evs, s) ∧
        ∀ b r a f, evs = b ++ Event.Victim r :: a → r.frame_id = some f → Unpinned b f :=
  ⟨by decide, by decide, C9_victim_was_unpinned 2 (by decide) 1 (by decide) _⟩

/-! ## Runs of `Unpin` calls -/

theorem firstOccurrences_mem (us : List frame_id_t) (f : frame_id_t) :
    f ∈ firstOccurrences us ↔ f ∈ us := by
  induction us with
  | nil => simp [firstOccurrences]
  | cons g us ih =>
    simp only [firstOccurrences, List.mem_cons, List.mem_filter, ih, decide_eq_true_eq]
    constructor
    · rintro (h | ⟨h, -⟩)
      · exact Or.inl h
      · exact Or.inr h
    · intro h
      by_cases hfg : f = g
      · exact Or.inl hfg
      · rcases h with h | h
        · exact absurd h hfg
        · exact Or.inr ⟨h, hfg⟩

theorem firstOccurrences_nodup (us : List frame_id_t) : (firstOccurrences us).Nodup := by
  induction us with
  | nil => simp [firstOccurrences]
  | cons g us ih =>
    simp only [firstOccurrences, List.nodup_cons, List.mem_filter, decide_eq_true_eq]
    exact ⟨fun h => h.2 rfl, ih.filter _⟩

theorem firstOccurrences_length (us : List frame_id_t) :
    (firstOccurrences us).length = us.toFinset.card := by
  rw [← List.toFinset_card_of_nodup (firstOccurrences_nodup us)]
  congr 1
  ext f
  simp [firstOccurrences_mem]

theorem run_unpins (fuel : Nat) : ∀ (us : List frame_id_t) (s : LRUReplacer)
    (l0 : List frame_id_t), Abs s l0 →
    (l0 ++ (firstOccurrences us).filter (fun g => decide (g ∉ l0))).length ≤ s.capacity_ →
    ∃ s1, LRUReplacer.run fuel s (us.map Call.Unpin) = .ok (us.map Event.Unpin, s1) ∧
      Abs s1 (l0 ++ (firstOccurrences us).filter (fun g => decide (g ∉ l0))) ∧
      s1.capacity_ = s.capacity_
  | [], s, l0, a, _ => ⟨s, rfl, by simpa [firstOccurrences] using a, rfl⟩
  | f :: us, s, l0, a, hlen => by
    have hsz : l0.length ≤ s.capacity_ := by
      rw [List.length_append] at hlen
      omega
    by_cases hm : f ∈ l0
    · have hfilt : (firstOccurrences (f :: us)).filter (fun g => decide (g ∉ l0)) =
          (firstOccurrences us).filter (fun g => decide (g ∉ l0)) := by
        simp only [firstOccurrences, List.filter_cons, hm, not_true_eq_false, decide_False,
          Bool.false_eq_true, if_false, List.filter_filter]
        apply List.filter_congr
        intro g _
        by_cases hg : g ∈ l0
        · simp [hg]
        · have : g ≠ f := fun e => hg (e ▸ hm)
          simp [hg, this]
      rw [hfilt] at hlen ⊢
      obtain ⟨s1, hu, a1, hc1, -⟩ := Abs_Unpin a hsz fuel f (Or.inl hm)
      have hu1 : unpinOrder s.capacity_ l0 f = l0 := by
        unfold unpinOrder
        rw [if_pos hm]
      rw [hu1] at a1
      obtain ⟨s2, hrun, a2, hc2⟩ := run_unpins fuel us s1 l0 a1 (by rw [hc1]; exact hlen)
      refine ⟨s2, ?_, a2, hc2.trans hc1⟩
      rw [List.map_cons, List.map_cons]
      refine run_cons_ok ?_ hrun
      simp [LRUReplacer.call, hu, bind, Except.bind, pure, Except.pure]
    · have hfilt : l0 ++ (firstOccurrences (f :: us)).filter (fun g => decide (g ∉ l0)) =
          (l0 ++ [f]) ++ (firstOccurrences us).filter (fun g => decide (g ∉ l0 ++ [f])) := by
        simp only [firstOccurrences, List.filter_cons, hm, not_false_eq_true, decide_True,
          if_true, List.filter_filter, List.append_assoc, List.singleton_append]
        congr 2
        apply List.filter_congr
        intro g _
        by_cases hg : g ∈ l0 <;> by_cases hgf : g = f <;> simp [hg, hgf]
      rw [hfilt] at hlen ⊢
      have hroom : l0.length < s.capacity_ := by
        simp only [List.length_append, List.length_singleton] at hlen
        omega
      obtain ⟨s1, hu, a1, hc1, -⟩ := Abs_Unpin a hsz fuel f (Or.inr (Or.inl hroom))
      have hu1 : unpinOrder s.capacity_ l0 f = l0 ++ [f] := by
        unfold unpinOrder
        rw [if_neg hm, if_neg (by omega)]
      rw [hu1] at a1
      obtain ⟨s2, hrun, a2, hc2⟩ :=
        run_unpins fuel us s1 (l0 ++ [f]) a1 (by rw [hc1]; exact hlen)
      refine ⟨s2, ?_, a2, hc2.trans hc1⟩
      rw [List.map_cons, List.map_cons]
      refine run_cons_ok ?_ hrun
      simp [LRUReplacer.call, hu, bind, Except.bind, pure, Except.pure]

/-- C3: on a fresh replacer, a sequence of `Unpin` calls with at most `num_pages` distinct
frame ids runs to completion (with any fuel: the loop of `Unpin` is never entered); after it
the eviction order is the list of the distinct frames at their first occurrence, the next
`Victim` calls return exactly these frames in that order, each once, and the `Victim` call
after them returns false and stores nothing. -/
theorem C3_victims_in_unpin_order (num_pages : Nat) (fuel : Nat) (us : List frame_id_t)
    (hdistinct : us.toFinset.card ≤ num_pages) :
    ∃ s s1, LRUReplacer.runFresh fuel num_pages (us.map Call.Unpin)
        = .ok (us.map Event.Unpin, s) ∧
      s.evictionOrder = firstOccurrences us ∧
      LRUReplacer.victims (us.toFinset.card + 1) s =
        .ok ((firstOccurrences us).map
          (fun f => ({ ret := true, frame_id := some f } : VictimResult)) ++
            [{ ret := false, frame_id := none }], s1) := by
  obtain ⟨s0, h0, a0, hc0⟩ := Abs_construct num_pages
  have hlen : ([] ++ (firstOccurrences us).filter (fun g => decide (g ∉ []))).length
      ≤ s0.capacity_ := by
    simp [firstOccurrences_length, hc0, hdistinct]
  obtain ⟨s, hrun, a, -⟩ := run_unpins fuel us s0 [] a0 hlen
  have hl : [] ++ (firstOccurrences us).filter (fun g => decide (g ∉ [])) =
      firstOccurrences us := by simp
  rw [hl] at a
  obtain ⟨s1, hv, a1, -⟩ := victims_front (firstOccurrences us) [] s (by simpa using a)
  refine ⟨s, s1, runFresh_ok h0 hrun, a.order_eq, ?_⟩
  rw [← firstOccurrences_length]
  have hstep : ∀ (n : Nat) (t t1 : LRUReplacer) (rs : List VictimResult),
      LRUReplacer.victims n t = .ok (rs, t1) → Abs t1 [] →
      LRUReplacer.victims (n + 1) t = .ok (rs ++ [{ ret := false, frame_id := none }], t1) := by
    intro n
    induction n with
    | zero =>
      intro t t1 rs h ha
      simp only [LRUReplacer.victims, pure, Except.pure, Except.ok.injEq, Prod.mk.injEq] at h
      obtain ⟨rfl, rfl⟩ := h
      simp [LRUReplacer.victims, Abs_Victim_nil ha, bind, Except.bind, pure, Except.pure]
    | succ n ih =>
      intro t t1 rs h ha
      rw [LRUReplacer.victims] at h ⊢
      cases hv1 : LRUReplacer.Victim t with
      | error e => simp [hv1, bind, Except.bind] at h
      | ok p =>
        obtain ⟨r, t2⟩ := p
        cases hv2 : LRUReplacer.victims n t2 with
        | error e => simp [hv1, hv2, bind, Except.bind] at h
        | ok q =>
          obtain ⟨rs2, t3⟩ := q
          simp only [hv1, hv2, bind, Except.bind, pure, Except.pure, Except.ok.injEq,
            Prod.mk.injEq] at h
          obtain ⟨rfl, rfl⟩ := h
          simp [ih t2 t3 rs2 hv2 ha, bind, Except.bind, pure, Except.pure]
  exact hstep _ s s1 _ hv a1

theorem C3_victims_in_unpin_order_witness :
    [1, 2, 1, 3].toFinset.card ≤ 3 ∧
      ∃ s s1, LRUReplacer.runFresh 0 3 ([1, 2, 1, 3].map Call.Unpin)
          = .ok ([1, 2, 1, 3].map Event.Unpin, s) ∧
        s.evictionOrder = firstOccurrences [1, 2, 1, 3] ∧
        LRUReplacer.victims ([1, 2, 1, 3].toFinset.card + 1) s =
          .ok ((firstOccurrences [1, 2, 1, 3]).map
            (fun f => ({ ret := true, frame_id := some f } : VictimResult)) ++
              [{ ret := false, frame_id := none }], s1) :=
  ⟨by decide, C3_victims_in_unpin_order 3 0 [1, 2, 1, 3] (by decide)⟩

/-! ## Membership along a run -/

theorem Abs.keys_perm {s : LRUReplacer} {l : List frame_id_t} (a : Abs s l) :
    (s.page_table_.map Prod.fst).Perm l := by
  obtain ⟨h, t, as, r, rfl⟩ := a
  exact r.keys.trans (List.reverse_perm _).symm

theorem run_append_ok {fuel : Nat} {s s1 s2 : LRUReplacer} {cs1 cs2 : List Call}
    {es1 es2 : List Event} (h1 : LRUReplacer.run fuel s cs1 = .ok (es1, s1))
    (h2 : LRUReplacer.run fuel s1 cs2 = .ok (es2, s2)) :
    LRUReplacer.run fuel s (cs1 ++ cs2) = .ok (es1 ++ es2, s2) := by
  induction cs1 generalizing s es1 with
  | nil =>
    simp only [LRUReplacer.run, pure, Except.pure, Except.ok.injEq, Prod.mk.injEq] at h1
    obtain ⟨rfl, rfl⟩ := h1
    simpa using h2
  | cons c cs ih =>
    rw [LRUReplacer.run] at h1
    cases hc : LRUReplacer.call fuel s c with
    | error e => simp [hc, bind, Except.bind] at h1
    | ok p =>
      obtain ⟨e, s3⟩ := p
      cases hr : LRUReplacer.run fuel s3 cs with
      | error e => simp [hc, hr, bind, Except.bind] at h1
      | ok q =>
        obtain ⟨es, s4⟩ := q
        simp only [hc, hr, bind, Except.bind, pure, Except.pure, Except.ok.injEq,
          Prod.mk.injEq] at h1
        obtain ⟨rfl, rfl⟩ := h1
        exact run_cons_ok hc (ih hr)

theorem run_abs (fuel : Nat) (hfuel : 1 ≤ fuel) : ∀ (cs : List Call) (s : LRUReplacer)
    (l : List frame_id_t), Abs s l → l.length ≤ s.capacity_ → 1 ≤ s.capacity_ →
    ∃ evs s1 l1, LRUReplacer.run fuel s cs = .ok (evs, s1) ∧ Abs s1 l1 ∧
      l1.length ≤ s1.capacity_ ∧ s1.capacity_ = s.capacity_
  | [], s, l, a, hsz, _ => ⟨[], s, l, rfl, a, hsz, rfl⟩
  | c :: cs, s, l, a, hsz, hcap => by
    obtain ⟨s1, hc, a1, hcap1, hsz1⟩ := call_order a hsz hcap fuel hfuel c
    obtain ⟨evs, s2, l2, hrun, a2, hsz2, hcap2⟩ :=
      run_abs fuel hfuel cs s1 _ a1 (by rw [hcap1]; exact hsz1) (by rw [hcap1]; exact hcap)
    exact ⟨_, s2, l2, run_cons_ok hc hrun, a2, hsz2, hcap2.trans hcap1⟩

theorem mem_unpinOrder_self (cap : Nat) (l : List frame_id_t) (f : frame_id_t) :
    f ∈ unpinOrder cap l f := by
  unfold unpinOrder
  split
  · assumption
  · simp

/-- A tracked frame stays tracked along a run in which no call drops it. -/
theorem run_keeps (fuel : Nat) (hfuel : 1 ≤ fuel) (f : frame_id_t) : ∀ (post : List Call)
    (s : LRUReplacer) (l : List frame_id_t), Abs s l → l.length ≤ s.capacity_ →
    1 ≤ s.capacity_ → f ∈ l → Call.Pin f ∉ post →
    (∀ p1 c p2, post = p1 ++ c :: p2 → ∀ evs s1, LRUReplacer.run fuel s p1 = .ok (evs, s1) →
      (c = Call.Victim → ∀ r s2, LRUReplacer.Victim s1 = .ok (r, s2) → r.frame_id ≠ some f) ∧
      (∀ g, c = Call.Unpin g → s1.tracked g = false → s1.Size = s1.capacity_ →
        s1.evictionOrder.head? ≠ some f)) →
    ∃ evs s1 l1, LRUReplacer.run fuel s post = .ok (evs, s1) ∧ Abs s1 l1 ∧ f ∈ l1
  | [], s, l, a, _, _, hm, _, _ => ⟨[], s, l, rfl, a, hm⟩
  | c :: cs, s, l, a, hsz, hcap, hm, hpin, hkeep => by
    obtain ⟨s1, hc, a1, hcap1, hsz1⟩ := call_order a hsz hcap fuel hfuel c
    have hnow := hkeep [] c cs rfl [] s rfl
    have hm1 : f ∈ (orderCall s.capacity_ l c).2 := by
      cases c with
      | Unpin g =>
        simp only [orderCall]
        unfold unpinOrder
        split
        · exact hm
        · rename_i hg
          split
          · rename_i hfull
            have hne := hnow.2 g rfl ((a.untracked_iff g).2 hg) (by rw [a.size_eq]; exact hfull)
            rw [a.order_eq] at hne
            cases l with
            | nil => simp at hm
            | cons x rest =>
              simp only [List.head?_cons, ne_eq, Option.some.injEq] at hne
              rcases List.mem_cons.1 hm with h1 | h1
              · exact absurd h1.symm hne
              · simp [h1]
          · exact List.mem_append_left _ hm
      | Pin g =>
        simp only [orderCall]
        have hgf : f ≠ g := by
          intro e
          apply hpin
          simp [e]
        exact (List.mem_erase_of_ne hgf).2 hm
      | Victim =>
        cases l with
        | nil => simp at hm
        | cons x rest =>
          simp only [orderCall]
          obtain ⟨s2, hv, -, -⟩ := Abs_Victim_cons a
          have hne := hnow.1 rfl _ _ hv
          simp only [ne_eq, Option.some.injEq] at hne
          rcases List.mem_cons.1 hm with h1 | h1
          · exact absurd h1.symm hne
          · exact h1
      | Size => exact hm
    obtain ⟨evs, s2, l2, hrun, a2, hm2⟩ :=
      run_keeps fuel hfuel f cs s1 _ a1 (by rw [hcap1]; exact hsz1) (by rw [hcap1]; exact hcap)
        hm1 (fun h => hpin (List.mem_cons_of_mem _ h))
        (fun p1 c1 p2 hsplit evs1 s3 hr =>
          hkeep (c :: p1) c1 p2 (by rw [hsplit]; rfl) _ s3 (run_cons_ok hc hr))
    exact ⟨_, s2, l2, run_cons_ok hc hrun, a2, hm2⟩

theorem call_Unpin_ok {fuel : Nat} {s s1 : LRUReplacer} {f : frame_id_t}
    (h : LRUReplacer.Unpin fuel s f = .ok s1) :
    LRUReplacer.call fuel s (Call.Unpin f) = .ok (Event.Unpin f, s1) := by
  simp [LRUReplacer.call, h, bind, Except.bind, pure, Except.pure]

/-- C11, as the code contradicts it: with capacity 1, after `Unpin(1)` and `Unpin(2)` frame 1
has been unpinned, never pinned and never returned by `Victim`, and it is not tracked. -/
theorem C11_membership_counterexample :
    LRUReplacer.runFresh 1 1 [.Unpin 1, .Unpin 2] = .ok ([.Unpin 1, .Unpin 2], evicted1) ∧
      evicted1.tracked 1 = false ∧ evicted1.evictionOrder = [2] ∧ evicted1.Size = 1 :=
  ⟨runFresh_ok (rfl : LRUReplacer.construct 1 = .ok fresh1)
      (run_cons_ok (call_Unpin_ok (rfl : LRUReplacer.Unpin 1 fresh1 1 = .ok one1))
        (run_cons_ok (call_Unpin_ok (rfl : LRUReplacer.Unpin 1 one1 2 = .ok evicted1)) rfl)),
    by decide, by decide, by decide⟩

/-- C11, amended: on a fresh replacer of capacity at least 1, if `Unpin(f)` is called and no
later call is a `Pin(f)`, a `Victim` that returns `f`, or an `Unpin` of an untracked frame
made at `Size() == capacity` with `f` the least recently unpinned frame (the one its loop
drops), then the run completes and `f` is tracked exactly once: it has one entry in the page
table and one node in the list. -/
theorem C11_membership_unless_evicted (num_pages : Nat) (hcap : 1 ≤ num_pages) (fuel : Nat)
    (hfuel : 1 ≤ fuel) (pre post : List Call) (f : frame_id_t) (hpin : Call.Pin f ∉ post)
    (hkeep : ∀ p1 c p2, post = p1 ++ c :: p2 → ∀ evs s,
      LRUReplacer.runFresh fuel num_pages (pre ++ Call.Unpin f :: p1) = .ok (evs, s) →
      (c = Call.Victim → ∀ r s1, LRUReplacer.Victim s = .ok (r, s1) → r.frame_id ≠ some f) ∧
      (∀ g, c = Call.Unpin g → s.tracked g = false → s.Size = s.capacity_ →
        s.evictionOrder.head? ≠ some f)) :
    ∃ evs s, LRUReplacer.runFresh fuel num_pages (pre ++ Call.Unpin f :: post) = .ok (evs, s) ∧
      s.tracked f = true ∧ s.evictionOrder.count f = 1 ∧
      (s.page_table_.map Prod.fst).count f = 1 := by
  obtain ⟨s0, h0, a0, hc0⟩ := Abs_construct num_pages
  obtain ⟨e1, s1, l1, hr1, a1, hsz1, hc1⟩ :=
    run_abs fuel hfuel pre s0 [] a0 (Nat.zero_le _) (by rw [hc0]; exact hcap)
  have hcap1 : 1 ≤ s1.capacity_ := by rw [hc1, hc0]; exact hcap
  obtain ⟨s2, hcall, a2, hc2, hsz2⟩ := call_order a1 hsz1 hcap1 fuel hfuel (Call.Unpin f)
  simp only [orderCall] at hcall a2 hsz2
  have hr2 : LRUReplacer.run fuel s0 (pre ++ [Call.Unpin f]) = .ok (e1 ++ [Event.Unpin f], s2) :=
    run_append_ok hr1 (run_cons_ok hcall rfl)
  obtain ⟨e3, s3, l3, hr3, a3, hm3⟩ :=
    run_keeps fuel hfuel f post s2 _ a2 (by rw [hc2]; exact hsz2) (by rw [hc2]; exact hcap1)
      (mem_unpinOrder_self _ _ _) hpin
      (fun p1 c p2 hsplit evs s hr => hkeep p1 c p2 hsplit _ s (by
        have := run_append_ok hr2 hr
        rw [List.append_assoc, List.singleton_append] at this
        exact runFresh_ok h0 this))
  have hfin := run_append_ok hr2 hr3
  rw [List.append_assoc, List.singleton_append] at hfin
  refine ⟨_, s3, runFresh_ok h0 hfin, (a3.tracked_mem f).2 hm3, ?_, ?_⟩
  · rw [a3.order_eq]
    exact List.count_eq_one_of_mem a3.nodup hm3
  · rw [a3.keys_perm.count_eq]
    exact List.count_eq_one_of_mem a3.nodup hm3

theorem keep_example : ∀ p1 c p2, [Call.Unpin 2, Call.Unpin 1] = p1 ++ c :: p2 → ∀ evs s,
    LRUReplacer.runFresh 1 2 ([] ++ Call.Unpin 1 :: p1) = .ok (evs, s) →
    (c = Call.Victim → ∀ r s1, LRUReplacer.Victim s = .ok (r, s1) → r.frame_id ≠ some 1) ∧
    (∀ g, c = Call.Unpin g → s.tracked g = false → s.Size = s.capacity_ →
      s.evictionOrder.head? ≠ some 1) := by
  intro p1 c p2 hsplit evs s hr
  have h1 : LRUReplacer.runFresh 1 2 [Call.Unpin 1] = .ok ([Event.Unpin 1], one2) := rfl
  have h2 : LRUReplacer.runFresh 1 2 [Call.Unpin 1, Call.Unpin 2] =
      .ok ([Event.Unpin 1, Event.Unpin 2], full2) := rfl
  rcases p1 with _ | ⟨x, _ | ⟨y, _ | ⟨z, p1⟩⟩⟩
  · simp only [List.nil_append, List.cons.injEq] at hsplit
    obtain ⟨rfl, -⟩ := hsplit
    have hr1 : LRUReplacer.runFresh 1 2 [Call.Unpin 1] = .ok (evs, s) := hr
    rw [h1] at hr1
    simp only [Except.ok.injEq, Prod.mk.injEq] at hr1
    obtain ⟨-, rfl⟩ := hr1
    refine ⟨fun h => (by cases h), fun g _ _ hs => absurd hs (by decide)⟩
  · simp only [List.cons_append, List.nil_append, List.cons.injEq] at hsplit
    obtain ⟨rfl, rfl, -⟩ := hsplit
    have hr1 : LRUReplacer.runFresh 1 2 [Call.Unpin 1, Call.Unpin 2] = .ok (evs, s) := hr
    rw [h2] at hr1
    simp only [Except.ok.injEq, Prod.mk.injEq] at hr1
    obtain ⟨-, rfl⟩ := hr1
    refine ⟨fun h => (by cases h), fun g hg ht _ => ?_⟩
    cases hg
    exact absurd ht (by decide)
  · simp at hsplit
  · simp at hsplit

theorem C11_membership_unless_evicted_witness :
    1 ≤ 2 ∧ 1 ≤ 1 ∧ Call.Pin 1 ∉ [Call.Unpin 2, Call.Unpin 1] ∧
      ∃ evs s, LRUReplacer.runFresh 1 2 ([] ++ Call.Unpin 1 :: [Call.Unpin 2, Call.Unpin 1])
          = .ok (evs, s) ∧
        s.tracked 1 = true ∧ s.evictionOrder.count 1 = 1 ∧
        (s.page_table_.map Prod.fst).count 1 = 1 :=
  ⟨by decide, by decide, by decide,
    C11_membership_unless_evicted 2 (by decide) 1 (by decide) [] [Call.Unpin 2, Call.Unpin 1] 1
      (by decide) keep_example⟩

/-! ## The list between the sentinels -/

theorem walkRight_chain (H : Heap) (t : Nat) : ∀ (as : List Nat) (x : Nat) (fuel : Nat),
    List.Chain' (Link H) (x :: as ++ [t]) → t ∉ as → as.length < fuel →
    ∀ nx, H[x]? = some nx → walkRight H (some t) fuel nx.right_ = as := by
  intro as
  induction as with
  | nil =>
    intro x fuel hc _ hf nx hx
    obtain ⟨fuel, rfl⟩ : ∃ k, fuel = k + 1 := ⟨fuel - 1, by simp at hf; omega⟩
    simp only [List.cons_append, List.nil_append, List.chain'_cons] at hc
    obtain ⟨nx1, hx1, hr⟩ := rightOf_some hc.1.1
    rw [hx] at hx1
    cases hx1
    simp [walkRight, hr]
  | cons a as ih =>
    intro x fuel hc ht hf nx hx
    obtain ⟨fuel, rfl⟩ : ∃ k, fuel = k + 1 := ⟨fuel - 1, by simp at hf; omega⟩
    have hc1 : List.Chain' (Link H) (x :: a :: (as ++ [t])) := by simpa using hc
    rw [List.chain'_cons] at hc1
    obtain ⟨nx1, hx1, hr⟩ := rightOf_some hc1.1.1
    rw [hx] at hx1
    cases hx1
    obtain ⟨na, hna, -⟩ := leftOf_some hc1.1.2
    have hne : a ≠ t := fun e => ht (by simp [e])
    have hrec := ih a fuel (by simpa using hc1.2) (fun hm => ht (by simp [hm]))
      (by simp at hf; omega) na hna
    simp [walkRight, hr, hne, load_some hna, hrec]

theorem Rep.listNodes {s : LRUReplacer} {h t : Nat} {as : List Nat} (r : Rep s h t as) :
    s.listNodes = as := by
  have hlen := length_le_of_nodup_bound r.nodup r.bound
  have hc := r.chain
  have hnd := r.nodup
  have hht : ∃ nh, s.heap[h]? = some nh := by
    have hb := r.bound h (by simp)
    exact ⟨s.heap[h], List.getElem?_eq_getElem hb⟩
  obtain ⟨nh, hnh⟩ := hht
  have htn : t ∉ as := by
    intro hm
    have : (h :: as ++ [t]) = h :: (as ++ [t]) := rfl
    rw [this, List.nodup_cons, List.nodup_append] at hnd
    exact hnd.2.2.2 hm (by simp)
  unfold LRUReplacer.listNodes
  rw [r.head_eq, load_some hnh, r.tail_eq]
  exact walkRight_chain s.heap t as h s.heap.length hc htn (by simp at hlen; omega) nh hnh

/-- C13: in every reachable state, (a) the nodes between the sentinels are different nodes
with different frame ids, (b) the page table has one entry per key, and it maps `f` to `p`
exactly when `p` is a node of the list that carries the frame id `f`, (c) `Size()` is the
number of nodes between the sentinels; and reading the list from the tail sentinel gives the
same nodes in the opposite order. -/
theorem C13_list_and_table_agree (s : LRUReplacer) (hr : Reachable s) :
    s.listNodes.Nodup ∧ (s.listNodes.map (frameAt s.heap)).Nodup ∧
      (s.page_table_.map Prod.fst).Nodup ∧
      (∀ f p, PageTable.find s.page_table_ f = some p ↔
        ∃ a n, a ∈ s.listNodes ∧ p = some a ∧ Heap.load s.heap p = .ok n ∧ n.frame_id_ = f) ∧
      s.Size = s.listNodes.length ∧
      s.evictionOrder = (s.listNodes.map (frameAt s.heap)).reverse := by
  obtain ⟨l, ⟨h, t, as, r, rfl⟩, -⟩ := hr.inv
  rw [r.listNodes]
  have hnd := r.nodup
  have hnas : as.Nodup := by
    have : (h :: as ++ [t]) = h :: (as ++ [t]) := rfl
    rw [this, List.nodup_cons, List.nodup_append] at hnd
    exact hnd.2.1
  have hkeys := r.keys.nodup_iff.2 r.frames_nodup
  refine ⟨hnas, r.frames_nodup, hkeys, ?_, r.size, r.evictionOrder⟩
  intro f p
  rw [find_eq_some_iff _ hkeys, r.table.mem_iff, List.mem_map]
  constructor
  · rintro ⟨a, ha, he⟩
    simp only [Prod.mk.injEq] at he
    obtain ⟨rfl, rfl⟩ := he
    have hb := r.bound a (by simp [ha])
    have hget : s.heap[a]? = some s.heap[a] := List.getElem?_eq_getElem hb
    exact ⟨a, s.heap[a], ha, rfl, load_some hget, (frameAt_of_getElem? hget).symm⟩
  · rintro ⟨a, n, ha, rfl, hl, rfl⟩
    refine ⟨a, ha, ?_⟩
    have hb := r.bound a (by simp [ha])
    have hget : s.heap[a]? = some s.heap[a] := List.getElem?_eq_getElem hb
    rw [load_some hget] at hl
    cases hl
    rw [frameAt_of_getElem? hget]

theorem C13_list_and_table_agree_witness :
    Reachable full2 ∧
      (full2.listNodes.Nodup ∧ (full2.listNodes.map (frameAt full2.heap)).Nodup ∧
        (full2.page_table_.map Prod.fst).Nodup ∧
        (∀ f p, PageTable.find full2.page_table_ f = some p ↔
          ∃ a n, a ∈ full2.listNodes ∧ p = some a ∧ Heap.load full2.heap p = .ok n ∧
            n.frame_id_ = f) ∧
        full2.Size = full2.listNodes.length ∧
        full2.evictionOrder = (full2.listNodes.map (frameAt full2.heap)).reverse) :=
  ⟨full2_reachable, C13_list_and_table_agree full2 full2_reachable⟩

/-! ## Calls on untracked frames -/

/-- C12, as the code contradicts it: on the fresh replacer of capacity 2 frame 1 is not
tracked, and `Unpin(1)` changes `Size()` from 0 to 1 and the eviction order from empty to
`[1]`. -/
theorem C12_unpin_untracked_counterexample :
    LRUReplacer.construct 2 = .ok fresh2 ∧ fresh2.tracked 1 = false ∧
      LRUReplacer.Unpin 1 fresh2 1 = .ok one2 ∧ fresh2.Size = 0 ∧ one2.Size = 1 ∧
      fresh2.evictionOrder = [] ∧ one2.evictionOrder = [1] :=
  ⟨rfl, by decide, rfl, by decide, by decide, by decide, by decide⟩

/-- C12, amended: on a reachable state of capacity at least 1, `Unpin(f)` of an untracked
frame `f` is not an error, it completes, and it is not a no-op: `f` becomes tracked as the
most recently unpinned frame, and `Size()` grows by one, or stays equal to the capacity when
it was (the least recently unpinned frame is dropped). `Unpin(f)` is a no-op only when `f`
is tracked already. -/
theorem C12_unpin_untracked_inserts (s : LRUReplacer) (hr : Reachable s)
    (hcap : 1 ≤ s.capacity_) (fuel : Nat) (hfuel : 1 ≤ fuel) (f : frame_id_t) :
    ∃ s1, LRUReplacer.Unpin fuel s f = .ok s1 ∧
      (s.tracked f = false → s1.tracked f = true ∧ s1 ≠ s ∧
        s1.Size = (if s.Size = s.capacity_ then s.capacity_ else s.Size + 1) ∧
        s1.evictionOrder =
          (if s.Size = s.capacity_ then s.evictionOrder.tail else s.evictionOrder) ++ [f]) ∧
      (s.tracked f = true → s1 = s) := by
  obtain ⟨l, a, hsz⟩ := hr.inv
  obtain ⟨s1, hu, a1, -, hsame⟩ := Abs_Unpin a hsz fuel f (Or.inr (Or.inr ⟨hcap, hfuel⟩))
  refine ⟨s1, hu, ?_, fun ht => hsame ((a.tracked_mem f).1 ht)⟩
  intro hf
  have hm : f ∉ l := (a.untracked_iff f).1 hf
  have ht1 : s1.tracked f = true := (a1.tracked_mem f).2 (mem_unpinOrder_self _ _ _)
  have hu1 : unpinOrder s.capacity_ l f =
      (if l.length = s.capacity_ then l.tail else l) ++ [f] := by
    unfold unpinOrder
    rw [if_neg hm]
  rw [hu1] at a1
  refine ⟨ht1, ?_, ?_, ?_⟩
  · intro e
    rw [e, hf] at ht1
    cases ht1
  · rw [a1.size_eq, a.size_eq]
    split
    · rename_i hfull
      cases l with
      | nil => simp at hfull; omega
      | cons x rest => simp at hfull ⊢; exact hfull
    · simp
  · rw [a1.order_eq, a.order_eq, a.size_eq]

theorem C12_unpin_untracked_inserts_witness :
    Reachable full2 ∧ 1 ≤ full2.capacity_ ∧ 1 ≤ 1 ∧
      ∃ s1, LRUReplacer.Unpin 1 full2 3 = .ok s1 ∧
        (full2.tracked 3 = false → s1.tracked 3 = true ∧ s1 ≠ full2 ∧
          s1.Size = (if full2.Size = full2.capacity_ then full2.capacity_
            else full2.Size + 1) ∧
          s1.evictionOrder =
            (if full2.Size = full2.capacity_ then full2.evictionOrder.tail
              else full2.evictionOrder) ++ [3]) ∧
        (full2.tracked 3 = true → s1 = full2) :=
  ⟨full2_reachable, by decide, by decide,
    C12_unpin_untracked_inserts full2 full2_reachable (by decide) 1 (by decide) 3⟩

/-- C14: the example scenario on a fresh `LRUReplacer(3)`: the calls return `Size()` 3 after
the three `Unpin`s, 2 after `Pin(2)`, `Victim()` returns 1 and `Size()` is 1, `Size()` is 2
after `Unpin(4)`, then `Victim()` returns 3, then 4, then false; and after `Unpin(4)` the
tracked frames are exactly 3 and 4, in this eviction order. -/
theorem C14_example_scenario :
    (LRUReplacer.runFresh 1 3
        [.Unpin 1, .Unpin 2, .Unpin 3, .Size, .Pin 2, .Size, .Victim, .Size, .Unpin 4, .Size,
          .Victim, .Victim, .Victim]).toOption.map Prod.fst
      = some [.Unpin 1, .Unpin 2, .Unpin 3, .Size 3, .Pin 2, .Size 2,
          .Victim { ret := true, frame_id := some 1 }, .Size 1, .Unpin 4, .Size 2,
          .Victim { ret := true, frame_id := some 3 },
          .Victim { ret := true, frame_id := some 4 },
          .Victim { ret := false, frame_id := none }] ∧
    (LRUReplacer.runFresh 1 3
        [.Unpin 1, .Unpin 2, .Unpin 3, .Size, .Pin 2, .Size, .Victim, .Size,
          .Unpin 4]).toOption.map
        (fun x => (x.2.Size, x.2.evictionOrder, x.2.page_table_.map Prod.fst))
      = some (2, [3, 4], [3, 4]) := by
  constructor <;> decide

/-! ## Termination of `Unpin` -/

/-- With capacity 0 no `Unpin` completes, so a reachable state is the constructed one. -/
theorem reachable_capacity_zero {s : LRUReplacer} (hr : Reachable s) (hcap : s.capacity_ = 0) :
    s = fresh0 := by
  induction hr with
  | construct n s hs =>
    obtain ⟨s0, hs0, -, hc⟩ := Abs_construct n
    rw [hs0] at hs
    cases hs
    rw [hcap] at hc
    subst hc
    have : LRUReplacer.construct 0 = .ok fresh0 := rfl
    rw [this] at hs0
    cases hs0
    rfl
  | Unpin fuel s s1 f hprev hu ih =>
    exfalso
    obtain ⟨l, a, hsz⟩ := hprev.inv
    obtain ⟨-, hc, -⟩ := Abs_Unpin_ok a hsz fuel f hu
    have h0 : s.capacity_ = 0 := by rw [← hc]; exact hcap
    have hl0 : l = [] := List.eq_nil_of_length_eq_zero (by omega)
    subst hl0
    obtain ⟨h, t, as, r, hl⟩ := a
    have has : as = [] := by simpa using hl.symm
    subst has
    rw [Unpin_stuck r h0 fuel f] at hu
    cases hu
  | Pin s s1 f hprev hp ih =>
    obtain ⟨l, a, hsz⟩ := hprev.inv
    obtain ⟨s2, hp2, -, hc, hsame⟩ := Abs_Pin a f
    rw [hp2] at hp
    cases hp
    have h0 : s.capacity_ = 0 := by rw [← hc]; exact hcap
    have hl : l = [] := List.eq_nil_of_length_eq_zero (by omega)
    rw [hsame (by simp [hl])]
    exact ih h0
  | Victim s s1 r hprev hv ih =>
    obtain ⟨l, a, hsz⟩ := hprev.inv
    cases l with
    | nil =>
      rw [Abs_Victim_nil a] at hv
      cases hv
      exact ih hcap
    | cons x rest =>
      exfalso
      obtain ⟨s2, hv2, -, hc⟩ := Abs_Victim_cons a
      rw [hv2] at hv
      cases hv
      simp at hsz
      omega

/-- C19: on a reachable state of capacity at least 1, `Unpin(f)` completes with every fuel
from 1 on, so its loop runs at most once; and whenever the loop condition holds, the node
`tail_->left_` is not the head sentinel, `remove` of its frame id returns true, and after
this one iteration the condition is false. With capacity 0 the reachable state is the
constructed one, `tail_->left_` is the head sentinel, `remove` of its id -1 returns false and
leaves the state as it is, and `Unpin(f)` runs out of every fuel: it does not terminate. -/
theorem C19_unpin_terminates_iff_capacity (s : LRUReplacer) (hr : Reachable s)
    (f : frame_id_t) :
    (1 ≤ s.capacity_ →
      (∀ fuel, 1 ≤ fuel → ∃ s1, LRUReplacer.Unpin fuel s f = .ok s1) ∧
      (s.page_table_.length ≥ s.capacity_ →
        ∃ nt pn s1, Heap.load s.heap s.tail_ = .ok nt ∧ nt.left_ ≠ s.head_ ∧
          Heap.load s.heap nt.left_ = .ok pn ∧
          LRUReplacer.remove s pn.frame_id_ = .ok (true, s1) ∧
          ¬ (s1.page_table_.length ≥ s1.capacity_) ∧
          ∀ fuel, LRUReplacer.evictLoop (fuel + 1) s = .ok s1)) ∧
    (s.capacity_ = 0 →
      (∀ fuel, LRUReplacer.Unpin fuel s f = .error .outOfFuel) ∧
      (∀ fuel, LRUReplacer.evictLoop fuel s = .error .outOfFuel) ∧
      ∃ nt nh, Heap.load s.heap s.tail_ = .ok nt ∧ nt.left_ = s.head_ ∧
        Heap.load s.heap nt.left_ = .ok nh ∧ nh.frame_id_ = -1 ∧
        s.page_table_ = [] ∧ LRUReplacer.remove s nh.frame_id_ = .ok (false, s)) := by
  obtain ⟨l, a, hsz⟩ := hr.inv
  constructor
  · intro hcap
    constructor
    · intro fuel hfuel
      obtain ⟨s1, hu, -⟩ := Abs_Unpin a hsz fuel f (Or.inr (Or.inr ⟨hcap, hfuel⟩))
      exact ⟨s1, hu⟩
    · intro hfull
      obtain ⟨h, t, as, r, hl⟩ := a
      have hlen : as.length = s.capacity_ := by
        have h1 := r.size
        unfold LRUReplacer.Size at h1
        have h2 : l.length = as.length := by simp [hl]
        omega
      rcases List.eq_nil_or_concat as with rfl | ⟨pre, x, rfl⟩
      · simp at hlen; omega
      · rw [List.concat_eq_append] at r hlen
        obtain ⟨nt, nx, hnt, hleft, hnx⟩ := r.last
        obtain ⟨s1, hrem, r1, hc1, -, -⟩ := remove_spec pre [] x r
        rw [List.append_nil] at r1
        rw [frameAt_of_getElem? hnx] at hrem
        have hxh : x ≠ h := by
          intro e
          have hnd := r.nodup
          simp [e] at hnd
        refine ⟨nt, nx, s1, ?_, ?_, ?_, hrem, ?_, ?_⟩
        · rw [r.tail_eq]; exact load_some hnt
        · rw [hleft, r.head_eq]
          simpa using hxh
        · rw [hleft]; exact load_some hnx
        · have h1 := r1.size
          unfold LRUReplacer.Size at h1
          simp at hlen
          omega
        · intro fuel
          obtain ⟨s2, hloop, -⟩ := evictLoop_full r (by simpa using hlen) fuel
          have hs2 : s2 = s1 := by
            have hsz0 : s.page_table_.length ≥ s.capacity_ := hfull
            unfold LRUReplacer.evictLoop at hloop
            simp only [hsz0, if_true, r.tail_eq, load_some hnt, hleft, load_some hnx, hrem,
              bind, Except.bind] at hloop
            have h1 := r1.size
            unfold LRUReplacer.Size at h1
            have hsz1 : ¬ s1.page_table_.length ≥ s1.capacity_ := by
              simp at hlen
              omega
            unfold LRUReplacer.evictLoop at hloop
            simp only [hsz1, if_false, pure, Except.pure, Except.ok.injEq] at hloop
            exact hloop.symm
          rw [← hs2]
          exact hloop
  · intro hcap
    have hs := reachable_capacity_zero hr hcap
    subst hs
    obtain ⟨h, t, as, r, hl⟩ := a
    have has : as = [] := by
      apply List.eq_nil_of_length_eq_zero
      have h1 := r.size
      unfold LRUReplacer.Size at h1
      simpa [fresh0] using h1.symm
    subst has
    refine ⟨fun fuel => Unpin_stuck r rfl fuel f, evictLoop_stuck r rfl, ?_⟩
    exact ⟨{ frame_id_ := -1, left_ := some 0, right_ := none },
      { frame_id_ := -1, left_ := none, right_ := some 1 }, rfl, rfl, rfl, rfl, rfl, rfl⟩

theorem fresh0_reachable : Reachable fresh0 :=
  Reachable.construct 0 fresh0 rfl

theorem C19_unpin_terminates_iff_capacity_witness :
    (Reachable full2 ∧ 1 ≤ full2.capacity_ ∧
      ((∀ fuel, 1 ≤ fuel → ∃ s1, LRUReplacer.Unpin fuel full2 7 = .ok s1) ∧
        (full2.page_table_.length ≥ full2.capacity_ →
          ∃ nt pn s1, Heap.load full2.heap full2.tail_ = .ok nt ∧ nt.left_ ≠ full2.head_ ∧
            Heap.load full2.heap nt.left_ = .ok pn ∧
            LRUReplacer.remove full2 pn.frame_id_ = .ok (true, s1) ∧
            ¬ (s1.page_table_.length ≥ s1.capacity_) ∧
            ∀ fuel, LRUReplacer.evictLoop (fuel + 1) full2 = .ok s1))) ∧
    (Reachable fresh0 ∧ fresh0.capacity_ = 0 ∧
      ((∀ fuel, LRUReplacer.Unpin fuel fresh0 7 = .error .outOfFuel) ∧
        (∀ fuel, LRUReplacer.evictLoop fuel fresh0 = .error .outOfFuel) ∧
        ∃ nt nh, Heap.load fresh0.heap fresh0.tail_ = .ok nt ∧ nt.left_ = fresh0.head_ ∧
          Heap.load fresh0.heap nt.left_ = .ok nh ∧ nh.frame_id_ = -1 ∧
          fresh0.page_table_ = [] ∧
          LRUReplacer.remove fresh0 nh.frame_id_ = .ok (false, fresh0))) :=
  ⟨⟨full2_reachable, by decide,
      (C19_unpin_terminates_iff_capacity full2 full2_reachable 7).1 (by decide)⟩,
    ⟨fresh0_reachable, rfl,
      (C19_unpin_terminates_iff_capacity fresh0 fresh0_reachable 7).2 rfl⟩⟩

/-! ## Refinement of the list model -/

theorem ListModel.call_eq (cap : Nat) (l : List frame_id_t) (c : Call) :
    ListModel.call cap l c = orderCall cap l c := by
  cases c with
  | Unpin f =>
    simp only [ListModel.call, orderCall, ListModel.Unpin, unpinOrder, List.drop_one]
  | Pin f => rfl
  | Victim => cases l <;> rfl
  | Size => rfl

theorem run_refines (fuel : Nat) (hfuel : 1 ≤ fuel) : ∀ (cs : List Call) (s : LRUReplacer)
    (l : List frame_id_t), Abs s l → l.length ≤ s.capacity_ → 1 ≤ s.capacity_ →
    ∃ s1, LRUReplacer.run fuel s cs = .ok ((ListModel.run s.capacity_ l cs).1, s1) ∧
      Abs s1 (ListModel.run s.capacity_ l cs).2
  | [], s, l, a, _, _ => ⟨s, rfl, a⟩
  | c :: cs, s, l, a, hsz, hcap => by
    obtain ⟨s1, hc, a1, hcap1, hsz1⟩ := call_order a hsz hcap fuel hfuel c
    rw [← ListModel.call_eq] at hc a1 hsz1
    obtain ⟨s2, hrun, a2⟩ :=
      run_refines fuel hfuel cs s1 _ a1 (by rw [hcap1]; exact hsz1) (by rw [hcap1]; exact hcap)
    rw [hcap1] at hrun a2
    exact ⟨s2, run_cons_ok hc hrun, a2⟩

/-- C20: for every capacity at least 1 and every sequence of calls on a fresh replacer, the
run completes and its history, with every `Victim` result and every `Size` value, is the one
of the list model started on the empty list; the final eviction order is the final list of
the model, which has no duplicates. Frame ids are arbitrary integers, -1 included. -/
theorem C20_refines_list_model (num_pages : Nat) (hcap : 1 ≤ num_pages) (fuel : Nat)
    (hfuel : 1 ≤ fuel) (cs : List Call) :
    ∃ s, LRUReplacer.runFresh fuel num_pages cs
        = .ok ((ListModel.run num_pages [] cs).1, s) ∧
      s.evictionOrder = (ListModel.run num_pages [] cs).2 ∧
      s.Size = ListModel.Size (ListModel.run num_pages [] cs).2 ∧
      (ListModel.run num_pages [] cs).2.Nodup := by
  obtain ⟨s0, h0, a0, hc0⟩ := Abs_construct num_pages
  obtain ⟨s1, hrun, a1⟩ :=
    run_refines fuel hfuel cs s0 [] a0 (Nat.zero_le _) (by rw [hc0]; exact hcap)
  rw [hc0] at hrun a1
  exact ⟨s1, runFresh_ok h0 hrun, a1.order_eq, a1.size_eq, a1.nodup⟩

theorem C20_refines_list_model_witness :
    1 ≤ 2 ∧ 1 ≤ 1 ∧
      ∃ s, LRUReplacer.runFresh 1 2 [.Unpin (-1), .Unpin 5, .Size, .Unpin (-1), .Unpin 6,
            .Victim, .Pin (-1), .Victim, .Victim]
          = .ok ((ListModel.run 2 [] [.Unpin (-1), .Unpin 5, .Size, .Unpin (-1), .Unpin 6,
            .Victim, .Pin (-1), .Victim, .Victim]).1, s) ∧
        s.evictionOrder = (ListModel.run 2 [] [.Unpin (-1), .Unpin 5, .Size, .Unpin (-1),
          .Unpin 6, .Victim, .Pin (-1), .Victim, .Victim]).2 ∧
        s.Size = ListModel.Size (ListModel.run 2 [] [.Unpin (-1), .Unpin 5, .Size,
          .Unpin (-1), .Unpin 6, .Victim, .Pin (-1), .Victim, .Victim]).2 ∧
        (ListModel.run 2 [] [.Unpin (-1), .Unpin 5, .Size, .Unpin (-1), .Unpin 6,
          .Victim, .Pin (-1), .Victim, .Victim]).2.Nodup :=
  ⟨by decide, by decide, C20_refines_list_model 2 (by decide) 1 (by decide) _⟩

/-! ## `int` arithmetic -/

theorem wrapInt_add_wrapInt (x y : Int) : wrapInt (wrapInt x + wrapInt y) = wrapInt (x + y) := by
  unfold wrapInt
  omega

theorem wrapInt_wrapInt (x : Int) : wrapInt (wrapInt x) = wrapInt x := by
  unfold wrapInt
  omega

theorem wrapInt_of_range {x : Int} (h1 : -2147483648 ≤ x) (h2 : x < 2147483648) :
    wrapInt x = x := by
  unfold wrapInt
  omega

/-! ## Loops -/

theorem forLoop_inv {σ : Type} (n : Int) (body : Int → σ → Except MatrixFault σ)
    (P : Nat → σ → Prop) (init : σ) (h0 : P 0 init)
    (hstep : ∀ k s, k < n.toNat → P k s → ∃ s1, body (k : Int) s = .ok s1 ∧ P (k + 1) s1) :
    ∃ s1, forLoop n body init = .ok s1 ∧ P n.toNat s1 := by
  have key : ∀ m, m ≤ n.toNat →
      ∃ s1, List.foldlM (fun (s : σ) (i : Nat) => body (i : Int) s) init (List.range m)
        = .ok s1 ∧ P m s1 := by
    intro m
    induction m with
    | zero => exact fun _ => ⟨init, rfl, h0⟩
    | succ m ih =>
      intro hm
      obtain ⟨s1, hs1, hp1⟩ := ih (by omega)
      obtain ⟨s2, hs2, hp2⟩ := hstep m s1 (by omega) hp1
      refine ⟨s2, ?_, hp2⟩
      rw [List.range_succ, List.foldlM_append, hs1]
      simp [List.foldlM, hs2, bind, Except.bind, pure, Except.pure]
  exact key n.toNat (Nat.le_refl _)

/-! ## The arrays of a matrix -/

theorem arrayRead_ok {α : Type} {xs : List α} {i : Nat} {x : α} (h : xs[i]? = some x) :
    arrayRead xs (i : Int) = .ok x := by
  have : ¬ ((i : Int) < 0) := by omega
  simp [arrayRead, this, h]

theorem arrayWrite_ok {α : Type} {xs : List α} {i : Nat} (h : i < xs.length) (v : α) :
    arrayWrite xs (i : Int) v = .ok (xs.set i v) := by
  have : ¬ ((i : Int) < 0) := by omega
  simp [arrayWrite, this, h]

theorem RowMatrix.WF_zeros {r c : Int} (hr : 0 ≤ r) (hc : r = 0 ∨ 0 ≤ c)
    (hfit : r * c < 2147483648) : (RowMatrix.zeros r c).WF := by
  refine ⟨hr, hc, hfit, by simp [RowMatrix.zeros], ?_, by simp [RowMatrix.zeros]⟩
  intro row hrow
  simp only [RowMatrix.zeros] at hrow
  rw [List.eq_of_mem_replicate hrow]
  simp [RowMatrix.zeros]

theorem RowMatrix.entry_zeros (r c : Int) (i j : Nat) :
    (RowMatrix.zeros r c).entry i j = 0 := by
  unfold RowMatrix.entry RowMatrix.zeros
  simp only [List.getElem?_replicate]
  split
  · rfl
  · rename_i row h
    split at h
    · cases h
      simp only [List.getD_eq_getElem?_getD, List.getElem?_replicate]
      split <;> rfl
    · cases h

theorem newArray_ok {α : Type} {n : Int} (hn : 0 ≤ n) (v : α) :
    newArray n v = .ok (List.replicate n.toNat v) := by
  have : ¬ n < 0 := by omega
  simp [newArray, this]

/-- The loop of the constructor fills the `r` cells of `data_` with rows of `c` zeros. -/
theorem construct_rows {r c : Int} (hc : r = 0 ∨ 0 ≤ c) :
    forLoop r (fun i d => do
        let row ← newArray c (0 : Int)
        arrayWrite d i row) (List.replicate r.toNat ([] : List Int))
      = .ok (List.replicate r.toNat (List.replicate c.toNat 0)) := by
  obtain ⟨d, hrun, hlen, hcells⟩ :=
    forLoop_inv r (fun i d => do
        let row ← newArray c (0 : Int)
        arrayWrite d i row)
      (fun k d => d.length = r.toNat ∧ ∀ i, i < k → d[i]? = some (List.replicate c.toNat 0))
      (List.replicate r.toNat ([] : List Int)) ⟨by simp, fun i hi => absurd hi (by omega)⟩ (by
        intro k d hk ⟨hlen, hcells⟩
        have hc0 : 0 ≤ c := by
          rcases hc with h | h
          · omega
          · exact h
        refine ⟨d.set k (List.replicate c.toNat 0), ?_, by simpa using hlen, ?_⟩
        · simp only [newArray_ok hc0, bind, Except.bind]
          exact arrayWrite_ok (by omega) _
        · intro i hi
          rw [List.getElem?_set]
          by_cases hki : k = i
          · subst hki
            simp [hlen, hk]
          · rw [if_neg hki]
            exact hcells i (by omega))
  rw [hrun]
  congr 1
  apply List.ext_getElem?
  intro i
  by_cases hi : i < r.toNat
  · rw [hcells i hi, List.getElem?_replicate, if_pos hi]
  · rw [List.getElem?_eq_none (by omega), List.getElem?_replicate, if_neg hi]

theorem RowMatrix.construct_ok {r c : Int} (hr : 0 ≤ r) (hc : r = 0 ∨ 0 ≤ c)
    (hfit : r * c < 2147483648) : RowMatrix.construct r c = .ok (RowMatrix.zeros r c) := by
  have hprod : 0 ≤ r * c := by
    rcases hc with h | h
    · rw [h]; simp
    · exact mul_nonneg hr h
  unfold RowMatrix.construct
  rw [wrapInt_of_range (by omega) hfit]
  have hrows := construct_rows hc
  simp only [bind, Except.bind] at hrows
  simp only [newArray_ok hprod, newArray_ok hr, bind, Except.bind, hrows]
  rfl

theorem RowMatrix.row_of_WF {m : RowMatrix} (h : m.WF) {i : Nat} (hi : (i : Int) < m.rows) :
    ∃ row, m.data_[i]? = some row ∧ row.length = m.cols.toNat := by
  have hlt : i < m.data_.length := by rw [h.data_length]; omega
  exact ⟨m.data_[i], List.getElem?_eq_getElem hlt, h.row_length _ (List.getElem_mem hlt)⟩

theorem RowMatrix.GetElem_ok {m : RowMatrix} (h : m.WF) {i j : Nat} (hi : (i : Int) < m.rows)
    (hj : (j : Int) < m.cols) : m.GetElem i j = .ok (m.entry i j) := by
  obtain ⟨row, hrow, hlen⟩ := RowMatrix.row_of_WF h hi
  have hjl : j < row.length := by rw [hlen]; omega
  have hcond : ¬ ((i : Int) < 0 ∨ (i : Int) ≥ m.GetRows ∨ (j : Int) < 0 ∨
      (j : Int) ≥ m.GetColumns) := by
    unfold RowMatrix.GetRows RowMatrix.GetColumns
    omega
  have hget : row[j]? = some row[j] := List.getElem?_eq_getElem hjl
  unfold RowMatrix.GetElem
  rw [if_neg hcond]
  simp only [arrayRead_ok hrow, arrayRead_ok hget, bind, Except.bind]
  simp [RowMatrix.entry, hrow, List.getD_eq_getElem?_getD, hget]

theorem RowMatrix.SetElem_ok {m : RowMatrix} (h : m.WF) {i j : Nat} (hi : (i : Int) < m.rows)
    (hj : (j : Int) < m.cols) (v : Int) :
    ∃ m1, m.SetElem i j v = .ok m1 ∧ m1.WF ∧ m1.rows = m.rows ∧ m1.cols = m.cols ∧
      ∀ i1 j1, m1.entry i1 j1 = if i1 = i ∧ j1 = j then v else m.entry i1 j1 := by
  obtain ⟨row, hrow, hlen⟩ := RowMatrix.row_of_WF h hi
  have hjl : j < row.length := by rw [hlen]; omega
  have hil : i < m.data_.length := by rw [h.data_length]; omega
  have hcond : ¬ ((i : Int) < 0 ∨ (i : Int) ≥ m.GetRows ∨ (j : Int) < 0 ∨
      (j : Int) ≥ m.GetColumns) := by
    unfold RowMatrix.GetRows RowMatrix.GetColumns
    omega
  have hidx : (i : Int) * m.cols + j = ((i * m.cols.toNat + j : Nat) : Int) := by
    have hc : (m.cols.toNat : Int) = m.cols := Int.toNat_of_nonneg (by omega)
    push_cast
    rw [hc]
  have hlin : i * m.cols.toNat + j < m.linear.length := by
    rw [h.linear_length]
    have hr : (m.rows.toNat : Int) = m.rows := Int.toNat_of_nonneg (by omega)
    have hc : (m.cols.toNat : Int) = m.cols := Int.toNat_of_nonneg (by omega)
    have hrc : (m.rows * m.cols).toNat = m.rows.toNat * m.cols.toNat := by
      have : m.rows * m.cols = ((m.rows.toNat * m.cols.toNat : Nat) : Int) := by
        push_cast
        rw [hr, hc]
      rw [this, Int.toNat_natCast]
    rw [hrc]
    have h1 : i + 1 ≤ m.rows.toNat := by omega
    have h2 : j < m.cols.toNat := by omega
    calc i * m.cols.toNat + j < i * m.cols.toNat + m.cols.toNat := by omega
      _ = (i + 1) * m.cols.toNat := by ring
      _ ≤ m.rows.toNat * m.cols.toNat := Nat.mul_le_mul_right _ h1
  refine ⟨{ m with data_ := m.data_.set i (row.set j v),
                   linear := m.linear.set (i * m.cols.toNat + j) v }, ?_, ?_, rfl, rfl, ?_⟩
  · unfold RowMatrix.SetElem
    rw [if_neg hcond]
    unfold RowMatrix.GetColumns
    simp only [arrayRead_ok hrow, arrayWrite_ok hjl, arrayWrite_ok hil, hidx,
      arrayWrite_ok hlin, bind, Except.bind, pure, Except.pure]
  · refine ⟨h.rows_nonneg, h.cols_nonneg, h.size_fits, by simpa using h.data_length, ?_,
      by simpa using h.linear_length⟩
    intro r1 hr1
    rcases List.mem_or_eq_of_mem_set hr1 with h1 | h1
    · exact h.row_length r1 h1
    · rw [h1, List.length_set]
      exact hlen
  · intro i1 j1
    unfold RowMatrix.entry
    simp only [List.getElem?_set]
    by_cases hii : i = i1
    · subst hii
      simp only [hil, if_true, hrow, true_and]
      by_cases hjj : j1 = j
      · subst hjj
        simp [List.getD_eq_getElem?_getD, List.getElem?_set, hjl]
      · have : ¬ j = j1 := fun e => hjj e.symm
        simp [List.getD_eq_getElem?_getD, List.getElem?_set, hjj, this]
    · have : ¬ (i1 = i ∧ j1 = j) := fun e => hii e.1.symm
      simp [hii, this]

/-! ## Loops over the entries of a matrix -/

/-- Two nested loops that give every entry `(i, j)` of a zero matrix its value
`target i j`, one entry per iteration of the inner loop. -/
theorem double_loop (r c : Int) (bound : RowMatrix → Int)
    (cell : Int → Int → RowMatrix → Except MatrixFault RowMatrix) (target : Nat → Nat → Int)
    (hb : ∀ m : RowMatrix, m.cols = c → bound m = c)
    (hcell : ∀ (i j : Nat) (m : RowMatrix), (i : Int) < r → (j : Int) < c → m.WF →
      m.rows = r → m.cols = c → m.entry i j = 0 →
      ∃ m1, cell i j m = .ok m1 ∧ m1.WF ∧ m1.rows = r ∧ m1.cols = c ∧
        m1.entry i j = target i j ∧
        ∀ i1 j1, ¬ (i1 = i ∧ j1 = j) → m1.entry i1 j1 = m.entry i1 j1)
    (m0 : RowMatrix) (h0 : m0.WF) (hr0 : m0.rows = r) (hc0 : m0.cols = c)
    (hz : ∀ i j, m0.entry i j = 0) :
    ∃ m1, forLoop r (fun i m => forLoop (bound m) (fun j m => cell i j m) m) m0 = .ok m1 ∧
      m1.WF ∧ m1.rows = r ∧ m1.cols = c ∧
      ∀ (i j : Nat), (i : Int) < r → (j : Int) < c → m1.entry i j = target i j := by
  let Inv : Nat → Nat → RowMatrix → Prop := fun k j m =>
    m.WF ∧ m.rows = r ∧ m.cols = c ∧
      ∀ i1 j1 : Nat, (j1 : Int) < c →
        m.entry i1 j1 = if i1 < k ∨ (i1 = k ∧ j1 < j) then target i1 j1 else 0
  have hinner : ∀ (k : Nat) (m : RowMatrix), k < r.toNat → Inv k 0 m →
      ∃ m1, forLoop (bound m) (fun j m => cell k j m) m = .ok m1 ∧ Inv (k + 1) 0 m1 := by
    intro k m hk hinv
    rw [hb m hinv.2.2.1]
    obtain ⟨m1, hrun, hw, hr1, hc1, hent⟩ :=
      forLoop_inv c (fun j m => cell k j m) (fun j m => Inv k j m) m hinv (by
        intro j s hj ⟨hw, hrs, hcs, hes⟩
        have hjc : (j : Int) < c := by omega
        have hzero : s.entry k j = 0 := by
          rw [hes k j hjc, if_neg (by omega)]
        obtain ⟨s1, hs1, hw1, hr1, hc1, het, hfr⟩ :=
          hcell k j s (by omega) hjc hw hrs hcs hzero
        refine ⟨s1, hs1, hw1, hr1, hc1, ?_⟩
        intro i1 j1 hj1
        by_cases hij : i1 = k ∧ j1 = j
        · obtain ⟨rfl, rfl⟩ := hij
          rw [het, if_pos (by omega)]
        · rw [hfr i1 j1 hij, hes i1 j1 hj1]
          by_cases hd : i1 < k ∨ (i1 = k ∧ j1 < j)
          · rw [if_pos hd, if_pos (by omega)]
          · rw [if_neg hd, if_neg (by omega)])
    refine ⟨m1, hrun, hw, hr1, hc1, ?_⟩
    intro i1 j1 hj1
    rw [hent i1 j1 hj1]
    by_cases hd : i1 < k ∨ (i1 = k ∧ j1 < c.toNat)
    · rw [if_pos hd, if_pos (by omega)]
    · rw [if_neg hd, if_neg (by omega)]
  obtain ⟨m1, hrun, hw, hr1, hc1, hent⟩ :=
    forLoop_inv r (fun i m => forLoop (bound m) (fun j m => cell i j m) m)
      (fun k m => Inv k 0 m) m0
      ⟨h0, hr0, hc0, fun i1 j1 _ => by rw [hz, if_neg (by omega)]⟩ hinner
  refine ⟨m1, hrun, hw, hr1, hc1, ?_⟩
  intro i j hi hj
  rw [hent i j hj, if_pos (by omega)]

/-- The innermost loop of `MultiplyMatrices`: it adds the products of row `i` of `mat1` and
column `j` of `mat2` to the entry `(i, j)`, which starts at 0. -/
theorem dot_loop {mat1 mat2 : RowMatrix} (h1 : mat1.WF) (h2 : mat2.WF)
    (hdim : mat1.cols = mat2.rows) {i j : Nat} (hi : (i : Int) < mat1.rows)
    (hj : (j : Int) < mat2.cols) {m : RowMatrix} (hw : m.WF) (hr : m.rows = mat1.rows)
    (hc : m.cols = mat2.cols) (hz : m.entry i j = 0) :
    ∃ m1, forLoop mat1.GetColumns (fun k mat => do
          let x ← mat.GetElem i j
          let a ← mat1.GetElem i k
          let b ← mat2.GetElem k j
          mat.SetElem i j (wrapInt (x + wrapInt (a * b)))) m = .ok m1 ∧
      m1.WF ∧ m1.rows = mat1.rows ∧ m1.cols = mat2.cols ∧
      m1.entry i j = wrapInt (∑ k ∈ Finset.range mat1.cols.toNat,
        mat1.entry i k * mat2.entry k j) ∧
      ∀ i1 j1, ¬ (i1 = i ∧ j1 = j) → m1.entry i1 j1 = m.entry i1 j1 := by
  obtain ⟨m1, hrun, hw1, hr1, hc1, he1, hf1⟩ :=
    forLoop_inv mat1.GetColumns (fun k mat => do
          let x ← mat.GetElem i j
          let a ← mat1.GetElem i k
          let b ← mat2.GetElem k j
          mat.SetElem i j (wrapInt (x + wrapInt (a * b))))
      (fun k s => s.WF ∧ s.rows = mat1.rows ∧ s.cols = mat2.cols ∧
        s.entry i j = wrapInt (∑ k1 ∈ Finset.range k, mat1.entry i k1 * mat2.entry k1 j) ∧
        ∀ i1 j1, ¬ (i1 = i ∧ j1 = j) → s.entry i1 j1 = m.entry i1 j1) m
      ⟨hw, hr, hc, by rw [hz]; rfl, fun _ _ _ => rfl⟩ (by
        intro k s hk ⟨hws, hrs, hcs, hes, hfs⟩
        have hk1 : (k : Int) < mat1.cols := by
          unfold RowMatrix.GetColumns at hk
          omega
        have hk2 : (k : Int) < mat2.rows := by rw [← hdim]; exact hk1
        obtain ⟨s1, hset, hw1, hr1, hc1, he1⟩ :=
          RowMatrix.SetElem_ok hws (i := i) (j := j) (by rw [hrs]; exact hi)
            (by rw [hcs]; exact hj)
            (wrapInt (s.entry i j + wrapInt (mat1.entry i k * mat2.entry k j)))
        refine ⟨s1, ?_, hw1, hr1.trans hrs, hc1.trans hcs, ?_, ?_⟩
        · simp only [RowMatrix.GetElem_ok hws (by rw [hrs]; exact hi) (by rw [hcs]; exact hj),
            RowMatrix.GetElem_ok h1 hi hk1, RowMatrix.GetElem_ok h2 hk2 hj, bind, Except.bind]
          exact hset
        · rw [he1 i j, if_pos ⟨rfl, rfl⟩, hes, Finset.sum_range_succ, wrapInt_add_wrapInt]
        · intro i1 j1 hne
          rw [he1 i1 j1, if_neg hne]
          exact hfs i1 j1 hne)
  exact ⟨m1, hrun, hw1, hr1, hc1, he1, hf1⟩

/-- `GetElem` at an index in range, given as an `int`. -/
theorem RowMatrix.GetElem_int {m : RowMatrix} (h : m.WF) {i j : Int} (hi0 : 0 ≤ i)
    (hi : i < m.rows) (hj0 : 0 ≤ j) (hj : j < m.cols) :
    m.GetElem i j = .ok (m.entry i.toNat j.toNat) := by
  have e1 : i = ((i.toNat : Nat) : Int) := (Int.toNat_of_nonneg hi0).symm
  have e2 : j = ((j.toNat : Nat) : Int) := (Int.toNat_of_nonneg hj0).symm
  have := RowMatrix.GetElem_ok h (i := i.toNat) (j := j.toNat) (by omega) (by omega)
  rw [← e1, ← e2] at this
  exact this

theorem add_spec {mat1 mat2 : RowMatrix} (h1 : mat1.WF) (h2 : mat2.WF)
    (hr : mat1.rows = mat2.rows) (hc : mat1.cols = mat2.cols) :
    ∃ mat, RowMatrixOperations.AddMatrices mat1 mat2 = .ok (some mat) ∧ mat.WF ∧
      mat.rows = mat1.rows ∧ mat.cols = mat1.cols ∧
      ∀ (i j : Nat), (i : Int) < mat1.rows → (j : Int) < mat1.cols →
        mat.entry i j = wrapInt (mat1.entry i j + mat2.entry i j) := by
  obtain ⟨m1, hrun, hw, hr1, hc1, hent⟩ :=
    double_loop mat1.rows mat1.cols RowMatrix.GetColumns
      (fun i j mat => do
        let a ← mat1.GetElem i j
        let b ← mat2.GetElem i j
        mat.SetElem i j (wrapInt (a + b)))
      (fun i j => wrapInt (mat1.entry i j + mat2.entry i j))
      (fun m hm => hm)
      (by
        intro i j m hi hj hwm hrm hcm _
        obtain ⟨s1, hset, hw1, hr1, hc1, he1⟩ :=
          RowMatrix.SetElem_ok hwm (i := i) (j := j) (by rw [hrm]; exact hi)
            (by rw [hcm]; exact hj) (wrapInt (mat1.entry i j + mat2.entry i j))
        refine ⟨s1, ?_, hw1, hr1.trans hrm, hc1.trans hcm, ?_, ?_⟩
        · simp only [RowMatrix.GetElem_ok h1 hi hj,
            RowMatrix.GetElem_ok h2 (by rw [← hr]; exact hi) (by rw [← hc]; exact hj),
            bind, Except.bind]
          exact hset
        · rw [he1 i j, if_pos ⟨rfl, rfl⟩]
        · intro i1 j1 hne
          rw [he1 i1 j1, if_neg hne])
      (RowMatrix.zeros mat1.rows mat1.cols)
      (RowMatrix.WF_zeros h1.rows_nonneg h1.cols_nonneg h1.size_fits) rfl rfl
      (RowMatrix.entry_zeros _ _)
  refine ⟨m1, ?_, hw, hr1, hc1, hent⟩
  have hcond : ¬ (mat1.GetRows ≠ mat2.GetRows ∨ mat1.GetColumns ≠ mat2.GetColumns) := by
    unfold RowMatrix.GetRows RowMatrix.GetColumns
    simp [hr, hc]
  have hcons : RowMatrix.construct mat1.GetRows mat1.GetColumns
      = .ok (RowMatrix.zeros mat1.rows mat1.cols) :=
    RowMatrix.construct_ok h1.rows_nonneg h1.cols_nonneg h1.size_fits
  have hrun1 : forLoop (RowMatrix.zeros mat1.rows mat1.cols).GetRows
      (fun i mat => forLoop mat.GetColumns (fun j mat => do
        let a ← mat1.GetElem i j
        let b ← mat2.GetElem i j
        mat.SetElem i j (wrapInt (a + b))) mat)
      (RowMatrix.zeros mat1.rows mat1.cols) = .ok m1 := hrun
  unfold RowMatrixOperations.AddMatrices
  rw [if_neg hcond]
  simp only [bind, Except.bind] at hrun1 ⊢
  simp only [hcons, hrun1]
  rfl

theorem multiply_spec {mat1 mat2 : RowMatrix} (h1 : mat1.WF) (h2 : mat2.WF)
    (hdim : mat1.cols = mat2.rows) (hneg : mat1.rows = 0 ∨ 0 ≤ mat2.cols)
    (hfit : mat1.rows * mat2.cols < 2147483648) :
    ∃ mat, RowMatrixOperations.MultiplyMatrices mat1 mat2 = .ok (some mat) ∧ mat.WF ∧
      mat.rows = mat1.rows ∧ mat.cols = mat2.cols ∧
      ∀ (i j : Nat), (i : Int) < mat1.rows → (j : Int) < mat2.cols →
        mat.entry i j = wrapInt (∑ k ∈ Finset.range mat1.cols.toNat,
          mat1.entry i k * mat2.entry k j) := by
  obtain ⟨m1, hrun, hw, hr1, hc1, hent⟩ :=
    double_loop mat1.rows mat2.cols (fun _ => mat2.GetColumns)
      (fun i j mat => forLoop mat1.GetColumns (fun k mat => do
          let x ← mat.GetElem i j
          let a ← mat1.GetElem i k
          let b ← mat2.GetElem k j
          mat.SetElem i j (wrapInt (x + wrapInt (a * b)))) mat)
      (fun i j => wrapInt (∑ k ∈ Finset.range mat1.cols.toNat,
          mat1.entry i k * mat2.entry k j))
      (fun _ _ => rfl)
      (fun i j m hi hj hwm hrm hcm hz => dot_loop h1 h2 hdim hi hj hwm hrm hcm hz)
      (RowMatrix.zeros mat1.rows mat2.cols)
      (RowMatrix.WF_zeros h1.rows_nonneg hneg hfit) rfl rfl
      (RowMatrix.entry_zeros _ _)
  refine ⟨m1, ?_, hw, hr1, hc1, hent⟩
  have hcond : ¬ (mat1.GetColumns ≠ mat2.GetRows) := by
    unfold RowMatrix.GetRows RowMatrix.GetColumns
    simp [hdim]
  have hcons : RowMatrix.construct mat1.GetRows mat2.GetColumns
      = .ok (RowMatrix.zeros mat1.rows mat2.cols) :=
    RowMatrix.construct_ok h1.rows_nonneg hneg hfit
  have hrun1 : forLoop mat1.GetRows
      (fun i mat => forLoop mat2.GetColumns (fun j mat =>
        forLoop mat1.GetColumns (fun k mat => do
          let x ← mat.GetElem i j
          let a ← mat1.GetElem i k
          let b ← mat2.GetElem k j
          mat.SetElem i j (wrapInt (x + wrapInt (a * b)))) mat) mat)
      (RowMatrix.zeros mat1.rows mat2.cols) = .ok m1 := hrun
  unfold RowMatrixOperations.MultiplyMatrices
  rw [if_neg hcond]
  simp only [bind, Except.bind] at hrun1 ⊢
  simp only [hcons, hrun1]
  rfl

/-- `AddMatrices` returns `nullptr` only for operands whose dimensions differ. -/
theorem add_none_iff (mat1 mat2 : RowMatrix) :
    RowMatrixOperations.AddMatrices mat1 mat2 = .ok none ↔
      (mat1.GetRows ≠ mat2.GetRows ∨ mat1.GetColumns ≠ mat2.GetColumns) := by
  constructor
  · intro h
    by_contra hd
    unfold RowMatrixOperations.AddMatrices at h
    rw [if_neg hd] at h
    simp only [bind, Except.bind] at h
    split at h
    · cases h
    · split at h
      · cases h
      · simp [pure, Except.pure] at h
  · intro hd
    unfold RowMatrixOperations.AddMatrices
    rw [if_pos hd]

/-- `MultiplyMatrices` returns `nullptr` only for operands whose inner dimensions differ. -/
theorem multiply_none_iff (mat1 mat2 : RowMatrix) :
    RowMatrixOperations.MultiplyMatrices mat1 mat2 = .ok none ↔
      mat1.GetColumns ≠ mat2.GetRows := by
  constructor
  · intro h heq
    have hd : ¬ (mat1.GetColumns ≠ mat2.GetRows) := fun hne => hne heq
    unfold RowMatrixOperations.MultiplyMatrices at h
    rw [if_neg hd] at h
    simp only [bind, Except.bind] at h
    split at h
    · cases h
    · split at h
      · cases h
      · simp [pure, Except.pure] at h
  · intro hd
    unfold RowMatrixOperations.MultiplyMatrices
    rw [if_pos hd]

theorem matP_WF : matP.WF := by
  constructor <;> decide

theorem matQ_WF : matQ.WF := by
  constructor <;> decide

theorem colVec_WF : colVec.WF :=
  (RowMatrix.WF_zeros (by decide) (by decide) (by decide) : (RowMatrix.zeros 46341 1).WF)

theorem rowVec_WF : rowVec.WF :=
  (RowMatrix.WF_zeros (by decide) (by decide) (by decide) : (RowMatrix.zeros 1 46341).WF)

theorem mat3x0_WF : mat3x0.WF := by
  constructor <;> decide

theorem mat0xNeg_WF : mat0xNeg.WF := by
  constructor <;> decide

/-- C16, as the code contradicts it: the entries `(0, 0)` of `matP` and `matQ` are 1 and
2147483647, and the entry `(0, 0)` of the matrix that `AddMatrices` returns is -2147483648,
not 1 + 2147483647. -/
theorem C16_add_matrices_counterexample :
    matP.WF ∧ matQ.WF ∧
      RowMatrixOperations.AddMatrices matP matQ = .ok (some matPplusQ) ∧
      matP.GetElem 0 0 = .ok 1 ∧ matQ.GetElem 0 0 = .ok 2147483647 ∧
      matPplusQ.GetElem 0 0 = .ok (-2147483648) ∧ (-2147483648 : Int) ≠ 1 + 2147483647 :=
  ⟨matP_WF, matQ_WF, rfl, rfl, rfl, rfl, by decide⟩

/-- C16, amended: on two matrices, `AddMatrices` completes; it returns `nullptr` exactly when
the row counts or the column counts differ; otherwise it returns a matrix with the dimensions
of `mat1` whose entry `(i, j)` is the `int` sum of the entries `(i, j)` of `mat1` and `mat2`,
the sum brought into the 32 bits of an `int`, for every index in range: it is the sum itself
when that fits an `int`. -/
theorem C16_add_matrices (mat1 mat2 : RowMatrix) (h1 : mat1.WF) (h2 : mat2.WF) :
    ∃ res, RowMatrixOperations.AddMatrices mat1 mat2 = .ok res ∧
      (res = none ↔ (mat1.GetRows ≠ mat2.GetRows ∨ mat1.GetColumns ≠ mat2.GetColumns)) ∧
      ∀ mat, res = some mat →
        mat.WF ∧ mat.GetRows = mat1.GetRows ∧ mat.GetColumns = mat1.GetColumns ∧
        ∀ i j : Int, 0 ≤ i → i < mat.GetRows → 0 ≤ j → j < mat.GetColumns →
          ∃ a b, mat1.GetElem i j = .ok a ∧ mat2.GetElem i j = .ok b ∧
            mat.GetElem i j = .ok (wrapInt (a + b)) ∧
            (-2147483648 ≤ a + b → a + b < 2147483648 → mat.GetElem i j = .ok (a + b)) := by
  by_cases hd : mat1.GetRows ≠ mat2.GetRows ∨ mat1.GetColumns ≠ mat2.GetColumns
  · exact ⟨none, (add_none_iff mat1 mat2).2 hd, by simp [hd], fun mat h => (by cases h)⟩
  · have hr : mat1.rows = mat2.rows := by
      by_contra hne
      exact hd (Or.inl hne)
    have hc : mat1.cols = mat2.cols := by
      by_contra hne
      exact hd (Or.inr hne)
    obtain ⟨m, hrun, hw, hr1, hc1, hent⟩ := add_spec h1 h2 hr hc
    refine ⟨some m, hrun, by simp [hd], ?_⟩
    intro mat hmat
    cases hmat
    refine ⟨hw, hr1, hc1, ?_⟩
    intro i j hi0 hi hj0 hj
    have hi1 : i < mat1.rows := by rw [← hr1]; exact hi
    have hj1 : j < mat1.cols := by rw [← hc1]; exact hj
    have hget : m.GetElem i j =
        .ok (wrapInt (mat1.entry i.toNat j.toNat + mat2.entry i.toNat j.toNat)) := by
      rw [RowMatrix.GetElem_int hw hi0 hi hj0 hj, hent i.toNat j.toNat (by omega) (by omega)]
    refine ⟨_, _, RowMatrix.GetElem_int h1 hi0 hi1 hj0 hj1,
      RowMatrix.GetElem_int h2 hi0 (by rw [← hr]; exact hi1) hj0 (by rw [← hc]; exact hj1),
      hget, ?_⟩
    intro hlo hhi
    rw [hget, wrapInt_of_range hlo hhi]

theorem C16_add_matrices_witness :
    matP.WF ∧ matQ.WF ∧
      ∃ res, RowMatrixOperations.AddMatrices matP matQ = .ok res ∧
        (res = none ↔ (matP.GetRows ≠ matQ.GetRows ∨ matP.GetColumns ≠ matQ.GetColumns)) ∧
        ∀ mat, res = some mat →
          mat.WF ∧ mat.GetRows = matP.GetRows ∧ mat.GetColumns = matP.GetColumns ∧
          ∀ i j : Int, 0 ≤ i → i < mat.GetRows → 0 ≤ j → j < mat.GetColumns →
            ∃ a b, matP.GetElem i j = .ok a ∧ matQ.GetElem i j = .ok b ∧
              mat.GetElem i j = .ok (wrapInt (a + b)) ∧
              (-2147483648 ≤ a + b → a + b < 2147483648 → mat.GetElem i j = .ok (a + b)) :=
  ⟨matP_WF, matQ_WF, C16_add_matrices matP matQ matP_WF matQ_WF⟩

/-- The entries that `MultiplyMatrices` reads for the entry `(i, j)` and what it leaves
there. -/
theorem multiply_entry {mat1 mat2 m : RowMatrix} (h1 : mat1.WF) (h2 : mat2.WF)
    (hdim : mat1.cols = mat2.rows) (hw : m.WF) (hr : m.rows = mat1.rows)
    (hc : m.cols = mat2.cols)
    (hent : ∀ (i j : Nat), (i : Int) < mat1.rows → (j : Int) < mat2.cols →
      m.entry i j = wrapInt (∑ k ∈ Finset.range mat1.cols.toNat,
        mat1.entry i k * mat2.entry k j))
    {i j : Int} (hi0 : 0 ≤ i) (hi : i < m.rows) (hj0 : 0 ≤ j) (hj : j < m.cols) :
    (∀ k : Nat, (k : Int) < mat1.GetColumns →
      mat1.GetElem i k = .ok (mat1.entry i.toNat k) ∧
      mat2.GetElem k j = .ok (mat2.entry k j.toNat)) ∧
    m.GetElem i j = .ok (wrapInt (∑ k ∈ Finset.range mat1.GetColumns.toNat,
      mat1.entry i.toNat k * mat2.entry k j.toNat)) := by
  constructor
  · intro k hk
    unfold RowMatrix.GetColumns at hk
    have e1 := RowMatrix.GetElem_int h1 hi0 (by rw [← hr]; exact hi)
      (Int.natCast_nonneg k) hk
    have e2 := RowMatrix.GetElem_int h2 (Int.natCast_nonneg k) (by rw [← hdim]; exact hk)
      hj0 (by rw [← hc]; exact hj)
    rw [Int.toNat_natCast] at e1 e2
    exact ⟨e1, e2⟩
  · rw [RowMatrix.GetElem_int hw hi0 hi hj0 hj, hent i.toNat j.toNat (by omega) (by omega)]
    rfl

/-- C17, as the code contradicts it, in three ways. The entry `(0, 0)` of the product of
`matP` and `matQ` is -2147483639, not `1 * 2147483647 + 2 * 5`. The column `colVec` and the
row `rowVec` of 46341 entries are made by the constructor and have matching inner dimensions,
and `MultiplyMatrices` returns neither `nullptr` nor a matrix: the `int` product
`46341 * 46341` is negative and `new T[r * c]` throws. The same happens for the 3 by 0 matrix
and the object with no row and -5 columns: `new T[3 * -5]` throws. -/
theorem C17_multiply_matrices_counterexample :
    (matP.WF ∧ matQ.WF ∧
      RowMatrixOperations.MultiplyMatrices matP matQ = .ok (some matPtimesQ) ∧
      matP.GetElem 0 0 = .ok 1 ∧ matP.GetElem 0 1 = .ok 2 ∧
      matQ.GetElem 0 0 = .ok 2147483647 ∧ matQ.GetElem 1 0 = .ok 5 ∧
      matPtimesQ.GetElem 0 0 = .ok (-2147483639) ∧
      (-2147483639 : Int) ≠ 1 * 2147483647 + 2 * 5) ∧
    (RowMatrix.construct 46341 1 = .ok colVec ∧ RowMatrix.construct 1 46341 = .ok rowVec ∧
      colVec.WF ∧ rowVec.WF ∧
      colVec.GetColumns = rowVec.GetRows ∧ wrapInt (46341 * 46341) = -2147479015 ∧
      RowMatrixOperations.MultiplyMatrices colVec rowVec = .error .badArrayLength) ∧
    (RowMatrix.construct 3 0 = .ok mat3x0 ∧ RowMatrix.construct 0 (-5) = .ok mat0xNeg ∧
      mat3x0.WF ∧ mat0xNeg.WF ∧ mat3x0.GetColumns = mat0xNeg.GetRows ∧
      RowMatrixOperations.MultiplyMatrices mat3x0 mat0xNeg = .error .badArrayLength) :=
  ⟨⟨matP_WF, matQ_WF, rfl, rfl, rfl, rfl, rfl, rfl, by decide⟩,
    ⟨RowMatrix.construct_ok (by decide) (by decide) (by decide),
      RowMatrix.construct_ok (by decide) (by decide) (by decide), colVec_WF, rowVec_WF,
      rfl, by decide, rfl⟩,
    ⟨rfl, rfl, mat3x0_WF, mat0xNeg_WF, rfl, rfl⟩⟩

/-- C17, amended: on two matrices, `MultiplyMatrices` returns `nullptr` exactly when the
column count of `mat1` differs from the row count of `mat2`; otherwise, when the size
`mat1.rows * mat2.cols` of the result is not negative and fits an `int`, it returns a matrix
with the rows of `mat1` and the columns of `mat2` whose entry `(i, j)` is the sum over `k` of
`mat1(i, k) * mat2(k, j)` brought into the 32 bits of an `int`, which is 0 when `mat1` has no
column. -/
theorem C17_multiply_matrices (mat1 mat2 : RowMatrix) (h1 : mat1.WF) (h2 : mat2.WF) :
    (RowMatrixOperations.MultiplyMatrices mat1 mat2 = .ok none ↔
      mat1.GetColumns ≠ mat2.GetRows) ∧
    (mat1.GetColumns = mat2.GetRows → 0 ≤ mat1.GetRows * mat2.GetColumns →
      mat1.GetRows * mat2.GetColumns < 2147483648 →
      ∃ mat, RowMatrixOperations.MultiplyMatrices mat1 mat2 = .ok (some mat) ∧
        mat.WF ∧ mat.GetRows = mat1.GetRows ∧ mat.GetColumns = mat2.GetColumns ∧
        ∀ i j : Int, 0 ≤ i → i < mat.GetRows → 0 ≤ j → j < mat.GetColumns →
          ∃ a b : Nat → Int,
            (∀ k : Nat, (k : Int) < mat1.GetColumns →
              mat1.GetElem i k = .ok (a k) ∧ mat2.GetElem k j = .ok (b k)) ∧
            mat.GetElem i j =
              .ok (wrapInt (∑ k ∈ Finset.range mat1.GetColumns.toNat, a k * b k)) ∧
            (mat1.GetColumns ≤ 0 → mat.GetElem i j = .ok 0)) := by
  refine ⟨multiply_none_iff mat1 mat2, ?_⟩
  intro hdim hs0 hfit
  unfold RowMatrix.GetRows RowMatrix.GetColumns at hdim hs0 hfit
  have hneg : mat1.rows = 0 ∨ 0 ≤ mat2.cols := by
    by_contra hcon
    simp only [not_or, not_le] at hcon
    have hpos : 0 < mat1.rows := lt_of_le_of_ne h1.rows_nonneg (Ne.symm hcon.1)
    have := mul_neg_of_pos_of_neg hpos hcon.2
    omega
  obtain ⟨m, hrun, hw, hr1, hc1, hent⟩ := multiply_spec h1 h2 hdim hneg hfit
  refine ⟨m, hrun, hw, hr1, hc1, ?_⟩
  intro i j hi0 hi hj0 hj
  obtain ⟨hread, hget⟩ := multiply_entry h1 h2 hdim hw hr1 hc1 hent hi0 hi hj0 hj
  refine ⟨fun k => mat1.entry i.toNat k, fun k => mat2.entry k j.toNat, hread, hget, ?_⟩
  intro hzero
  rw [hget]
  have : mat1.GetColumns.toNat = 0 := by omega
  rw [this]
  rfl

theorem C17_multiply_matrices_witness :
    matP.WF ∧ matQ.WF ∧ matP.GetColumns = matQ.GetRows ∧
      0 ≤ matP.GetRows * matQ.GetColumns ∧ matP.GetRows * matQ.GetColumns < 2147483648 ∧
      (RowMatrixOperations.MultiplyMatrices matP matQ = .ok none ↔
        matP.GetColumns ≠ matQ.GetRows) ∧
      ∃ mat, RowMatrixOperations.MultiplyMatrices matP matQ = .ok (some mat) ∧
        mat.WF ∧ mat.GetRows = matP.GetRows ∧ mat.GetColumns = matQ.GetColumns ∧
        ∀ i j : Int, 0 ≤ i → i < mat.GetRows → 0 ≤ j → j < mat.GetColumns →
          ∃ a b : Nat → Int,
            (∀ k : Nat, (k : Int) < matP.GetColumns →
              matP.GetElem i k = .ok (a k) ∧ matQ.GetElem k j = .ok (b k)) ∧
            mat.GetElem i j =
              .ok (wrapInt (∑ k ∈ Finset.range matP.GetColumns.toNat, a k * b k)) ∧
            (matP.GetColumns ≤ 0 → mat.GetElem i j = .ok 0) :=
  ⟨matP_WF, matQ_WF, rfl, by decide, by decide,
    (C17_multiply_matrices matP matQ matP_WF matQ_WF).1,
    (C17_multiply_matrices matP matQ matP_WF matQ_WF).2 rfl (by decide) (by decide)⟩

/-- C18, as the code contradicts it, in two ways. The entry `(0, 0)` of the result on
`matP`, `matQ` and `matP` is -2147483638, not `(1 * 2147483647 + 2 * 5) + 1`. On `colVec`,
`rowVec` and `matP` the row counts of `matA` and `matC` differ, and `GemmMatrices` does not
return `nullptr`: `new T[r * c]` throws inside `MultiplyMatrices`. -/
theorem C18_gemm_matrices_counterexample :
    (matP.WF ∧ matQ.WF ∧
      RowMatrixOperations.GemmMatrices matP matQ matP = .ok (some matPQplusP) ∧
      matP.GetElem 0 0 = .ok 1 ∧ matP.GetElem 0 1 = .ok 2 ∧
      matQ.GetElem 0 0 = .ok 2147483647 ∧ matQ.GetElem 1 0 = .ok 5 ∧
      matPQplusP.GetElem 0 0 = .ok (-2147483638) ∧
      (-2147483638 : Int) ≠ (1 * 2147483647 + 2 * 5) + 1) ∧
    (RowMatrix.construct 46341 1 = .ok colVec ∧ RowMatrix.construct 1 46341 = .ok rowVec ∧
      colVec.WF ∧ rowVec.WF ∧ matP.WF ∧ colVec.GetRows ≠ matP.GetRows ∧
      RowMatrixOperations.GemmMatrices colVec rowVec matP = .error .badArrayLength) :=
  ⟨⟨matP_WF, matQ_WF, rfl, rfl, rfl, rfl, rfl, rfl, by decide⟩,
    ⟨RowMatrix.construct_ok (by decide) (by decide) (by decide),
      RowMatrix.construct_ok (by decide) (by decide) (by decide), colVec_WF, rowVec_WF,
      matP_WF, by decide, rfl⟩⟩

/-- C18, amended: on three matrices such that, when `matA.cols == matB.rows`, the size
`matA.rows * matB.cols` of the product is not negative and fits an `int`, `GemmMatrices`
completes; it returns `nullptr` exactly when `matA.cols != matB.rows`, or
`matA.rows != matC.rows`, or `matB.cols != matC.cols`; otherwise its result is the one of
`AddMatrices(MultiplyMatrices(matA, matB), matC)`: a matrix with the dimensions of `matC`
whose entry `(i, j)` is the `int` sum of `matC(i, j)` and of the sum over `k` of
`matA(i, k) * matB(k, j)` brought into the 32 bits of an `int`. -/
theorem C18_gemm_matrices (matA matB matC : RowMatrix) (hA : matA.WF) (hB : matB.WF)
    (hC : matC.WF)
    (hsize : matA.GetColumns = matB.GetRows →
      0 ≤ matA.GetRows * matB.GetColumns ∧ matA.GetRows * matB.GetColumns < 2147483648) :
    ∃ res, RowMatrixOperations.GemmMatrices matA matB matC = .ok res ∧
      (res = none ↔ (matA.GetColumns ≠ matB.GetRows ∨ matA.GetRows ≠ matC.GetRows ∨
        matB.GetColumns ≠ matC.GetColumns)) ∧
      ∀ mat, res = some mat →
        mat.WF ∧ mat.GetRows = matC.GetRows ∧ mat.GetColumns = matC.GetColumns ∧
        (∃ multi, RowMatrixOperations.MultiplyMatrices matA matB = .ok (some multi) ∧
          RowMatrixOperations.AddMatrices multi matC = .ok (some mat)) ∧
        ∀ i j : Int, 0 ≤ i → i < mat.GetRows → 0 ≤ j → j < mat.GetColumns →
          ∃ (a b : Nat → Int) (c : Int),
            (∀ k : Nat, (k : Int) < matA.GetColumns →
              matA.GetElem i k = .ok (a k) ∧ matB.GetElem k j = .ok (b k)) ∧
            matC.GetElem i j = .ok c ∧
            mat.GetElem i j = .ok (wrapInt
              (wrapInt (∑ k ∈ Finset.range matA.GetColumns.toNat, a k * b k) + c)) := by
  by_cases hd : matA.GetColumns ≠ matB.GetRows
  · refine ⟨none, ?_, by simp [hd], fun mat h => (by cases h)⟩
    unfold RowMatrixOperations.GemmMatrices
    rw [(multiply_none_iff matA matB).2 hd]
    rfl
  · have hdim0 : matA.GetColumns = matB.GetRows := by
      by_contra hne
      exact hd hne
    obtain ⟨hs0, hfit⟩ := hsize hdim0
    have hdim : matA.cols = matB.rows := hdim0
    unfold RowMatrix.GetRows RowMatrix.GetColumns at hs0 hfit
    have hneg : matA.rows = 0 ∨ 0 ≤ matB.cols := by
      by_contra hcon
      simp only [not_or, not_le] at hcon
      have hpos : 0 < matA.rows := lt_of_le_of_ne hA.rows_nonneg (Ne.symm hcon.1)
      have := mul_neg_of_pos_of_neg hpos hcon.2
      omega
    obtain ⟨multi, hmul, hwm, hrm, hcm, hentm⟩ := multiply_spec hA hB hdim hneg hfit
    by_cases hd2 : multi.GetRows ≠ matC.GetRows ∨ multi.GetColumns ≠ matC.GetColumns
    · refine ⟨none, ?_, ?_, fun mat h => (by cases h)⟩
      · unfold RowMatrixOperations.GemmMatrices
        rw [hmul]
        simp only [bind, Except.bind, (add_none_iff multi matC).2 hd2]
        rfl
      · simp only [true_iff]
        right
        unfold RowMatrix.GetRows RowMatrix.GetColumns at hd2 ⊢
        rw [hrm, hcm] at hd2
        exact hd2
    · have hr : multi.rows = matC.rows := by
        by_contra hne
        exact hd2 (Or.inl hne)
      have hc : multi.cols = matC.cols := by
        by_contra hne
        exact hd2 (Or.inr hne)
      obtain ⟨m, hadd, hw, hr1, hc1, hent⟩ := add_spec hwm hC hr hc
      refine ⟨some m, ?_, ?_, ?_⟩
      · unfold RowMatrixOperations.GemmMatrices
        rw [hmul]
        simp only [bind, Except.bind, hadd]
        rfl
      · refine ⟨fun h => (by cases h), fun h => ?_⟩
        exfalso
        unfold RowMatrix.GetRows RowMatrix.GetColumns at hd h
        rcases h with h | h | h
        · exact hd h
        · exact h (by rw [← hrm, hr])
        · exact h (by rw [← hcm, hc])
      · intro mat hmat
        cases hmat
        refine ⟨hw, hr1.trans hr, hc1.trans hc, ⟨multi, hmul, hadd⟩, ?_⟩
        intro i j hi0 hi hj0 hj
        have hi1 : i < multi.rows := by rw [← hr1]; exact hi
        have hj1 : j < multi.cols := by rw [← hc1]; exact hj
        obtain ⟨hread, hgetm⟩ := multiply_entry hA hB hdim hwm hrm hcm hentm hi0 hi1 hj0 hj1
        refine ⟨fun k => matA.entry i.toNat k, fun k => matB.entry k j.toNat,
          matC.entry i.toNat j.toNat, hread,
          RowMatrix.GetElem_int hC hi0 (by rw [← hr]; exact hi1) hj0 (by rw [← hc]; exact hj1),
          ?_⟩
        rw [RowMatrix.GetElem_int hw hi0 hi hj0 hj, hent i.toNat j.toNat (by omega) (by omega),
          hentm i.toNat j.toNat (by omega) (by omega)]
        rfl

theorem C18_gemm_matrices_witness :
    matP.WF ∧ matQ.WF ∧ matP.WF ∧
      (matP.GetColumns = matQ.GetRows →
        0 ≤ matP.GetRows * matQ.GetColumns ∧ matP.GetRows * matQ.GetColumns < 2147483648) ∧
      ∃ res, RowMatrixOperations.GemmMatrices matP matQ matP = .ok res ∧
        (res = none ↔ (matP.GetColumns ≠ matQ.GetRows ∨ matP.GetRows ≠ matP.GetRows ∨
          matQ.GetColumns ≠ matP.GetColumns)) ∧
        ∀ mat, res = some mat →
          mat.WF ∧ mat.GetRows = matP.GetRows ∧ mat.GetColumns = matP.GetColumns ∧
          (∃ multi, RowMatrixOperations.MultiplyMatrices matP matQ = .ok (some multi) ∧
            RowMatrixOperations.AddMatrices multi matP = .ok (some mat)) ∧
          ∀ i j : Int, 0 ≤ i → i < mat.GetRows → 0 ≤ j → j < mat.GetColumns →
            ∃ (a b : Nat → Int) (c : Int),
              (∀ k : Nat, (k : Int) < matP.GetColumns →
                matP.GetElem i k = .ok (a k) ∧ matQ.GetElem k j = .ok (b k)) ∧
              matP.GetElem i j = .ok c ∧
              mat.GetElem i j = .ok (wrapInt
                (wrapInt (∑ k ∈ Finset.range matP.GetColumns.toNat, a k * b k) + c)) :=
  ⟨matP_WF, matQ_WF, matP_WF, fun _ => ⟨by decide, by decide⟩,
    C18_gemm_matrices matP matQ matP matP_WF matQ_WF matP_WF
      (fun _ => ⟨by decide, by decide⟩)⟩

end bustub
